import Mathlib

/-!
Shallow embedding of the poker hand engine of `realtime-poker`
(`src/unnamed/part_008`, second copy, lines 869-1666: `createDeck`,
`shuffleDeck`, `dealCards`, `startGame`, `startNextHand`, `getValidActions`,
`processAction`, `getActivePlayers`, `isBettingRoundComplete`,
`advanceToNextPlayer`, `canAnyoneAct`, `advancePhase`, `cardValue`,
`getCombinations`, `isFlush`, `isStraight`, `getRankCounts`, `scoreHand`,
`evaluateHand`, `calculateSidePots`, `determineWinners`) together with the
hand-completion chip award of the room controller
(`src/unnamed/part_005`, `handleHandComplete`).

Modelling conventions:
* JavaScript `Map<string, T>` becomes an insertion-ordered association list
  `List (String × T)`; `Set<string>` becomes an insertion-ordered `List String`
  without duplicates (`saAdd`).
* Chip quantities are `Nat`.  Every chip movement in the source is capped by
  `Math.min(_, chips)` so stacks never go negative; where the source computes
  a possibly negative intermediate (`currentBet - playerBet` in
  `getValidActions`) the embedding uses `Int` to keep the comparisons exact.
* `Math.random`-driven pieces (`shuffleDeck`'s Fisher-Yates indices, the
  initial dealer of `startGame`) are passed in explicitly as parameters.
* Where the source would crash on `undefined` (`players.get(id)!` for an id
  that is absent), the embedding threads `Option` and skips the entry; all
  states exercised by the claims have the id present.
-/

namespace Poker

inductive Suit
  | hearts | diamonds | clubs | spades
  deriving DecidableEq, Repr

inductive Rank
  | r2 | r3 | r4 | r5 | r6 | r7 | r8 | r9 | r10 | rJ | rQ | rK | rA
  deriving DecidableEq, Repr

structure Card where
  suit : Suit
  rank : Rank
  deriving DecidableEq, Repr

inductive PlayerStatus
  | waiting | active | folded | allIn | out
  deriving DecidableEq, Repr

inductive GamePhase
  | waiting | preflop | flop | turn | river | showdown | complete
  deriving DecidableEq, Repr

inductive ActionType
  | fold | check | call | bet | raise | allIn
  deriving DecidableEq, Repr

structure Player where
  id : String
  name : String
  chips : Nat
  bet : Nat
  hand : List Card
  status : PlayerStatus
  isDealer : Bool
  isSmallBlind : Bool
  isBigBlind : Bool
  deriving DecidableEq, Repr

/-- Insertion-ordered association list, the embedding of a JS `Map`. -/
abbrev AList (ν : Type) := List (String × ν)

/-- `m.get(k)` on a JS `Map`. -/
def lookupA {ν : Type} (m : AList ν) (k : String) : Option ν :=
  (m.find? (fun e => e.1 == k)).map (·.2)

/-- `m.get(k) || d` (the source always uses `|| 0`). -/
def getDA {ν : Type} (m : AList ν) (k : String) (d : ν) : ν :=
  (lookupA m k).getD d

/-- `m.set(k, v)` on a JS `Map`: replace the binding in place, or append. -/
def setA {ν : Type} : AList ν → String → ν → AList ν
  | [], k, v => [(k, v)]
  | e :: rest, k, v => if e.1 == k then (k, v) :: rest else e :: setA rest k v

/-- Sum of all values of a `Nat`-valued JS `Map`. -/
def sumA (m : AList Nat) : Nat := (m.map (·.2)).sum

/-- `s.add(x)` on a JS `Set` (insertion-ordered, no duplicates). -/
def saAdd (s : List String) (x : String) : List String :=
  if s.contains x then s else s ++ [x]

abbrev Players := AList Player

structure GameState where
  roomId : String
  phase : GamePhase
  deck : List Card
  communityCards : List Card
  pot : Nat
  currentBet : Nat
  minRaise : Nat
  bigBlind : Nat
  currentPlayerIndex : Nat
  dealerIndex : Nat
  playerOrder : List String
  roundBets : AList Nat
  playerContributions : AList Nat
  playersActed : List String
  lastRaiser : Option String
  handNumber : Nat
  deriving DecidableEq, Repr

structure Room where
  id : String
  name : String
  players : Players
  maxPlayers : Nat
  smallBlind : Nat
  bigBlind : Nat
  gameState : Option GameState
  deriving DecidableEq, Repr

/-! ### Basic lemmas about the association-list embedding of JS `Map` -/

theorem lookupA_setA_self {ν : Type} (m : AList ν) (k : String) (v : ν) :
    lookupA (setA m k v) k = some v := by
  induction m with
  | nil => simp [lookupA, setA]
  | cons e rest ih =>
      by_cases h : e.1 = k
      · simp [setA, h, lookupA]
      · have hbeq : (e.1 == k) = false := by simp [h]
        simp [setA, hbeq, lookupA] at ih ⊢
        exact ih

theorem lookupA_cons {ν : Type} (e : String × ν) (rest : AList ν) (k : String) :
    lookupA (e :: rest) k = if e.1 == k then some e.2 else lookupA rest k := by
  by_cases h : e.1 = k <;> simp [lookupA, List.find?_cons, h]

theorem lookupA_setA_ne {ν : Type} (m : AList ν) (k k' : String) (v : ν)
    (h : k ≠ k') : lookupA (setA m k v) k' = lookupA m k' := by
  induction m with
  | nil => simp [lookupA, setA, h]
  | cons e rest ih =>
      by_cases he : e.1 = k
      · subst he
        simp [setA, lookupA_cons, h]
      · have hbeq : (e.1 == k) = false := by simp [he]
        simp only [setA, hbeq, Bool.false_eq_true, if_false, lookupA_cons, ih]

/-- Bumping one binding of a `Nat` map by `x` bumps the total by `x`.
The source pattern is `m.set(k, (m.get(k) || 0) + x)`. -/
theorem sumA_setA_add (m : AList Nat) (k : String) (x : Nat) :
    sumA (setA m k (getDA m k 0 + x)) = sumA m + x := by
  induction m with
  | nil => simp [sumA, setA, getDA, lookupA]
  | cons e rest ih =>
      by_cases h : e.1 = k
      · simp [setA, h, sumA, getDA, lookupA]
        omega
      · have hbeq : (e.1 == k) = false := by simp [h]
        simp [setA, hbeq, sumA, getDA, lookupA] at ih ⊢
        omega

/-! ### Deck (`createDeck`, `shuffleDeck`, `dealCards`)

`shuffleDeck` runs a Fisher-Yates loop whose random index
`Math.floor(Math.random() * (i + 1))` lies in `[0, i]`; the embedding takes
the drawn indices as a function `rand` and caps them at `i` exactly as the
source's draw is bounded. -/

def SUITS : List Suit := [Suit.hearts, Suit.diamonds, Suit.clubs, Suit.spades]

def RANKS : List Rank :=
  [Rank.r2, Rank.r3, Rank.r4, Rank.r5, Rank.r6, Rank.r7, Rank.r8, Rank.r9,
   Rank.r10, Rank.rJ, Rank.rQ, Rank.rK, Rank.rA]

/-- The 52-card deck in construction order (suit-major), before shuffling. -/
def freshDeck : List Card := SUITS.flatMap (fun s => RANKS.map (fun r => ⟨s, r⟩))

/-- `[shuffled[i], shuffled[j]] = [shuffled[j], shuffled[i]]`. -/
def swapAt {α : Type} (l : List α) (i j : Nat) : List α :=
  match l[i]?, l[j]? with
  | some a, some b => (l.set i b).set j a
  | _, _ => l

/-- The Fisher-Yates loop `for (let i = n-1; i > 0; i--)`. -/
def shuffleIter {α : Type} (rand : Nat → Nat) : List α → Nat → List α
  | l, 0 => l
  | l, i + 1 => shuffleIter rand (swapAt l (i + 1) (min (rand (i + 1)) (i + 1))) i

def shuffleDeck (rand : Nat → Nat) (deck : List Card) : List Card :=
  shuffleIter rand deck (deck.length - 1)

def createDeck (rand : Nat → Nat) : List Card := shuffleDeck rand freshDeck

/-- `deck.splice(0, count)`: the dealt cards and the remaining deck. -/
def dealCards (deck : List Card) (count : Nat) : List Card × List Card :=
  (deck.take count, deck.drop count)

/-! ### Legal actions and turn bookkeeping -/

/-- `getValidActions`.  `toCall` is computed in `Int` because the source
subtraction `currentBet - playerBet` is not clamped. -/
def getValidActions (gs : GameState) (player : Player) : List ActionType :=
  if player.status ≠ PlayerStatus.active then []
  else
    let playerBet := getDA gs.roundBets player.id 0
    let toCall : Int := (gs.currentBet : Int) - (playerBet : Int)
    [ActionType.fold]
      ++ (if toCall = 0 then [ActionType.check] else [])
      ++ (if 0 < toCall ∧ 0 < player.chips then [ActionType.call] else [])
      ++ (if toCall < (player.chips : Int) then
            (if gs.currentBet = 0 then [ActionType.bet] else [ActionType.raise])
          else [])
      ++ (if 0 < player.chips then [ActionType.allIn] else [])

def getActivePlayers (gs : GameState) (players : Players) : List Player :=
  (gs.playerOrder.filterMap (fun id => lookupA players id)).filter
    (fun p => p.status == PlayerStatus.active || p.status == PlayerStatus.allIn)

def isBettingRoundComplete (gs : GameState) (players : Players) : Bool :=
  let activePlayers := (gs.playerOrder.filterMap (fun id => lookupA players id)).filter
    (fun p => p.status == PlayerStatus.active)
  activePlayers.all (fun p => gs.playersActed.contains p.id) &&
    activePlayers.all (fun p => !(getDA gs.roundBets p.id 0 < gs.currentBet : Bool))

def advanceToNextPlayer (gs : GameState) (players : Players) : GameState :=
  let numPlayers := gs.playerOrder.length
  let start := (gs.currentPlayerIndex + 1) % numPlayers
  match (List.range numPlayers).find? (fun i =>
      match gs.playerOrder[(start + i) % numPlayers]? with
      | some pid =>
          match lookupA players pid with
          | some p => p.status == PlayerStatus.active
          | none => false
      | none => false) with
  | some i => { gs with currentPlayerIndex := (start + i) % numPlayers }
  | none => gs

def canAnyoneAct (gs : GameState) (players : Players) : Bool :=
  2 ≤ ((gs.playerOrder.filterMap (fun id => lookupA players id)).filter
    (fun p => p.status == PlayerStatus.active)).length

inductive PhaseAdv
  | handDone | runout | betOn
  deriving DecidableEq, Repr

/-- The `// Find first active player` loop of `advancePhase`: set
`currentPlayerIndex` to the first active seat clockwise from the dealer,
leaving it alone when none is found. -/
def firstActiveFromDealer (gs1 : GameState) (players : Players) : GameState :=
  let numPlayers := gs1.playerOrder.length
  let start := (gs1.dealerIndex + 1) % numPlayers
  match (List.range numPlayers).find? (fun i =>
      match gs1.playerOrder[(start + i) % numPlayers]? with
      | some pid =>
          match lookupA players pid with
          | some p => p.status == PlayerStatus.active
          | none => false
      | none => false) with
  | some i => { gs1 with currentPlayerIndex := (start + i) % numPlayers }
  | none => gs1

/-- `advancePhase`: reset the street, move `currentPlayerIndex` to the first
active seat clockwise from the dealer, deal the next street, and report
whether the hand is done / a run-out is needed / betting continues. -/
def advancePhase (gs0 : GameState) (players0 : Players) :
    GameState × Players × PhaseAdv :=
  let gs1 := { gs0 with
    roundBets := [], playersActed := [], currentBet := 0,
    minRaise := gs0.bigBlind, lastRaiser := none }
  let players := players0.map (fun e => (e.1, { e.2 with bet := 0 }))
  let gs := firstActiveFromDealer gs1 players
  match gs.phase with
  | GamePhase.preflop =>
      let gs' := { gs with
        phase := GamePhase.flop,
        communityCards := gs.communityCards ++ gs.deck.take 3,
        deck := gs.deck.drop 3 }
      if canAnyoneAct gs' players then (gs', players, PhaseAdv.betOn)
      else (gs', players, PhaseAdv.runout)
  | GamePhase.flop =>
      let gs' := { gs with
        phase := GamePhase.turn,
        communityCards := gs.communityCards ++ gs.deck.take 1,
        deck := gs.deck.drop 1 }
      if canAnyoneAct gs' players then (gs', players, PhaseAdv.betOn)
      else (gs', players, PhaseAdv.runout)
  | GamePhase.turn =>
      let gs' := { gs with
        phase := GamePhase.river,
        communityCards := gs.communityCards ++ gs.deck.take 1,
        deck := gs.deck.drop 1 }
      if canAnyoneAct gs' players then (gs', players, PhaseAdv.betOn)
      else (gs', players, PhaseAdv.runout)
  | GamePhase.river =>
      ({ gs with phase := GamePhase.showdown }, players, PhaseAdv.handDone)
  | _ => (gs, players, PhaseAdv.handDone)

inductive RunoutResult
  | showdown | runout
  deriving DecidableEq, Repr

def advanceRunoutPhase (gs : GameState) (players : Players) :
    GameState × Players × RunoutResult :=
  match advancePhase gs players with
  | (gs', players', PhaseAdv.handDone) => (gs', players', RunoutResult.showdown)
  | (gs', players', PhaseAdv.runout) => (gs', players', RunoutResult.runout)
  | (gs', players', PhaseAdv.betOn) => (gs', players', RunoutResult.showdown)

/-! ### `processAction` -/

structure ActionResult where
  success : Bool
  error : Option String
  roundComplete : Bool
  handComplete : Bool
  runout : Bool
  deriving DecidableEq, Repr

/-- The `call` case of the `switch`: keyed by `playerId` exactly as the
source reads `roundBets.get(playerId)`. -/
def applyCall (gs : GameState) (player : Player) (playerId : String) :
    GameState × Player :=
  let playerBet := getDA gs.roundBets playerId 0
  let toCall := gs.currentBet - playerBet
  let callAmount := min toCall player.chips
  let player' := { player with
    chips := player.chips - callAmount,
    bet := player.bet + callAmount,
    status := if player.chips - callAmount = 0 then PlayerStatus.allIn else player.status }
  let gs' := { gs with
    pot := gs.pot + callAmount,
    roundBets := setA gs.roundBets playerId (getDA gs.roundBets playerId 0 + callAmount),
    playerContributions :=
      setA gs.playerContributions playerId (getDA gs.playerContributions playerId 0 + callAmount) }
  (gs', player')

/-- The post-validation part of the `bet`/`raise` case. -/
def applyBetRaise (gs : GameState) (player : Player) (playerId : String)
    (targetTotal : Nat) : GameState × Player :=
  let playerBet := getDA gs.roundBets playerId 0
  let amountToAdd := targetTotal - playerBet
  let actualAdd := min amountToAdd player.chips
  let player' := { player with
    chips := player.chips - actualAdd,
    bet := player.bet + actualAdd,
    status := if player.chips - actualAdd = 0 then PlayerStatus.allIn else player.status }
  let newTotal := playerBet + actualAdd
  let gs' := { gs with
    pot := gs.pot + actualAdd,
    roundBets := setA gs.roundBets playerId newTotal,
    playerContributions :=
      setA gs.playerContributions playerId (getDA gs.playerContributions playerId 0 + actualAdd),
    minRaise := newTotal,
    currentBet := newTotal,
    playersActed := [playerId],
    lastRaiser := some playerId }
  (gs', player')

/-- The `all-in` case. -/
def applyAllIn (gs : GameState) (player : Player) (playerId : String) :
    GameState × Player :=
  let allInAmount := player.chips
  let player' := { player with
    chips := 0, bet := player.bet + allInAmount, status := PlayerStatus.allIn }
  let newBet := getDA gs.roundBets playerId 0 + allInAmount
  let gs1 := { gs with
    pot := gs.pot + allInAmount,
    roundBets := setA gs.roundBets playerId newBet,
    playerContributions :=
      setA gs.playerContributions playerId (getDA gs.playerContributions playerId 0 + allInAmount) }
  if gs.currentBet < newBet then
    ({ gs1 with currentBet := newBet, playersActed := [playerId],
                lastRaiser := some playerId }, player')
  else (gs1, player')

/-- The tail of `processAction`: hand-over check, betting-round-complete
check with phase advance, or move to the next player. -/
def finishAction (gs : GameState) (players : Players) :
    ActionResult × GameState × Players :=
  if (getActivePlayers gs players).length = 1 then
    (⟨true, none, true, true, false⟩, { gs with phase := GamePhase.complete }, players)
  else if isBettingRoundComplete gs players then
    match advancePhase gs players with
    | (gs', players', PhaseAdv.runout) => (⟨true, none, true, false, true⟩, gs', players')
    | (gs', players', PhaseAdv.handDone) => (⟨true, none, true, true, false⟩, gs', players')
    | (gs', players', PhaseAdv.betOn) => (⟨true, none, true, false, false⟩, gs', players')
  else
    (⟨true, none, false, false, false⟩, advanceToNextPlayer gs players, players)

def processAction (gs0 : GameState) (players : Players) (playerId : String)
    (action : ActionType) (amount : Option Nat) :
    ActionResult × GameState × Players :=
  match lookupA players playerId with
  | none => (⟨false, some "Player not found", false, false, false⟩, gs0, players)
  | some player =>
    if gs0.playerOrder[gs0.currentPlayerIndex]? ≠ some playerId then
      (⟨false, some "Not your turn", false, false, false⟩, gs0, players)
    else if action ∉ getValidActions gs0 player then
      (⟨false, some "Invalid action", false, false, false⟩, gs0, players)
    else
      -- the source marks the player as having acted before the `switch`
      let gs := { gs0 with playersActed := saAdd gs0.playersActed playerId }
      match action with
      | ActionType.fold =>
          finishAction gs (setA players playerId { player with status := PlayerStatus.folded })
      | ActionType.check => finishAction gs players
      | ActionType.call =>
          let r := applyCall gs player playerId
          finishAction r.1 (setA players playerId r.2)
      | ActionType.bet | ActionType.raise =>
          let playerBet := getDA gs.roundBets playerId 0
          let minBetTotal := if action = ActionType.bet then gs.bigBlind else gs.currentBet * 2
          -- `amount || minBetTotal`: a missing or zero amount defaults
          let targetTotal := match amount with
            | none => minBetTotal
            | some a => if a = 0 then minBetTotal else a
          if targetTotal < minBetTotal ∧ targetTotal < player.chips + playerBet then
            (⟨false, some (s!"Minimum raise is {minBetTotal}"), false, false, false⟩, gs, players)
          else
            let r := applyBetRaise gs player playerId targetTotal
            finishAction r.1 (setA players playerId r.2)
      | ActionType.allIn =>
          let r := applyAllIn gs player playerId
          finishAction r.1 (setA players playerId r.2)

/-! ### Hand start (`startGame`, `startNextHand`) -/

/-- Posting one blind (`Math.min(chips, blindAmount)`; `bet`, `roundBets`
and `playerContributions` are assigned, not incremented). -/
def postBlind (gs : GameState) (players : Players) (blindId : String)
    (blindCap : Nat) : GameState × Players :=
  match lookupA players blindId with
  | none => (gs, players)
  | some p =>
      let amt := min p.chips blindCap
      let p' := { p with chips := p.chips - amt, bet := amt }
      let gs' := { gs with
        roundBets := setA gs.roundBets blindId amt,
        playerContributions := setA gs.playerContributions blindId amt,
        pot := gs.pot + amt }
      (gs', setA players blindId p')

/-- The per-seat setup loop: deal two cards from the head of the deck and
set status/bet/position flags by index. -/
def dealLoop (players : Players) (order : List String) (deck : List Card)
    (i dealerIndex sbIndex bbIndex : Nat) : Players × List Card :=
  match order with
  | [] => (players, deck)
  | pid :: rest =>
      let players' := match lookupA players pid with
        | some p => setA players pid { p with
            hand := deck.take 2, status := PlayerStatus.active, bet := 0,
            isDealer := i == dealerIndex, isSmallBlind := i == sbIndex,
            isBigBlind := i == bbIndex }
        | none => players
      dealLoop players' rest (deck.drop 2) (i + 1) dealerIndex sbIndex bbIndex

/-- The `startNextHand` loop clearing position flags, hands and bets. -/
def clearSeats (ps : Players) : Players :=
  ps.map (fun e => (e.1, { e.2 with
      isDealer := false, isSmallBlind := false, isBigBlind := false,
      hand := ([] : List Card), bet := 0 }))

/-- The `startNextHand` loop marking seats with no chips as `out`. -/
def markBroke (ps : Players) : Players :=
  ps.map (fun e => (e.1,
      if e.2.chips = 0 then { e.2 with status := PlayerStatus.out } else e.2))

/-- `Array.from(players.keys()).filter(id => players.get(id)!.status !== 'out')`. -/
def eligibleOrder (ps : Players) : List String :=
  (ps.map (·.1)).filter (fun id =>
    match lookupA ps id with
    | some p => p.status != PlayerStatus.out
    | none => false)

/-- `startNextHand(room, previousDealerIndex)` with the freshly created deck
passed in (`createDeck()` in the source draws from `Math.random`).  Returns
`none` when fewer than two seats still have chips. -/
def startNextHand (room : Room) (previousDealerIndex : Nat)
    (deck0 : List Card) : Option (GameState × Players) :=
  let ps2 := markBroke (clearSeats room.players)
  if (ps2.filter (fun e => e.2.status != PlayerStatus.out)).length < 2 then none
  else
    let playerOrder := eligibleOrder ps2
    let numPlayers := playerOrder.length
    let dealerIndex := (previousDealerIndex + 1) % numPlayers
    let smallBlindIndex := (dealerIndex + 1) % numPlayers
    let bigBlindIndex := (dealerIndex + 2) % numPlayers
    let firstToActIndex := if numPlayers = 2 then smallBlindIndex
                           else (dealerIndex + 3) % numPlayers
    let dealt := dealLoop ps2 playerOrder deck0 0 dealerIndex smallBlindIndex bigBlindIndex
    let gs : GameState := {
      roomId := room.id, phase := GamePhase.preflop, deck := dealt.2,
      communityCards := [], pot := 0, currentBet := room.bigBlind,
      minRaise := room.bigBlind, bigBlind := room.bigBlind,
      currentPlayerIndex := firstToActIndex, dealerIndex := dealerIndex,
      playerOrder := playerOrder, roundBets := [], playerContributions := [],
      playersActed := [], lastRaiser := playerOrder[bigBlindIndex]?,
      handNumber := ((room.gameState.map (·.handNumber)).getD 0) + 1 }
    match playerOrder[smallBlindIndex]?, playerOrder[bigBlindIndex]? with
    | some sbId, some bbId =>
        let r1 := postBlind gs dealt.1 sbId room.smallBlind
        let r2 := postBlind r1.1 r1.2 bbId room.bigBlind
        some r2
    | _, _ => none

/-- `startGame(room)` with the random dealer index and the created deck
passed in; `Math.floor(Math.random() * numPlayers)` lies in
`[0, numPlayers)`, hence the `% numPlayers`.  There is no heads-up special
case here: first to act is always `(dealerIndex + 3) % numPlayers`. -/
def startGame (room : Room) (dealerPick : Nat) (deck0 : List Card) :
    Option (GameState × Players) :=
  let playerOrder := room.players.map (·.1)
  let numPlayers := playerOrder.length
  let dealerIndex := dealerPick % numPlayers
  let smallBlindIndex := (dealerIndex + 1) % numPlayers
  let bigBlindIndex := (dealerIndex + 2) % numPlayers
  let firstToActIndex := (dealerIndex + 3) % numPlayers
  let dealt := dealLoop room.players playerOrder deck0 0 dealerIndex smallBlindIndex bigBlindIndex
  let gs : GameState := {
    roomId := room.id, phase := GamePhase.preflop, deck := dealt.2,
    communityCards := [], pot := 0, currentBet := room.bigBlind,
    minRaise := room.bigBlind, bigBlind := room.bigBlind,
    currentPlayerIndex := firstToActIndex, dealerIndex := dealerIndex,
    playerOrder := playerOrder, roundBets := [], playerContributions := [],
    playersActed := [], lastRaiser := playerOrder[bigBlindIndex]?,
    handNumber := 1 }
  match playerOrder[smallBlindIndex]?, playerOrder[bigBlindIndex]? with
  | some sbId, some bbId =>
      let r1 := postBlind gs dealt.1 sbId room.smallBlind
      let r2 := postBlind r1.1 r1.2 bbId room.bigBlind
      some r2
  | _, _ => none

/-! ### Hand evaluation -/

inductive HandRank
  | highCard | pair | twoPair | threeOfAKind | straight | flush
  | fullHouse | fourOfAKind | straightFlush | royalFlush
  deriving DecidableEq, Repr

structure HandResult where
  playerId : String
  rank : HandRank
  cards : List Card
  score : Nat
  deriving DecidableEq, Repr

structure Winner where
  playerId : String
  amount : Nat
  handResult : HandResult
  deriving DecidableEq, Repr

def cardValue : Rank → Nat
  | Rank.r2 => 2 | Rank.r3 => 3 | Rank.r4 => 4 | Rank.r5 => 5 | Rank.r6 => 6
  | Rank.r7 => 7 | Rank.r8 => 8 | Rank.r9 => 9 | Rank.r10 => 10
  | Rank.rJ => 11 | Rank.rQ => 12 | Rank.rK => 13 | Rank.rA => 14

/-- `getCombinations`' recursive `combine`, in its enumeration order:
all subsets containing the head first, then those without it. -/
def combos {α : Type} : List α → Nat → List (List α)
  | _, 0 => [[]]
  | [], _ + 1 => []
  | c :: cs, k + 1 => (combos cs k).map (fun t => c :: t) ++ combos cs (k + 1)

def getCombinations (cards : List Card) (size : Nat) : List (List Card) :=
  combos cards size

def isFlush (cards : List Card) : Bool :=
  match cards with
  | [] => true
  | c :: _ => cards.all (fun x => x.suit == c.suit)

/-- The consecutive check `values[i] === values[i-1] + 1` over a sorted list. -/
def consecCheck : List Nat → Bool
  | [] => true
  | [_] => true
  | a :: b :: t => (b == a + 1) && consecCheck (b :: t)

def isStraight (cards : List Card) : Bool :=
  let values := (cards.map (fun c => cardValue c.rank)).mergeSort (fun a b => decide (a ≤ b))
  if values[4]?.getD 0 == 14 && values[0]?.getD 0 == 2 && values[1]?.getD 0 == 3 &&
     values[2]?.getD 0 == 4 && values[3]?.getD 0 == 5 then true
  else consecCheck values

def lookupN (m : List (Nat × Nat)) (k : Nat) : Option Nat :=
  (m.find? (fun e => e.1 == k)).map (·.2)

def setN : List (Nat × Nat) → Nat → Nat → List (Nat × Nat)
  | [], k, v => [(k, v)]
  | e :: rest, k, v => if e.1 == k then (k, v) :: rest else e :: setN rest k v

/-- `getRankCounts`: a `Map` from card value to multiplicity, in first-seen
order. -/
def getRankCounts (cards : List Card) : List (Nat × Nat) :=
  cards.foldl (fun counts c =>
    let v := cardValue c.rank
    setN counts v ((lookupN counts v).getD 0 + 1)) []

structure ScoreResult where
  rank : HandRank
  score : Nat
  deriving DecidableEq, Repr

/-- The unrolled `for (i = 0; i < 5; i++) baseScore += values[i] * 10^(8-2i)`. -/
def kickerSum (values : List Nat) : Nat :=
  values[0]?.getD 0 * 10 ^ 8 + values[1]?.getD 0 * 10 ^ 6 + values[2]?.getD 0 * 10 ^ 4 +
    values[3]?.getD 0 * 10 ^ 2 + values[4]?.getD 0

def scoreHand (cards : List Card) : ScoreResult :=
  let flush := isFlush cards
  let straight := isStraight cards
  let values := (cards.map (fun c => cardValue c.rank)).mergeSort (fun a b => decide (b ≤ a))
  let counts := getRankCounts cards
  let countValues := counts.mergeSort (fun x y =>
      decide (if x.2 = y.2 then y.1 ≤ x.1 else y.2 ≤ x.2))
  let cv := fun i => (countValues[i]?.getD (0, 0))
  if flush && straight && values[0]?.getD 0 == 14 && values[4]?.getD 0 == 10 then
    ⟨HandRank.royalFlush, 9 * 10 ^ 10⟩
  else if flush && straight then
    let highCard := if values[0]?.getD 0 == 14 && values[1]?.getD 0 == 5 then 5
                    else values[0]?.getD 0
    ⟨HandRank.straightFlush, 8 * 10 ^ 10 + highCard⟩
  else if (cv 0).2 == 4 then
    ⟨HandRank.fourOfAKind, 7 * 10 ^ 10 + (cv 0).1 * 10 ^ 8 + (cv 1).1⟩
  else if (cv 0).2 == 3 && (cv 1).2 == 2 then
    ⟨HandRank.fullHouse, 6 * 10 ^ 10 + (cv 0).1 * 10 ^ 8 + (cv 1).1⟩
  else if flush then
    ⟨HandRank.flush, 5 * 10 ^ 10 + kickerSum values⟩
  else if straight then
    let highCard := if values[0]?.getD 0 == 14 && values[1]?.getD 0 == 5 then 5
                    else values[0]?.getD 0
    ⟨HandRank.straight, 4 * 10 ^ 10 + highCard⟩
  else if (cv 0).2 == 3 then
    let kickers := ((countValues.drop 1).map (·.1)).mergeSort (fun a b => decide (b ≤ a))
    ⟨HandRank.threeOfAKind, 3 * 10 ^ 10 + (cv 0).1 * 10 ^ 8 +
      kickers[0]?.getD 0 * 10 ^ 6 + kickers[1]?.getD 0 * 10 ^ 4⟩
  else if (cv 0).2 == 2 && (cv 1).2 == 2 then
    let highPair := max (cv 0).1 (cv 1).1
    let lowPair := min (cv 0).1 (cv 1).1
    ⟨HandRank.twoPair, 2 * 10 ^ 10 + highPair * 10 ^ 8 + lowPair * 10 ^ 6 + (cv 2).1⟩
  else if (cv 0).2 == 2 then
    let kickers := ((countValues.drop 1).map (·.1)).mergeSort (fun a b => decide (b ≤ a))
    ⟨HandRank.pair, 1 * 10 ^ 10 + (cv 0).1 * 10 ^ 8 + kickers[0]?.getD 0 * 10 ^ 6 +
      kickers[1]?.getD 0 * 10 ^ 4 + kickers[2]?.getD 0 * 10 ^ 2⟩
  else
    ⟨HandRank.highCard, kickerSum values⟩

def evaluateHand (cards : List Card) (playerId : String) : HandResult :=
  if cards.length < 5 then ⟨playerId, HandRank.highCard, [], 0⟩
  else
    let combinations := getCombinations cards 5
    let best := combinations.foldl (fun acc combo =>
        let result := scoreHand combo
        if acc.1.score < result.score then (result, combo) else acc)
      ((⟨HandRank.highCard, 0⟩ : ScoreResult), ([] : List Card))
    ⟨playerId, best.1.rank, best.2, best.1.score⟩

/-! ### Side pots and winners -/

structure ContribEntry where
  playerId : String
  amount : Nat
  folded : Bool
  deriving DecidableEq, Repr

structure SidePotDTO where
  amount : Nat
  eligiblePlayerIds : List String
  deriving DecidableEq, Repr

/-- `[...new Set(xs)]`: first occurrences, in order. -/
def dedupKeepFirst (xs : List Nat) : List Nat :=
  xs.foldl (fun acc x => if acc.contains x then acc else acc ++ [x]) []

/-- One step of the trailing merge of pots with identical eligible sets. -/
def mergeStep (merged : List SidePotDTO) (pot : SidePotDTO) : List SidePotDTO :=
  match merged.getLast? with
  | none => merged ++ [pot]
  | some last =>
      if (last.eligiblePlayerIds.length == pot.eligiblePlayerIds.length) &&
         last.eligiblePlayerIds.all (fun id => pot.eligiblePlayerIds.contains id) then
        merged.dropLast ++ [{ last with amount := last.amount + pot.amount }]
      else merged ++ [pot]

/-- The layer loop of `calculateSidePots`: one pot per contribution level,
carrying the previous level in the accumulator. -/
def potsLoop (contributions : List ContribEntry)
    (acc : List SidePotDTO × Nat) : List Nat → List SidePotDTO × Nat
  | [] => acc
  | level :: rest =>
      let layerSize := level - acc.2
      if layerSize = 0 then potsLoop contributions acc rest
      else
        let contributorsAtLevel := contributions.filter
          (fun c => decide (level ≤ c.amount))
        let potAmount := layerSize * contributorsAtLevel.length
        let eligible :=
          (contributorsAtLevel.filter (fun c => !c.folded)).map (·.playerId)
        potsLoop contributions (acc.1 ++ [⟨potAmount, eligible⟩], level) rest

/-- The collection loop of `calculateSidePots`: entries with a positive
contribution, tagged folded when the seat is missing or has folded. -/
def contribEntries (playerContributions : AList Nat) (players : Players) :
    List ContribEntry :=
  playerContributions.filterMap (fun e =>
    if e.2 = 0 then none
    else
      let folded := match lookupA players e.1 with
        | none => true
        | some p => p.status == PlayerStatus.folded
      some (⟨e.1, e.2, folded⟩ : ContribEntry))

def calculateSidePots (playerContributions : AList Nat) (players : Players) :
    List SidePotDTO :=
  let contributions := contribEntries playerContributions players
  if contributions.isEmpty then []
  else
    let levels := (dedupKeepFirst (contributions.map (·.amount))).mergeSort
      (fun a b => decide (a ≤ b))
    let pots := (potsLoop contributions (([] : List SidePotDTO), 0) levels).1
    pots.foldl mergeStep []

def defaultHandResult : HandResult := ⟨"", HandRank.highCard, [], 0⟩

/-- The split-pot inner loop of `determineWinners`: the first tied winner
(enumeration index 0) also receives the odd-chip remainder. -/
def awardSplit (handCache : AList HandResult) (share remainder : Nat) :
    List (Nat × String) → AList Nat × AList HandResult →
      AList Nat × AList HandResult
  | [], acc => acc
  | iw :: rest, acc =>
      awardSplit handCache share remainder rest
        (setA acc.1 iw.2
          (getDA acc.1 iw.2 0 + (share + if iw.1 = 0 then remainder else 0)),
         setA acc.2 iw.2 ((lookupA handCache iw.2).getD defaultHandResult))

/-- One side pot's distribution in `determineWinners`. -/
def awardPot (handCache : AList HandResult)
    (acc : AList Nat × AList HandResult) (pot : SidePotDTO) :
    AList Nat × AList HandResult :=
  let eligible := pot.eligiblePlayerIds.filter
    (fun id => (lookupA handCache id).isSome)
  match eligible with
  | [] => acc
  | [winnerId] =>
      (setA acc.1 winnerId (getDA acc.1 winnerId 0 + pot.amount),
       setA acc.2 winnerId ((lookupA handCache winnerId).getD defaultHandResult))
  | _ :: _ :: _ =>
      let bestScore := (eligible.map (fun id =>
          ((lookupA handCache id).getD defaultHandResult).score)).foldl max 0
      let potWinners := eligible.filter (fun id =>
          ((lookupA handCache id).getD defaultHandResult).score == bestScore)
      let share := pot.amount / potWinners.length
      let remainder := pot.amount - share * potWinners.length
      awardSplit handCache share remainder potWinners.enum acc

def determineWinners (gs : GameState) (players : Players) : List Winner :=
  let sidePots := calculateSidePots gs.playerContributions players
  let activePlayers := getActivePlayers gs players
  let handCache : AList HandResult :=
    activePlayers.map (fun p => (p.id, evaluateHand (p.hand ++ gs.communityCards) p.id))
  let acc := sidePots.foldl (awardPot handCache)
    (([] : AList Nat), ([] : AList HandResult))
  let winners := acc.1.map (fun e =>
      (⟨e.1, e.2, (lookupA acc.2 e.1).getD defaultHandResult⟩ : Winner))
  winners.mergeSort (fun a b => decide (b.amount ≤ a.amount))

/-- The chip-award part of the room controller's `handleHandComplete`
(`src/unnamed/part_005`): a lone remaining seat takes the whole pot with a
sentinel hand result; otherwise `determineWinners` distributes, and each
winner's chips are incremented. -/
def resolveHandComplete (gs : GameState) (players : Players) :
    List Winner × Players :=
  let activePlayers := getActivePlayers gs players
  let winners :=
    if 1 < activePlayers.length then determineWinners gs players
    else match activePlayers with
      | w :: _ => [(⟨w.id, gs.pot, ⟨w.id, HandRank.highCard, [], 0⟩⟩ : Winner)]
      | [] => []
  let players' := winners.foldl (fun ps w =>
      match lookupA ps w.playerId with
      | some p => setA ps w.playerId { p with chips := p.chips + w.amount }
      | none => ps) players
  (winners, players')

/-! ### The shuffle is a permutation -/

theorem swapAt_perm {α : Type} [DecidableEq α] (l : List α) (i j : Nat) :
    (swapAt l i j).Perm l := by
  unfold swapAt
  cases hi : l[i]? with
  | none => exact List.Perm.refl l
  | some a =>
    cases hj : l[j]? with
    | none => exact List.Perm.refl l
    | some b =>
      obtain ⟨hil, hia⟩ := List.getElem?_eq_some_iff.mp hi
      obtain ⟨hjl, hjb⟩ := List.getElem?_eq_some_iff.mp hj
      rw [List.perm_iff_count]
      intro x
      have hjl' : j < (l.set i b).length := by simpa using hjl
      rw [List.count_set _ _ _ _ hjl']
      have hset : (l.set i b)[j] = b := by
        rw [List.getElem_set]
        split <;> simp_all
      rw [hset, List.count_set _ _ _ _ hil, hia]
      have hmem_a : 0 < l.count a := List.count_pos_iff.mpr (hia ▸ l.getElem_mem hil)
      have hmem_b : 0 < l.count b := List.count_pos_iff.mpr (hjb ▸ l.getElem_mem hjl)
      rcases eq_or_ne a x with rfl | hax
      · rcases eq_or_ne b a with rfl | hbx
        · simp only [beq_self_eq_true, if_true]
          omega
        · simp only [beq_self_eq_true, if_true, beq_eq_false_iff_ne.mpr hbx,
            Bool.false_eq_true, if_false]
          omega
      · have ha : (a == x) = false := beq_eq_false_iff_ne.mpr hax
        rcases eq_or_ne b x with rfl | hbx
        · simp only [beq_self_eq_true, if_true, ha, Bool.false_eq_true, if_false]
          omega
        · simp only [ha, beq_eq_false_iff_ne.mpr hbx, Bool.false_eq_true, if_false]
          omega

theorem shuffleIter_perm {α : Type} [DecidableEq α] (rand : Nat → Nat) :
    ∀ (i : Nat) (l : List α), (shuffleIter rand l i).Perm l := by
  intro i
  induction i with
  | zero => intro l; exact List.Perm.refl l
  | succ n ih =>
      intro l
      exact (ih _).trans (swapAt_perm _ _ _)

theorem shuffleDeck_perm (rand : Nat → Nat) (deck : List Card) :
    (shuffleDeck rand deck).Perm deck :=
  shuffleIter_perm rand _ deck

set_option maxRecDepth 100000 in
theorem freshDeck_nodup : freshDeck.Nodup := by decide

theorem freshDeck_length : freshDeck.length = 52 := by decide

theorem createDeck_perm (rand : Nat → Nat) : (createDeck rand).Perm freshDeck :=
  shuffleDeck_perm rand freshDeck

theorem createDeck_nodup (rand : Nat → Nat) : (createDeck rand).Nodup :=
  (createDeck_perm rand).symm.nodup freshDeck_nodup

/-! ### Map-shaped helper lemmas for the game state -/

/-- Chips of a seat as the chip-sum invariant reads them. -/
def chipsOf (ps : Players) (id : String) : Nat :=
  ((lookupA ps id).map (·.chips)).getD 0

/-- Sum of remaining chips of the seats in `order`. -/
def sumChips (ps : Players) (order : List String) : Nat :=
  (order.map (chipsOf ps)).sum

/-- Hole cards of a seat. -/
def handOf (ps : Players) (id : String) : List Card :=
  ((lookupA ps id).map (·.hand)).getD []

/-- All hole cards of the seats in `order`, concatenated in seat order. -/
def handsCat (ps : Players) (order : List String) : List Card :=
  (order.map (handOf ps)).flatten

theorem lookupA_map_value {ν ν' : Type} (m : List (String × ν)) (g : ν → ν')
    (k : String) :
    lookupA (m.map (fun e => (e.1, g e.2))) k = (lookupA m k).map g := by
  induction m with
  | nil => simp [lookupA]
  | cons e rest ih =>
      by_cases h : e.1 = k <;>
        simp [lookupA_cons, h, ih]

theorem lookupA_setA (m : Players) (k k' : String) (v : Player) :
    lookupA (setA m k v) k' = if k = k' then some v else lookupA m k' := by
  by_cases h : k = k'
  · subst h; simp [lookupA_setA_self]
  · simp [h, lookupA_setA_ne m k k' v h]

theorem chipsOf_setA_ne (ps : Players) (k id : String) (v : Player)
    (h : k ≠ id) : chipsOf (setA ps k v) id = chipsOf ps id := by
  simp [chipsOf, lookupA_setA, h]

theorem chipsOf_setA_self (ps : Players) (k : String) (v : Player) :
    chipsOf (setA ps k v) k = v.chips := by
  simp [chipsOf, lookupA_setA]

theorem handOf_setA_ne (ps : Players) (k id : String) (v : Player)
    (h : k ≠ id) : handOf (setA ps k v) id = handOf ps id := by
  simp [handOf, lookupA_setA, h]

theorem handOf_setA_self (ps : Players) (k : String) (v : Player) :
    handOf (setA ps k v) k = v.hand := by
  simp [handOf, lookupA_setA]

theorem sumChips_setA_not_mem (ps : Players) (order : List String) (k : String)
    (v : Player) (h : k ∉ order) :
    sumChips (setA ps k v) order = sumChips ps order := by
  induction order with
  | nil => rfl
  | cons x rest ih =>
      have hx : k ≠ x := fun he => h (he ▸ List.mem_cons_self x rest)
      have hrest : k ∉ rest := fun hm => h (List.mem_cons_of_mem x hm)
      simp [sumChips, chipsOf_setA_ne ps k x v hx] at ih ⊢
      simpa [sumChips] using ih hrest

theorem handsCat_setA_not_mem (ps : Players) (order : List String) (k : String)
    (v : Player) (h : k ∉ order) :
    handsCat (setA ps k v) order = handsCat ps order := by
  induction order with
  | nil => rfl
  | cons x rest ih =>
      have hx : k ≠ x := fun he => h (he ▸ List.mem_cons_self x rest)
      have hrest : k ∉ rest := fun hm => h (List.mem_cons_of_mem x hm)
      simp [handsCat, handOf_setA_ne ps k x v hx] at ih ⊢
      simpa [handsCat] using ih hrest

/-- Replacing a seat's record changes the chip sum by exactly the chip
difference, provided the seat occurs once in `order`. -/
theorem sumChips_setA (ps : Players) (order : List String) (k : String)
    (p v : Player) (hmem : k ∈ order) (hnd : order.Nodup)
    (hget : lookupA ps k = some p) :
    sumChips (setA ps k v) order + p.chips = sumChips ps order + v.chips := by
  induction order with
  | nil => cases hmem
  | cons x rest ih =>
      rcases List.mem_cons.mp hmem with hx | hrest
      · subst hx
        have hnr : k ∉ rest := (List.nodup_cons.mp hnd).1
        have h2 : sumChips (setA ps k v) rest = sumChips ps rest :=
          sumChips_setA_not_mem ps rest k v hnr
        have h3 : chipsOf ps k = p.chips := by simp [chipsOf, hget]
        simp only [sumChips, List.map_cons, List.sum_cons] at h2 ⊢
        rw [chipsOf_setA_self, h2, h3]
        omega
      · have hx : k ≠ x := by
          rintro rfl
          exact (List.nodup_cons.mp hnd).1 hrest
        have := ih hrest (List.nodup_cons.mp hnd).2
        simp only [sumChips, List.map_cons, List.sum_cons] at this ⊢
        rw [chipsOf_setA_ne ps k x v hx]
        omega

/-- Replacing a seat's record without changing its hole cards leaves the
concatenated hole cards unchanged. -/
theorem handsCat_setA_same_hand (ps : Players) (order : List String)
    (k : String) (p v : Player) (hget : lookupA ps k = some p)
    (hhand : v.hand = p.hand) :
    handsCat (setA ps k v) order = handsCat ps order := by
  induction order with
  | nil => rfl
  | cons x rest ih =>
      simp only [handsCat, List.map_cons, List.flatten_cons] at ih ⊢
      by_cases hx : k = x
      · subst hx
        have h3 : handOf ps k = p.hand := by simp [handOf, hget]
        rw [handOf_setA_self, h3, hhand, ih]
      · rw [handOf_setA_ne ps k x v hx, ih]

theorem lookupA_map_bet_reset (ps : Players) (k : String) :
    lookupA (ps.map (fun e => (e.1, { e.2 with bet := 0 }))) k =
      (lookupA ps k).map (fun p => { p with bet := 0 }) :=
  lookupA_map_value ps (fun p => { p with bet := 0 }) k

theorem chipsOf_map_bet_reset (ps : Players) (id : String) :
    chipsOf (ps.map (fun e => (e.1, { e.2 with bet := 0 }))) id = chipsOf ps id := by
  rw [chipsOf, lookupA_map_bet_reset]
  cases h : lookupA ps id <;> simp [chipsOf, h]

theorem handOf_map_bet_reset (ps : Players) (id : String) :
    handOf (ps.map (fun e => (e.1, { e.2 with bet := 0 }))) id = handOf ps id := by
  rw [handOf, lookupA_map_bet_reset]
  cases h : lookupA ps id <;> simp [handOf, h]

theorem sumChips_map_bet_reset (ps : Players) (order : List String) :
    sumChips (ps.map (fun e => (e.1, { e.2 with bet := 0 }))) order = sumChips ps order := by
  rw [sumChips, sumChips]
  exact congrArg List.sum (List.map_congr_left (fun id _ => chipsOf_map_bet_reset ps id))

theorem handsCat_map_bet_reset (ps : Players) (order : List String) :
    handsCat (ps.map (fun e => (e.1, { e.2 with bet := 0 }))) order = handsCat ps order := by
  simp only [handsCat]
  congr 1
  exact List.map_congr_left (fun id _ => handOf_map_bet_reset ps id)

/-! ### Reachable states of a hand -/

/-- A table: the hand state plus the seat map, the two objects the engine
mutates together. -/
structure Table where
  gs : GameState
  players : Players
  deriving DecidableEq, Repr

/-- The table after a `processAction` call (whatever its outcome). -/
def stepAct (t : Table) (pid : String) (a : ActionType) (amt : Option Nat) : Table :=
  ⟨(processAction t.gs t.players pid a amt).2.1,
   (processAction t.gs t.players pid a amt).2.2⟩

/-- The table after an `advanceRunoutPhase` call (the controller's run-out). -/
def stepRunout (t : Table) : Table :=
  ⟨(advanceRunoutPhase t.gs t.players).1, (advanceRunoutPhase t.gs t.players).2.1⟩

/-- One engine step: a successfully applied action, or a run-out advance. -/
inductive Step : Table → Table → Prop
  | act (t : Table) (pid : String) (a : ActionType) (amt : Option Nat)
      (h : (processAction t.gs t.players pid a amt).1.success = true) :
      Step t (stepAct t pid a amt)
  | runout (t : Table) : Step t (stepRunout t)

/-- States reachable inside one hand started by `startNextHand` on `room`
with the given previous dealer index and created deck. -/
inductive Reach (room : Room) (pd : Nat) (deck0 : List Card) : Table → Prop
  | start (gs : GameState) (ps : Players)
      (h : startNextHand room pd deck0 = some (gs, ps)) :
      Reach room pd deck0 ⟨gs, ps⟩
  | step (t t' : Table) (ht : Reach room pd deck0 t) (hs : Step t t') :
      Reach room pd deck0 t'

theorem sumChips_congr (ps ps' : Players) (order : List String)
    (h : ∀ id, chipsOf ps' id = chipsOf ps id) :
    sumChips ps' order = sumChips ps order := by
  rw [sumChips, sumChips]
  exact congrArg List.sum (List.map_congr_left (fun id _ => h id))

theorem handsCat_congr (ps ps' : Players) (order : List String)
    (h : ∀ id, handOf ps' id = handOf ps id) :
    handsCat ps' order = handsCat ps order := by
  rw [handsCat, handsCat]
  exact congrArg List.flatten (List.map_congr_left (fun id _ => h id))

/-- `advanceToNextPlayer` changes only `currentPlayerIndex`. -/
theorem advanceToNextPlayer_fields (gs : GameState) (ps : Players) :
    (advanceToNextPlayer gs ps).pot = gs.pot ∧
    (advanceToNextPlayer gs ps).playerContributions = gs.playerContributions ∧
    (advanceToNextPlayer gs ps).playerOrder = gs.playerOrder ∧
    (advanceToNextPlayer gs ps).communityCards = gs.communityCards ∧
    (advanceToNextPlayer gs ps).deck = gs.deck ∧
    (advanceToNextPlayer gs ps).phase = gs.phase ∧
    (advanceToNextPlayer gs ps).currentBet = gs.currentBet ∧
    (advanceToNextPlayer gs ps).minRaise = gs.minRaise ∧
    (advanceToNextPlayer gs ps).playersActed = gs.playersActed ∧
    (advanceToNextPlayer gs ps).roundBets = gs.roundBets := by
  unfold advanceToNextPlayer
  dsimp only
  split <;> exact ⟨rfl, rfl, rfl, rfl, rfl, rfl, rfl, rfl, rfl, rfl⟩

/-- `firstActiveFromDealer` changes only `currentPlayerIndex`. -/
theorem firstActiveFromDealer_fields (gs : GameState) (ps : Players) :
    (firstActiveFromDealer gs ps).pot = gs.pot ∧
    (firstActiveFromDealer gs ps).playerContributions = gs.playerContributions ∧
    (firstActiveFromDealer gs ps).playerOrder = gs.playerOrder ∧
    (firstActiveFromDealer gs ps).communityCards = gs.communityCards ∧
    (firstActiveFromDealer gs ps).deck = gs.deck ∧
    (firstActiveFromDealer gs ps).phase = gs.phase ∧
    (firstActiveFromDealer gs ps).currentBet = gs.currentBet ∧
    (firstActiveFromDealer gs ps).minRaise = gs.minRaise ∧
    (firstActiveFromDealer gs ps).playersActed = gs.playersActed ∧
    (firstActiveFromDealer gs ps).roundBets = gs.roundBets := by
  unfold firstActiveFromDealer
  dsimp only
  split <;> exact ⟨rfl, rfl, rfl, rfl, rfl, rfl, rfl, rfl, rfl, rfl⟩

/-- Everything `advancePhase` leaves alone or resets, in one bundle. -/
theorem advancePhase_spec (gs : GameState) (ps : Players) :
    (advancePhase gs ps).1.pot = gs.pot ∧
    (advancePhase gs ps).1.playerContributions = gs.playerContributions ∧
    (advancePhase gs ps).1.playerOrder = gs.playerOrder ∧
    (advancePhase gs ps).2.1 = ps.map (fun e => (e.1, { e.2 with bet := 0 })) ∧
    (advancePhase gs ps).1.communityCards ++ (advancePhase gs ps).1.deck
      = gs.communityCards ++ gs.deck ∧
    (advancePhase gs ps).1.currentBet = 0 ∧
    (advancePhase gs ps).1.minRaise = gs.bigBlind ∧
    (advancePhase gs ps).1.playersActed = [] := by
  obtain ⟨f1, f2, f3, f4, f5, f6, f7, f8, f9, f10⟩ :=
    firstActiveFromDealer_fields
      { gs with roundBets := [], playersActed := [], currentBet := 0,
                minRaise := gs.bigBlind, lastRaiser := none }
      (ps.map (fun e => (e.1, { e.2 with bet := 0 })))
  unfold advancePhase
  dsimp only
  split <;> (try split) <;>
    refine ⟨by simp_all, by simp_all, by simp_all, rfl, ?_, by simp_all,
            by simp_all, by simp_all⟩ <;>
    simp_all [List.take_append_drop, List.append_assoc, ← List.drop_one]

theorem finishAction_preserves (gs : GameState) (ps : Players) :
    (finishAction gs ps).2.1.playerOrder = gs.playerOrder ∧
    (finishAction gs ps).2.1.pot = gs.pot ∧
    (finishAction gs ps).2.1.playerContributions = gs.playerContributions ∧
    sumChips (finishAction gs ps).2.2 gs.playerOrder = sumChips ps gs.playerOrder ∧
    handsCat (finishAction gs ps).2.2 gs.playerOrder = handsCat ps gs.playerOrder ∧
    (finishAction gs ps).2.1.communityCards ++ (finishAction gs ps).2.1.deck
      = gs.communityCards ++ gs.deck := by
  obtain ⟨h1, h2, h3, h4, h5, h6, h7, h8⟩ := advancePhase_spec gs ps
  unfold finishAction
  split
  · exact ⟨rfl, rfl, rfl, rfl, rfl, rfl⟩
  · split
    · split
      all_goals
        rename_i heq
        have e1 := congrArg (fun r => r.1.pot) heq
        have e2 := congrArg (fun r => r.1.playerContributions) heq
        have e3 := congrArg (fun r => r.1.playerOrder) heq
        have e4 := congrArg (fun r => r.2.1) heq
        have e5 := congrArg (fun r => r.1.communityCards) heq
        have e6 := congrArg (fun r => r.1.deck) heq
        dsimp only at e1 e2 e3 e4 e5 e6
        refine ⟨?_, ?_, ?_, ?_, ?_, ?_⟩
        · rw [← e3]; exact h3
        · rw [← e1]; exact h1
        · rw [← e2]; exact h2
        · rw [← e4, h4]; exact sumChips_map_bet_reset ps gs.playerOrder
        · rw [← e4, h4]; exact handsCat_map_bet_reset ps gs.playerOrder
        · rw [← e5, ← e6]; exact h5
    · obtain ⟨a1, a2, a3, a4, a5, _⟩ := advanceToNextPlayer_fields gs ps
      exact ⟨a3, a1, a2, rfl, rfl, by rw [a4, a5]⟩

theorem mem_of_getElem?_eq {α : Type} {l : List α} {i : Nat} {x : α}
    (h : l[i]? = some x) : x ∈ l := by
  obtain ⟨hi, he⟩ := List.getElem?_eq_some_iff.mp h
  exact he ▸ l.getElem_mem hi

/-- The chip movement of the `call` branch: `X` chips move from the seat to
the pot and its contribution entry. -/
theorem applyCall_spec (gs : GameState) (p : Player) (pid : String) :
    ∃ X, X ≤ p.chips ∧
      (applyCall gs p pid).1.pot = gs.pot + X ∧
      (applyCall gs p pid).1.playerContributions =
        setA gs.playerContributions pid (getDA gs.playerContributions pid 0 + X) ∧
      (applyCall gs p pid).2.chips + X = p.chips ∧
      (applyCall gs p pid).2.hand = p.hand ∧
      (applyCall gs p pid).1.playerOrder = gs.playerOrder ∧
      (applyCall gs p pid).1.communityCards = gs.communityCards ∧
      (applyCall gs p pid).1.deck = gs.deck := by
  refine ⟨min (gs.currentBet - getDA gs.roundBets pid 0) p.chips,
    Nat.min_le_right _ _, ?_⟩
  unfold applyCall
  dsimp only
  exact ⟨rfl, rfl, by omega, rfl, rfl, rfl, rfl⟩

/-- The chip movement of the applied `bet`/`raise` branch. -/
theorem applyBetRaise_spec (gs : GameState) (p : Player) (pid : String)
    (tgt : Nat) :
    ∃ X, X ≤ p.chips ∧
      (applyBetRaise gs p pid tgt).1.pot = gs.pot + X ∧
      (applyBetRaise gs p pid tgt).1.playerContributions =
        setA gs.playerContributions pid (getDA gs.playerContributions pid 0 + X) ∧
      (applyBetRaise gs p pid tgt).2.chips + X = p.chips ∧
      (applyBetRaise gs p pid tgt).2.hand = p.hand ∧
      (applyBetRaise gs p pid tgt).1.playerOrder = gs.playerOrder ∧
      (applyBetRaise gs p pid tgt).1.communityCards = gs.communityCards ∧
      (applyBetRaise gs p pid tgt).1.deck = gs.deck := by
  refine ⟨min (tgt - getDA gs.roundBets pid 0) p.chips,
    Nat.min_le_right _ _, ?_⟩
  unfold applyBetRaise
  dsimp only
  exact ⟨rfl, rfl, by omega, rfl, rfl, rfl, rfl⟩

/-- The chip movement of the `all-in` branch. -/
theorem applyAllIn_spec (gs : GameState) (p : Player) (pid : String) :
    ∃ X, X ≤ p.chips ∧
      (applyAllIn gs p pid).1.pot = gs.pot + X ∧
      (applyAllIn gs p pid).1.playerContributions =
        setA gs.playerContributions pid (getDA gs.playerContributions pid 0 + X) ∧
      (applyAllIn gs p pid).2.chips + X = p.chips ∧
      (applyAllIn gs p pid).2.hand = p.hand ∧
      (applyAllIn gs p pid).1.playerOrder = gs.playerOrder ∧
      (applyAllIn gs p pid).1.communityCards = gs.communityCards ∧
      (applyAllIn gs p pid).1.deck = gs.deck := by
  refine ⟨p.chips, Nat.le_refl _, ?_⟩
  unfold applyAllIn
  dsimp only
  split <;> exact ⟨rfl, rfl, by (try dsimp only); omega, rfl, rfl, rfl, rfl⟩

/-- All cards of a hand, in dealing order: hole cards of the seats in
`playerOrder`, then board, then the rest of the deck. -/
def cardsInPlay (t : Table) : List Card :=
  handsCat t.players t.gs.playerOrder ++ (t.gs.communityCards ++ t.gs.deck)

/-- A chip-moving branch (`call`, applied `bet`/`raise`, `all-in`) followed
by the `processAction` epilogue preserves the pot/contribution difference,
the chips-plus-pot total, and the cards in play. -/
theorem moveFinish_preserves (gs1 : GameState) (ps : Players) (pid : String)
    (player : Player) (r : GameState × Player) (X : Nat)
    (hnd : gs1.playerOrder.Nodup) (hmem : pid ∈ gs1.playerOrder)
    (hlook : lookupA ps pid = some player)
    (hpot : r.1.pot = gs1.pot + X)
    (hcontrib : r.1.playerContributions =
      setA gs1.playerContributions pid (getDA gs1.playerContributions pid 0 + X))
    (hchips : r.2.chips + X = player.chips)
    (hhand : r.2.hand = player.hand)
    (horder : r.1.playerOrder = gs1.playerOrder)
    (hcomm : r.1.communityCards = gs1.communityCards)
    (hdeck : r.1.deck = gs1.deck) :
    (finishAction r.1 (setA ps pid r.2)).2.1.playerOrder = gs1.playerOrder ∧
    (finishAction r.1 (setA ps pid r.2)).2.1.pot + sumA gs1.playerContributions
      = gs1.pot + sumA (finishAction r.1 (setA ps pid r.2)).2.1.playerContributions ∧
    sumChips (finishAction r.1 (setA ps pid r.2)).2.2 gs1.playerOrder
        + (finishAction r.1 (setA ps pid r.2)).2.1.pot
      = sumChips ps gs1.playerOrder + gs1.pot ∧
    handsCat (finishAction r.1 (setA ps pid r.2)).2.2 gs1.playerOrder
        ++ ((finishAction r.1 (setA ps pid r.2)).2.1.communityCards
            ++ (finishAction r.1 (setA ps pid r.2)).2.1.deck)
      = handsCat ps gs1.playerOrder ++ (gs1.communityCards ++ gs1.deck) := by
  obtain ⟨o1, o2, o3, o4, o5, o6⟩ := finishAction_preserves r.1 (setA ps pid r.2)
  have hsum := sumChips_setA ps gs1.playerOrder pid player r.2 hmem hnd hlook
  have hhands := handsCat_setA_same_hand ps gs1.playerOrder pid player r.2 hlook hhand
  have hsumA : sumA r.1.playerContributions = sumA gs1.playerContributions + X := by
    rw [hcontrib]; exact sumA_setA_add _ _ _
  refine ⟨by rw [o1, horder], ?_, ?_, ?_⟩
  · rw [o2, o3, hsumA, hpot]; omega
  · rw [horder] at o4
    rw [o2, hpot, o4]
    omega
  · rw [horder] at o5
    rw [o5, hhands, o6, hcomm, hdeck]

/-- A non-chip-moving branch (`fold` with its status change, or `check`)
followed by the epilogue preserves the same quantities. -/
theorem stillFinish_preserves (gs1 : GameState) (ps ps' : Players)
    (hsum : sumChips ps' gs1.playerOrder = sumChips ps gs1.playerOrder)
    (hhands : handsCat ps' gs1.playerOrder = handsCat ps gs1.playerOrder) :
    (finishAction gs1 ps').2.1.playerOrder = gs1.playerOrder ∧
    (finishAction gs1 ps').2.1.pot + sumA gs1.playerContributions
      = gs1.pot + sumA (finishAction gs1 ps').2.1.playerContributions ∧
    sumChips (finishAction gs1 ps').2.2 gs1.playerOrder
        + (finishAction gs1 ps').2.1.pot
      = sumChips ps gs1.playerOrder + gs1.pot ∧
    handsCat (finishAction gs1 ps').2.2 gs1.playerOrder
        ++ ((finishAction gs1 ps').2.1.communityCards
            ++ (finishAction gs1 ps').2.1.deck)
      = handsCat ps gs1.playerOrder ++ (gs1.communityCards ++ gs1.deck) := by
  obtain ⟨o1, o2, o3, o4, o5, o6⟩ := finishAction_preserves gs1 ps'
  exact ⟨o1, by rw [o2, o3], by rw [o2, o4, hsum], by rw [o5, hhands, o6]⟩

/-- Any successful `processAction` call keeps `playerOrder`, moves chips
only between stacks and the pot in step with `playerContributions`, and
never duplicates or loses a card. -/
theorem processAction_preserves (gs : GameState) (ps : Players) (pid : String)
    (a : ActionType) (amt : Option Nat) (hnd : gs.playerOrder.Nodup)
    (hsucc : (processAction gs ps pid a amt).1.success = true) :
    (processAction gs ps pid a amt).2.1.playerOrder = gs.playerOrder ∧
    (processAction gs ps pid a amt).2.1.pot + sumA gs.playerContributions
      = gs.pot + sumA (processAction gs ps pid a amt).2.1.playerContributions ∧
    sumChips (processAction gs ps pid a amt).2.2 gs.playerOrder
        + (processAction gs ps pid a amt).2.1.pot
      = sumChips ps gs.playerOrder + gs.pot ∧
    handsCat (processAction gs ps pid a amt).2.2 gs.playerOrder
        ++ ((processAction gs ps pid a amt).2.1.communityCards
            ++ (processAction gs ps pid a amt).2.1.deck)
      = handsCat ps gs.playerOrder ++ (gs.communityCards ++ gs.deck) := by
  rw [processAction] at hsucc ⊢
  cases hlook : lookupA ps pid with
  | none => rw [hlook] at hsucc; simp at hsucc
  | some player =>
    rw [hlook] at hsucc
    dsimp only at hsucc ⊢
    by_cases hturn : gs.playerOrder[gs.currentPlayerIndex]? = some pid
    case neg =>
      rw [if_pos hturn] at hsucc
      simp at hsucc
    case pos =>
      rw [if_neg (fun h => h hturn)] at hsucc ⊢
      have hmem : pid ∈ gs.playerOrder := mem_of_getElem?_eq hturn
      by_cases hvalid : a ∈ getValidActions gs player
      case neg =>
        rw [if_pos hvalid] at hsucc
        simp at hsucc
      case pos =>
        rw [if_neg (fun h => h hvalid)] at hsucc ⊢
        cases a with
        | fold =>
            exact stillFinish_preserves _ ps _
              (by
                dsimp only
                have := sumChips_setA ps gs.playerOrder pid player
                  { player with status := PlayerStatus.folded } hmem hnd hlook
                dsimp only at this
                omega)
              (by
                dsimp only
                exact handsCat_setA_same_hand ps gs.playerOrder pid player _ hlook rfl)
        | check => exact stillFinish_preserves _ ps ps rfl rfl
        | call =>
            obtain ⟨X, hX, c1, c2, c3, c4, c5, c6, c7⟩ :=
              applyCall_spec { gs with playersActed := saAdd gs.playersActed pid } player pid
            exact moveFinish_preserves _ ps pid player _ X hnd hmem hlook c1 c2 c3 c4 c5 c6 c7
        | bet =>
            dsimp only at hsucc ⊢
            rw [if_pos (rfl : ActionType.bet = ActionType.bet)] at hsucc ⊢
            cases amt with
            | none =>
                dsimp only at hsucc ⊢
                split at hsucc
                · simp at hsucc
                · rename_i hrej
                  rw [if_neg hrej]
                  obtain ⟨X, hX, c1, c2, c3, c4, c5, c6, c7⟩ :=
                    applyBetRaise_spec { gs with playersActed := saAdd gs.playersActed pid }
                      player pid gs.bigBlind
                  exact moveFinish_preserves _ ps pid player _ X hnd hmem hlook c1 c2 c3 c4 c5 c6 c7
            | some v =>
                dsimp only at hsucc ⊢
                generalize (if v = 0 then gs.bigBlind else v) = T at hsucc ⊢
                split at hsucc
                · simp at hsucc
                · rename_i hrej
                  rw [if_neg hrej]
                  obtain ⟨X, hX, c1, c2, c3, c4, c5, c6, c7⟩ :=
                    applyBetRaise_spec { gs with playersActed := saAdd gs.playersActed pid } player pid T
                  exact moveFinish_preserves _ ps pid player _ X hnd hmem hlook c1 c2 c3 c4 c5 c6 c7
        | raise =>
            dsimp only at hsucc ⊢
            rw [if_neg (show ¬(ActionType.raise = ActionType.bet) by decide)] at hsucc ⊢
            cases amt with
            | none =>
                dsimp only at hsucc ⊢
                split at hsucc
                · simp at hsucc
                · rename_i hrej
                  rw [if_neg hrej]
                  obtain ⟨X, hX, c1, c2, c3, c4, c5, c6, c7⟩ :=
                    applyBetRaise_spec { gs with playersActed := saAdd gs.playersActed pid }
                      player pid (gs.currentBet * 2)
                  exact moveFinish_preserves _ ps pid player _ X hnd hmem hlook c1 c2 c3 c4 c5 c6 c7
            | some v =>
                dsimp only at hsucc ⊢
                generalize (if v = 0 then gs.currentBet * 2 else v) = T at hsucc ⊢
                split at hsucc
                · simp at hsucc
                · rename_i hrej
                  rw [if_neg hrej]
                  obtain ⟨X, hX, c1, c2, c3, c4, c5, c6, c7⟩ :=
                    applyBetRaise_spec { gs with playersActed := saAdd gs.playersActed pid } player pid T
                  exact moveFinish_preserves _ ps pid player _ X hnd hmem hlook c1 c2 c3 c4 c5 c6 c7
        | allIn =>
            obtain ⟨X, hX, c1, c2, c3, c4, c5, c6, c7⟩ :=
              applyAllIn_spec { gs with playersActed := saAdd gs.playersActed pid } player pid
            exact moveFinish_preserves _ ps pid player _ X hnd hmem hlook c1 c2 c3 c4 c5 c6 c7

/-! ### Hand-start lemmas -/

theorem lookupA_clearSeats (ps : Players) (k : String) :
    lookupA (clearSeats ps) k = (lookupA ps k).map (fun p => { p with
      isDealer := false, isSmallBlind := false, isBigBlind := false,
      hand := ([] : List Card), bet := 0 }) := by
  rw [clearSeats]
  exact lookupA_map_value ps (fun p => { p with
    isDealer := false, isSmallBlind := false, isBigBlind := false,
    hand := ([] : List Card), bet := 0 }) k

theorem lookupA_markBroke (ps : Players) (k : String) :
    lookupA (markBroke ps) k = (lookupA ps k).map (fun p =>
      if p.chips = 0 then { p with status := PlayerStatus.out } else p) := by
  rw [markBroke]
  exact lookupA_map_value ps (fun p =>
    if p.chips = 0 then { p with status := PlayerStatus.out } else p) k

theorem chipsOf_markBroke_clearSeats (ps : Players) (id : String) :
    chipsOf (markBroke (clearSeats ps)) id = chipsOf ps id := by
  rw [chipsOf, lookupA_markBroke, lookupA_clearSeats, chipsOf]
  cases h : lookupA ps id with
  | none => rfl
  | some p => by_cases hc : p.chips = 0 <;> simp [hc]

theorem keys_clearSeats (ps : Players) :
    (clearSeats ps).map (·.1) = ps.map (·.1) := by
  rw [clearSeats, List.map_map]
  rfl

theorem keys_markBroke (ps : Players) :
    (markBroke ps).map (·.1) = ps.map (·.1) := by
  rw [markBroke, List.map_map]
  rfl

theorem lookupA_isSome_of_mem_keys {ν : Type} (m : AList ν) (id : String)
    (h : id ∈ m.map (·.1)) : ∃ v, lookupA m id = some v := by
  induction m with
  | nil => cases h
  | cons e rest ih =>
      rcases List.mem_cons.mp h with he | hr
      · exact ⟨e.2, by simp [lookupA_cons, he]⟩
      · by_cases hek : e.1 = id
        · exact ⟨e.2, by simp [lookupA_cons, hek]⟩
        · obtain ⟨v, hv⟩ := ih hr
          exact ⟨v, by simp [lookupA_cons, hek, hv]⟩

theorem eligibleOrder_nodup (ps : Players) (hkeys : (ps.map (·.1)).Nodup) :
    (eligibleOrder ps).Nodup :=
  hkeys.filter _

theorem eligibleOrder_mem_keys (ps : Players) (id : String)
    (h : id ∈ eligibleOrder ps) : id ∈ ps.map (·.1) :=
  List.mem_of_mem_filter h

/-- Under unique keys, filtering keys through `lookupA` agrees with
filtering the entries directly. -/
theorem eligibleOrder_eq (ps : Players) (hkeys : (ps.map (·.1)).Nodup) :
    eligibleOrder ps
      = (ps.filter (fun e => e.2.status != PlayerStatus.out)).map (·.1) := by
  induction ps with
  | nil => rfl
  | cons e rest ih =>
      have hk : e.1 ∉ rest.map (·.1) := (List.nodup_cons.mp hkeys).1
      have hrest := ih (List.nodup_cons.mp hkeys).2
      have h2 : (rest.map (·.1)).filter (fun id =>
            match lookupA (e :: rest) id with
            | some p => p.status != PlayerStatus.out
            | none => false)
          = eligibleOrder rest := by
        rw [eligibleOrder]
        apply List.filter_congr
        intro id hid
        have hne : (e.1 == id) = false :=
          beq_eq_false_iff_ne.mpr (fun he => hk (he ▸ hid))
        rw [lookupA_cons, hne]
        simp
      have h1 : lookupA (e :: rest) e.1 = some e.2 := by simp [lookupA_cons]
      rw [eligibleOrder, List.map_cons, List.filter_cons, List.filter_cons]
      cases hs : (e.2.status != PlayerStatus.out) with
      | true =>
          simp only [h1, hs, if_true, List.map_cons]
          rw [h2, hrest]
      | false =>
          simp only [h1, hs, Bool.false_eq_true, if_false]
          rw [h2, hrest]

theorem eligibleOrder_length (ps : Players) (hkeys : (ps.map (·.1)).Nodup) :
    (eligibleOrder ps).length
      = (ps.filter (fun e => e.2.status != PlayerStatus.out)).length := by
  rw [eligibleOrder_eq ps hkeys, List.length_map]

theorem dealLoop_chipsOf (order : List String) :
    ∀ (ps : Players) (deck : List Card) (i d s b : Nat) (id : String),
      chipsOf (dealLoop ps order deck i d s b).1 id = chipsOf ps id := by
  induction order with
  | nil => intro ps deck i d s b id; rfl
  | cons pid rest ih =>
      intro ps deck i d s b id
      rw [dealLoop]
      cases hp : lookupA ps pid with
      | none => exact ih ps _ _ _ _ _ id
      | some p =>
          rw [ih _ _ _ _ _ _ id]
          by_cases hid : pid = id
          · subst hid
            rw [chipsOf_setA_self, chipsOf, hp]
            rfl
          · rw [chipsOf_setA_ne _ _ _ _ hid]

theorem dealLoop_lookup_not_mem (order : List String) :
    ∀ (ps : Players) (deck : List Card) (i d s b : Nat) (id : String),
      id ∉ order →
      lookupA (dealLoop ps order deck i d s b).1 id = lookupA ps id := by
  induction order with
  | nil => intro ps deck i d s b id _; rfl
  | cons pid rest ih =>
      intro ps deck i d s b id hnm
      have hid : pid ≠ id := fun he => hnm (he ▸ List.mem_cons_self pid rest)
      have hrest : id ∉ rest := fun hm => hnm (List.mem_cons_of_mem pid hm)
      rw [dealLoop]
      cases hp : lookupA ps pid with
      | none => exact ih ps _ _ _ _ _ id hrest
      | some p =>
          rw [ih _ _ _ _ _ _ id hrest, lookupA_setA_ne _ _ _ _ hid]

/-- All hole cards dealt by the setup loop, concatenated in seat order,
followed by the remaining deck, give back the incoming deck. -/
theorem dealLoop_handsCat (order : List String) :
    ∀ (ps : Players) (deck : List Card) (i d s b : Nat),
      order.Nodup →
      (∀ id ∈ order, ∃ v, lookupA ps id = some v) →
      handsCat (dealLoop ps order deck i d s b).1 order
          ++ (dealLoop ps order deck i d s b).2 = deck := by
  induction order with
  | nil => intro ps deck i d s b _ _; rfl
  | cons pid rest ih =>
      intro ps deck i d s b hnd hall
      obtain ⟨p, hp⟩ := hall pid (List.mem_cons_self pid rest)
      have hpid_rest : pid ∉ rest := (List.nodup_cons.mp hnd).1
      rw [dealLoop, hp]
      dsimp only
      have hall' : ∀ id ∈ rest, ∃ v,
          lookupA (setA ps pid { p with
            hand := deck.take 2, status := PlayerStatus.active, bet := 0,
            isDealer := i == d, isSmallBlind := i == s,
            isBigBlind := i == b }) id = some v := by
        intro id hid
        have hne : pid ≠ id := fun he => hpid_rest (he ▸ hid)
        rw [lookupA_setA_ne _ _ _ _ hne]
        exact hall id (List.mem_cons_of_mem pid hid)
      have hrec := ih _ (deck.drop 2) (i + 1) d s b (List.nodup_cons.mp hnd).2 hall'
      rw [handsCat, List.map_cons, List.flatten_cons]
      have hhead : handOf (dealLoop
          (setA ps pid { p with
            hand := deck.take 2, status := PlayerStatus.active, bet := 0,
            isDealer := i == d, isSmallBlind := i == s, isBigBlind := i == b })
          rest (deck.drop 2) (i + 1) d s b).1 pid = deck.take 2 := by
        rw [handOf, dealLoop_lookup_not_mem rest _ _ _ _ _ _ pid hpid_rest,
          lookupA_setA_self]
        rfl
      rw [hhead, List.append_assoc]
      rw [handsCat] at hrec
      rw [hrec, List.take_append_drop]

/-- `postBlind` with the blind seat present: all effects in one bundle. -/
theorem postBlind_spec (gs : GameState) (ps : Players) (bid : String)
    (cap : Nat) (p : Player) (hlook : lookupA ps bid = some p) :
    (postBlind gs ps bid cap).1.pot = gs.pot + min p.chips cap ∧
    (postBlind gs ps bid cap).1.playerContributions
      = setA gs.playerContributions bid (min p.chips cap) ∧
    (postBlind gs ps bid cap).2
      = setA ps bid { p with chips := p.chips - min p.chips cap,
                             bet := min p.chips cap } ∧
    (postBlind gs ps bid cap).1.playerOrder = gs.playerOrder ∧
    (postBlind gs ps bid cap).1.communityCards = gs.communityCards ∧
    (postBlind gs ps bid cap).1.deck = gs.deck ∧
    (postBlind gs ps bid cap).1.currentBet = gs.currentBet ∧
    (postBlind gs ps bid cap).1.minRaise = gs.minRaise ∧
    (postBlind gs ps bid cap).1.playersActed = gs.playersActed := by
  rw [postBlind, hlook]
  exact ⟨rfl, rfl, rfl, rfl, rfl, rfl, rfl, rfl, rfl⟩

theorem lookupA_setA_isSome {ν : Type} (m : AList ν) (k id : String) (v : ν)
    (h : (lookupA m id).isSome = true) :
    (lookupA (setA m k v) id).isSome = true := by
  by_cases hk : k = id
  · subst hk; rw [lookupA_setA_self]; rfl
  · rw [lookupA_setA_ne _ _ _ _ hk]; exact h

theorem dealLoop_lookup_isSome (order : List String) :
    ∀ (ps : Players) (deck : List Card) (i d s b : Nat) (id : String),
      (lookupA ps id).isSome = true →
      (lookupA (dealLoop ps order deck i d s b).1 id).isSome = true := by
  induction order with
  | nil => intro ps deck i d s b id h; exact h
  | cons pid rest ih =>
      intro ps deck i d s b id h
      rw [dealLoop]
      cases hp : lookupA ps pid with
      | none => exact ih ps _ _ _ _ _ id h
      | some p => exact ih _ _ _ _ _ _ id (lookupA_setA_isSome ps pid id _ h)

/-- Small blind and big blind sit at different indices when at least two
seats play. -/
theorem blind_indexes_ne (d n : Nat) (hn : 2 ≤ n) :
    (d + 1) % n ≠ (d + 2) % n := by
  have h2 : d + 2 = (d + 1) + 1 := rfl
  rw [h2, Nat.add_mod (d + 1) 1 n, Nat.mod_eq_of_lt (show 1 < n by omega)]
  have hxlt : (d + 1) % n < n := Nat.mod_lt _ (by omega)
  by_cases hv : (d + 1) % n + 1 < n
  · rw [Nat.mod_eq_of_lt hv]; omega
  · have he : (d + 1) % n + 1 = n := by omega
    rw [he, Nat.mod_self]
    omega

theorem nodup_getElem?_ne {α : Type} (l : List α) (hnd : l.Nodup) (i j : Nat)
    (hij : i ≠ j) (a b : α) (ha : l[i]? = some a) (hb : l[j]? = some b) :
    a ≠ b := by
  obtain ⟨hi, hia⟩ := List.getElem?_eq_some_iff.mp ha
  obtain ⟨hj, hjb⟩ := List.getElem?_eq_some_iff.mp hb
  intro he
  exact hij (List.Nodup.getElem_inj_iff hnd |>.mp (by rw [hia, hjb, he]))

/-- Effects of posting the two blinds in sequence. -/
theorem postBlinds2_spec (gs0 : GameState) (ps3 : Players) (sbId bbId : String)
    (sbCap bbCap : Nat) (psb pbb : Player)
    (hpsb : lookupA ps3 sbId = some psb) (hpbb : lookupA ps3 bbId = some pbb)
    (hne : sbId ≠ bbId) :
    (postBlind (postBlind gs0 ps3 sbId sbCap).1 (postBlind gs0 ps3 sbId sbCap).2
        bbId bbCap).1.pot
      = gs0.pot + min psb.chips sbCap + min pbb.chips bbCap ∧
    (postBlind (postBlind gs0 ps3 sbId sbCap).1 (postBlind gs0 ps3 sbId sbCap).2
        bbId bbCap).1.playerContributions
      = setA (setA gs0.playerContributions sbId (min psb.chips sbCap)) bbId
          (min pbb.chips bbCap) ∧
    (∀ order : List String, order.Nodup → sbId ∈ order → bbId ∈ order →
      sumChips (postBlind (postBlind gs0 ps3 sbId sbCap).1
            (postBlind gs0 ps3 sbId sbCap).2 bbId bbCap).2 order
          + min psb.chips sbCap + min pbb.chips bbCap
        = sumChips ps3 order) ∧
    (∀ order : List String,
      handsCat (postBlind (postBlind gs0 ps3 sbId sbCap).1
            (postBlind gs0 ps3 sbId sbCap).2 bbId bbCap).2 order
        = handsCat ps3 order) ∧
    (postBlind (postBlind gs0 ps3 sbId sbCap).1 (postBlind gs0 ps3 sbId sbCap).2
        bbId bbCap).1.playerOrder = gs0.playerOrder ∧
    (postBlind (postBlind gs0 ps3 sbId sbCap).1 (postBlind gs0 ps3 sbId sbCap).2
        bbId bbCap).1.communityCards = gs0.communityCards ∧
    (postBlind (postBlind gs0 ps3 sbId sbCap).1 (postBlind gs0 ps3 sbId sbCap).2
        bbId bbCap).1.deck = gs0.deck ∧
    (postBlind (postBlind gs0 ps3 sbId sbCap).1 (postBlind gs0 ps3 sbId sbCap).2
        bbId bbCap).1.currentBet = gs0.currentBet ∧
    (postBlind (postBlind gs0 ps3 sbId sbCap).1 (postBlind gs0 ps3 sbId sbCap).2
        bbId bbCap).1.minRaise = gs0.minRaise := by
  obtain ⟨q1, q2, q3, q4, q5, q6, q7, q8, q9⟩ :=
    postBlind_spec gs0 ps3 sbId sbCap psb hpsb
  have hpbb' : lookupA (postBlind gs0 ps3 sbId sbCap).2 bbId = some pbb := by
    rw [q3, lookupA_setA_ne _ _ _ _ hne]; exact hpbb
  obtain ⟨w1, w2, w3, w4, w5, w6, w7, w8, w9⟩ :=
    postBlind_spec (postBlind gs0 ps3 sbId sbCap).1
      (postBlind gs0 ps3 sbId sbCap).2 bbId bbCap pbb hpbb'
  refine ⟨by rw [w1, q1], by rw [w2, q2], ?_, ?_,
    by rw [w4, q4], by rw [w5, q5], by rw [w6, q6], by rw [w7, q7],
    by rw [w8, q8]⟩
  · intro order hnd hsbm hbbm
    have h1 := sumChips_setA (postBlind gs0 ps3 sbId sbCap).2 order bbId pbb
      { pbb with chips := pbb.chips - min pbb.chips bbCap,
                 bet := min pbb.chips bbCap } hbbm hnd hpbb'
    have h2 := sumChips_setA ps3 order sbId psb
      { psb with chips := psb.chips - min psb.chips sbCap,
                 bet := min psb.chips sbCap } hsbm hnd hpsb
    rw [w3, q3]
    rw [q3] at h1
    dsimp only at h1 h2
    omega
  · intro order
    have h1 := handsCat_setA_same_hand (postBlind gs0 ps3 sbId sbCap).2 order
      bbId pbb { pbb with chips := pbb.chips - min pbb.chips bbCap,
                          bet := min pbb.chips bbCap } hpbb' rfl
    have h2 := handsCat_setA_same_hand ps3 order sbId psb
      { psb with chips := psb.chips - min psb.chips sbCap,
                 bet := min psb.chips sbCap } hpsb rfl
    rw [w3, h1, q3, h2]

/-- What `startNextHand` guarantees about the state it returns: distinct
participating seats, the pot equal to the posted blinds and to the sum of
the contribution map, chips-plus-pot equal to the seats' chips before the
hand, hole cards and deck re-assembling the created deck, and
`currentBet = minRaise = bigBlind`. -/
theorem startNextHand_spec (room : Room) (pd : Nat) (deck0 : List Card)
    (gs : GameState) (ps : Players)
    (hkeys : (room.players.map (·.1)).Nodup)
    (h : startNextHand room pd deck0 = some (gs, ps)) :
    gs.playerOrder.Nodup ∧
    2 ≤ gs.playerOrder.length ∧
    gs.pot = sumA gs.playerContributions ∧
    sumChips ps gs.playerOrder + gs.pot = sumChips room.players gs.playerOrder ∧
    handsCat ps gs.playerOrder ++ (gs.communityCards ++ gs.deck) = deck0 ∧
    gs.currentBet = room.bigBlind ∧ gs.minRaise = room.bigBlind := by
  have hkeys2 : ((markBroke (clearSeats room.players)).map (·.1)).Nodup := by
    rw [keys_markBroke, keys_clearSeats]; exact hkeys
  rw [startNextHand] at h
  dsimp only at h
  split at h
  · exact absurd h (by simp)
  rename_i helig
  have hordnd : (eligibleOrder (markBroke (clearSeats room.players))).Nodup :=
    eligibleOrder_nodup _ hkeys2
  have hlen : 2 ≤ (eligibleOrder (markBroke (clearSeats room.players))).length := by
    rw [eligibleOrder_length _ hkeys2]
    omega
  split at h
  case _ sbId bbId hsb hbb =>
    set ps2 := markBroke (clearSeats room.players) with hps2def
    set order := eligibleOrder ps2 with horderdef
    set n := order.length with hndef
    set dIdx := (pd + 1) % n with hdIdxdef
    set sbIdx := (dIdx + 1) % n with hsbIdxdef
    set bbIdx := (dIdx + 2) % n with hbbIdxdef
    replace h := Option.some.inj h
    have hgs := congrArg Prod.fst h
    have hps := congrArg Prod.snd h
    dsimp only at hgs hps
    subst hgs
    subst hps
    -- membership and lookups for the two blind seats
    have hsbm : sbId ∈ order := mem_of_getElem?_eq hsb
    have hbbm : bbId ∈ order := mem_of_getElem?_eq hbb
    have hne : sbId ≠ bbId :=
      nodup_getElem?_ne _ hordnd _ _
        (hsbIdxdef ▸ hbbIdxdef ▸ blind_indexes_ne dIdx n hlen) _ _ hsb hbb
    obtain ⟨psb0, hpsb0⟩ := lookupA_isSome_of_mem_keys _ sbId
      (eligibleOrder_mem_keys _ _ hsbm)
    obtain ⟨pbb0, hpbb0⟩ := lookupA_isSome_of_mem_keys _ bbId
      (eligibleOrder_mem_keys _ _ hbbm)
    have hpsb3 := dealLoop_lookup_isSome order ps2 deck0 0 dIdx sbIdx bbIdx sbId
      (by rw [hpsb0]; rfl)
    have hpbb3 := dealLoop_lookup_isSome order ps2 deck0 0 dIdx sbIdx bbIdx bbId
      (by rw [hpbb0]; rfl)
    obtain ⟨psb, hpsb⟩ := Option.isSome_iff_exists.mp hpsb3
    obtain ⟨pbb, hpbb⟩ := Option.isSome_iff_exists.mp hpbb3
    obtain ⟨b1, b2, b3, b4, b5, b6, b7, b8, b9⟩ :=
      postBlinds2_spec _ _ sbId bbId room.smallBlind room.bigBlind psb pbb
        hpsb hpbb hne
    -- the two `setA`s on the empty contribution map, summed
    have hContrib : sumA (setA (setA ([] : AList Nat) sbId
        (min psb.chips room.smallBlind)) bbId (min pbb.chips room.bigBlind))
        = min psb.chips room.smallBlind + min pbb.chips room.bigBlind := by
      have hbe : (sbId == bbId) = false := beq_eq_false_iff_ne.mpr hne
      simp [setA, hbe, sumA]
    -- chips of the dealt seats agree with the room's seats
    have hChipsDeal : sumChips (dealLoop ps2 order deck0 0 dIdx sbIdx bbIdx).1 order
        = sumChips room.players order := by
      refine (sumChips_congr _ _ _ (fun id => ?_)).trans
        (sumChips_congr _ _ _ (fun id => chipsOf_markBroke_clearSeats room.players id))
      exact dealLoop_chipsOf _ _ _ _ _ _ _ id
    have hHandsDeal := dealLoop_handsCat order ps2 deck0 0 dIdx sbIdx bbIdx hordnd
      (fun id hid => lookupA_isSome_of_mem_keys _ id (eligibleOrder_mem_keys _ _ hid))
    refine ⟨?_, ?_, ?_, ?_, ?_, ?_, ?_⟩
    · rw [b5]; exact hordnd
    · rw [b5]; exact hlen
    · rw [b1, b2]
      dsimp only
      rw [hContrib]
      omega
    · rw [b5]
      have := b3 _ hordnd hsbm hbbm
      rw [b1]
      dsimp only
      omega
    · rw [b5, b6, b7, b4]
      dsimp only
      rw [List.nil_append]
      exact hHandsDeal
    · rw [b8]
    · rw [b9]
  case _ => exact absurd h (by simp)

theorem stepRunout_preserves (t : Table) :
    (stepRunout t).gs.playerOrder = t.gs.playerOrder ∧
    (stepRunout t).gs.pot + sumA t.gs.playerContributions
      = t.gs.pot + sumA (stepRunout t).gs.playerContributions ∧
    sumChips (stepRunout t).players t.gs.playerOrder + (stepRunout t).gs.pot
      = sumChips t.players t.gs.playerOrder + t.gs.pot ∧
    handsCat (stepRunout t).players t.gs.playerOrder
        ++ ((stepRunout t).gs.communityCards ++ (stepRunout t).gs.deck)
      = handsCat t.players t.gs.playerOrder ++ (t.gs.communityCards ++ t.gs.deck) := by
  obtain ⟨h1, h2, h3, h4, h5, h6, h7, h8⟩ := advancePhase_spec t.gs t.players
  have hro : stepRunout t =
      ⟨(advancePhase t.gs t.players).1, (advancePhase t.gs t.players).2.1⟩ := by
    rw [stepRunout, advanceRunoutPhase]
    rcases advancePhase t.gs t.players with ⟨gs', ps', adv⟩
    cases adv <;> rfl
  rw [hro]
  exact ⟨h3, by rw [h1, h2], by rw [h1, h4, sumChips_map_bet_reset],
    by rw [h4, handsCat_map_bet_reset, h5]⟩

theorem Step_preserves (t t' : Table) (hs : Step t t')
    (hnd : t.gs.playerOrder.Nodup) :
    t'.gs.playerOrder = t.gs.playerOrder ∧
    t'.gs.pot + sumA t.gs.playerContributions
      = t.gs.pot + sumA t'.gs.playerContributions ∧
    sumChips t'.players t.gs.playerOrder + t'.gs.pot
      = sumChips t.players t.gs.playerOrder + t.gs.pot ∧
    handsCat t'.players t.gs.playerOrder
        ++ (t'.gs.communityCards ++ t'.gs.deck)
      = handsCat t.players t.gs.playerOrder ++ (t.gs.communityCards ++ t.gs.deck) := by
  cases hs with
  | act pid a amt hsucc =>
      exact processAction_preserves t.gs t.players pid a amt hnd hsucc
  | runout => exact stepRunout_preserves t

/-- The hand-level conservation invariant (claim C1's content), plus the
card-conservation invariant (claim C10's content), at every reachable
state. -/
theorem Reach_inv (room : Room) (pd : Nat) (deck0 : List Card) (t : Table)
    (hkeys : (room.players.map (·.1)).Nodup)
    (hr : Reach room pd deck0 t) :
    t.gs.playerOrder.Nodup ∧
    2 ≤ t.gs.playerOrder.length ∧
    t.gs.pot = sumA t.gs.playerContributions ∧
    sumChips t.players t.gs.playerOrder + t.gs.pot
      = sumChips room.players t.gs.playerOrder ∧
    handsCat t.players t.gs.playerOrder ++ (t.gs.communityCards ++ t.gs.deck)
      = deck0 := by
  induction hr with
  | start gs ps h =>
      obtain ⟨s1, s2, s3, s4, s5, _, _⟩ := startNextHand_spec room pd deck0 gs ps hkeys h
      exact ⟨s1, s2, s3, s4, s5⟩
  | step t t' ht hstep ih =>
      obtain ⟨i1, i2, i3, i4, i5⟩ := ih
      obtain ⟨p1, p2, p3, p4⟩ := Step_preserves t t' hstep i1
      rw [p1]
      exact ⟨i1, i2, by omega, by omega, by rw [p4, i5]⟩

/-! ### Claim C1 -/

/-- C1: for every reachable intermediate state of a hand (after hand start
and after every successfully applied action), the running pot equals the sum
of all seats' total contributions for the hand, and the sum of all
participating seats' remaining chips plus the pot equals the total chips
those seats held at hand start. -/
theorem c1_pot_and_stack_conservation (room : Room) (pd : Nat)
    (deck0 : List Card) (t : Table)
    (hkeys : (room.players.map (·.1)).Nodup)
    (hr : Reach room pd deck0 t) :
    t.gs.pot = sumA t.gs.playerContributions ∧
    sumChips t.players t.gs.playerOrder + t.gs.pot
      = sumChips room.players t.gs.playerOrder := by
  obtain ⟨_, _, h3, h4, _⟩ := Reach_inv room pd deck0 t hkeys hr
  exact ⟨h3, h4⟩

/-- A two-seat room used to instantiate the reachability theorems. -/
def wRoom : Room :=
  ⟨"r1", "room",
    [("A", ⟨"A", "A", 1000, 0, [], PlayerStatus.waiting, false, false, false⟩),
     ("B", ⟨"B", "B", 1000, 0, [], PlayerStatus.waiting, false, false, false⟩)],
    6, 10, 20, none⟩

def emptyGameState : GameState :=
  ⟨"", GamePhase.waiting, [], [], 0, 0, 0, 0, 0, 0, [], [], [], [], none, 0⟩

/-- The table produced by starting a hand on `wRoom`. -/
def wTable : Table :=
  match startNextHand wRoom 1 freshDeck with
  | some r => ⟨r.1, r.2⟩
  | none => ⟨emptyGameState, []⟩

theorem c1_pot_and_stack_conservation_witness :
    wTable.gs.pot = sumA wTable.gs.playerContributions ∧
    sumChips wTable.players wTable.gs.playerOrder + wTable.gs.pot
      = sumChips wRoom.players wTable.gs.playerOrder :=
  c1_pot_and_stack_conservation wRoom 1 freshDeck wTable (by decide)
    (Reach.start wTable.gs wTable.players (by rfl))

/-! ### Claim C10 -/

/-- C10: within a single hand, all dealt cards are pairwise distinct — the
deck created at hand start is a permutation of the 52 distinct cards, and
every deal removes cards from the head of that one deck, so the
concatenation of all seats' hole cards with the community cards never
repeats a card, at any reachable state. -/
theorem c10_all_dealt_cards_distinct (room : Room) (pd : Nat)
    (rand : Nat → Nat) (t : Table)
    (hkeys : (room.players.map (·.1)).Nodup)
    (hr : Reach room pd (createDeck rand) t) :
    (createDeck rand).Perm freshDeck ∧ freshDeck.length = 52 ∧
    freshDeck.Nodup ∧
    (handsCat t.players t.gs.playerOrder ++ t.gs.communityCards).Nodup := by
  obtain ⟨_, _, _, _, h5⟩ := Reach_inv room pd _ t hkeys hr
  refine ⟨createDeck_perm rand, freshDeck_length, freshDeck_nodup, ?_⟩
  have hnd : (handsCat t.players t.gs.playerOrder
      ++ (t.gs.communityCards ++ t.gs.deck)).Nodup := by
    rw [h5]; exact createDeck_nodup rand
  have hsub : (handsCat t.players t.gs.playerOrder
        ++ t.gs.communityCards).Sublist
      (handsCat t.players t.gs.playerOrder
        ++ (t.gs.communityCards ++ t.gs.deck)) := by
    rw [← List.append_assoc]
    exact List.sublist_append_left _ _
  exact List.Nodup.sublist hsub hnd

/-- The table produced by starting a hand on `wRoom` with a concretely
shuffled deck. -/
def wTableShuffled : Table :=
  match startNextHand wRoom 1 (createDeck (fun _ => 0)) with
  | some r => ⟨r.1, r.2⟩
  | none => ⟨emptyGameState, []⟩

set_option maxRecDepth 100000 in
theorem c10_all_dealt_cards_distinct_witness :
    (createDeck (fun _ => 0)).Perm freshDeck ∧ freshDeck.length = 52 ∧
    freshDeck.Nodup ∧
    (handsCat wTableShuffled.players wTableShuffled.gs.playerOrder
      ++ wTableShuffled.gs.communityCards).Nodup :=
  c10_all_dealt_cards_distinct wRoom 1 (fun _ => 0) wTableShuffled (by decide)
    (Reach.start wTableShuffled.gs wTableShuffled.players (by rfl))

/-! ### Claim C2 -/

theorem finishAction_success (gs : GameState) (ps : Players) :
    (finishAction gs ps).1.success = true := by
  unfold finishAction
  split
  · rfl
  · split
    · rcases advancePhase gs ps with ⟨gs', ps', adv⟩
      cases adv <;> rfl
    · rfl

/-- C2 counterexample: a raise rejected for being below the minimum does
mutate the state — the actor is recorded in `playersActed`.  At the state
right after a heads-up hand start (blinds 10/20), seat B's raise to a total
of 30 is rejected, yet the game state afterwards differs from the one
before. -/
theorem c2_rejected_raise_mutates_counterexample :
    (processAction wTable.gs wTable.players "B" ActionType.raise (some 30)).1.success
        = false ∧
    (processAction wTable.gs wTable.players "B" ActionType.raise (some 30)).2.1
        ≠ wTable.gs := by
  constructor
  · rfl
  · decide

/-- C2 amended: a rejected `processAction` call never changes the seat map,
and leaves the game state unchanged except that a bet/raise rejected for
being below the minimum adds the actor to `playersActed` (the source marks
the actor as having acted before validating the amount). -/
theorem c2_rejection_mutates_only_acted (gs : GameState) (ps : Players)
    (pid : String) (a : ActionType) (amt : Option Nat)
    (hfail : (processAction gs ps pid a amt).1.success = false) :
    (processAction gs ps pid a amt).2.2 = ps ∧
    ((processAction gs ps pid a amt).2.1 = gs ∨
     (processAction gs ps pid a amt).2.1
       = { gs with playersActed := saAdd gs.playersActed pid }) := by
  rw [processAction] at hfail ⊢
  cases hlook : lookupA ps pid with
  | none => exact ⟨rfl, Or.inl rfl⟩
  | some player =>
    rw [hlook] at hfail
    dsimp only at hfail ⊢
    by_cases hturn : gs.playerOrder[gs.currentPlayerIndex]? = some pid
    case neg =>
      rw [if_pos hturn] at hfail ⊢
      exact ⟨rfl, Or.inl rfl⟩
    case pos =>
      rw [if_neg (fun h => h hturn)] at hfail ⊢
      by_cases hvalid : a ∈ getValidActions gs player
      case neg =>
        rw [if_pos hvalid] at hfail ⊢
        exact ⟨rfl, Or.inl rfl⟩
      case pos =>
        rw [if_neg (fun h => h hvalid)] at hfail ⊢
        cases a with
        | fold => rw [finishAction_success] at hfail; simp at hfail
        | check => rw [finishAction_success] at hfail; simp at hfail
        | call => rw [finishAction_success] at hfail; simp at hfail
        | allIn => rw [finishAction_success] at hfail; simp at hfail
        | bet =>
            dsimp only at hfail ⊢
            rw [if_pos (rfl : ActionType.bet = ActionType.bet)] at hfail ⊢
            cases amt with
            | none =>
                dsimp only at hfail ⊢
                split at hfail
                · rename_i hrej
                  rw [if_pos hrej]
                  exact ⟨rfl, Or.inr rfl⟩
                · rw [finishAction_success] at hfail; simp at hfail
            | some v =>
                dsimp only at hfail ⊢
                generalize (if v = 0 then gs.bigBlind else v) = T at hfail ⊢
                split at hfail
                · rename_i hrej
                  rw [if_pos hrej]
                  exact ⟨rfl, Or.inr rfl⟩
                · rw [finishAction_success] at hfail; simp at hfail
        | raise =>
            dsimp only at hfail ⊢
            rw [if_neg (show ¬(ActionType.raise = ActionType.bet) by decide)] at hfail ⊢
            cases amt with
            | none =>
                dsimp only at hfail ⊢
                split at hfail
                · rename_i hrej
                  rw [if_pos hrej]
                  exact ⟨rfl, Or.inr rfl⟩
                · rw [finishAction_success] at hfail; simp at hfail
            | some v =>
                dsimp only at hfail ⊢
                generalize (if v = 0 then gs.currentBet * 2 else v) = T at hfail ⊢
                split at hfail
                · rename_i hrej
                  rw [if_pos hrej]
                  exact ⟨rfl, Or.inr rfl⟩
                · rw [finishAction_success] at hfail; simp at hfail

theorem c2_rejection_mutates_only_acted_witness :
    (processAction wTable.gs wTable.players "B" ActionType.raise (some 30)).2.2
        = wTable.players ∧
    ((processAction wTable.gs wTable.players "B" ActionType.raise (some 30)).2.1
        = wTable.gs ∨
     (processAction wTable.gs wTable.players "B" ActionType.raise (some 30)).2.1
        = { wTable.gs with playersActed := saAdd wTable.gs.playersActed "B" }) :=
  c2_rejection_mutates_only_acted wTable.gs wTable.players "B" ActionType.raise
    (some 30) (by rfl)

/-! ### Claims C3 and C4: branch-level reductions -/

/-- A validated raise with a nonzero explicit target that passes the
minimum check reduces to `applyBetRaise` followed by the epilogue. -/
theorem processAction_raise_applied_eq (gs : GameState) (ps : Players)
    (pid : String) (player : Player) (t : Nat)
    (hlook : lookupA ps pid = some player)
    (hturn : gs.playerOrder[gs.currentPlayerIndex]? = some pid)
    (hvalid : ActionType.raise ∈ getValidActions gs player)
    (ht0 : t ≠ 0)
    (hnorej : ¬(t < gs.currentBet * 2 ∧
        t < player.chips + getDA gs.roundBets pid 0)) :
    processAction gs ps pid ActionType.raise (some t)
      = finishAction
          (applyBetRaise { gs with playersActed := saAdd gs.playersActed pid }
            player pid t).1
          (setA ps pid
            (applyBetRaise { gs with playersActed := saAdd gs.playersActed pid }
              player pid t).2) := by
  rw [processAction, hlook]
  dsimp only
  rw [if_neg (fun h => h hturn), if_neg (fun h => h hvalid),
    if_neg (show ¬(ActionType.raise = ActionType.bet) by decide)]
  rw [if_neg ht0, if_neg hnorej]

/-- A rejected raise: explicit nonzero target below double the current bet
that does not commit all remaining chips. -/
theorem processAction_raise_rejected (gs : GameState) (ps : Players)
    (pid : String) (player : Player) (t : Nat)
    (hlook : lookupA ps pid = some player)
    (hturn : gs.playerOrder[gs.currentPlayerIndex]? = some pid)
    (ht0 : t ≠ 0)
    (hrej1 : t < gs.currentBet * 2)
    (hrej2 : t < player.chips + getDA gs.roundBets pid 0) :
    (processAction gs ps pid ActionType.raise (some t)).1.success = false := by
  rw [processAction, hlook]
  dsimp only
  rw [if_neg (fun h => h hturn)]
  by_cases hvalid : ActionType.raise ∈ getValidActions gs player
  case neg => rw [if_pos hvalid]
  case pos =>
    rw [if_neg (fun h => h hvalid),
      if_neg (show ¬(ActionType.raise = ActionType.bet) by decide)]
    rw [if_neg ht0, if_pos ⟨hrej1, hrej2⟩]

/-- A validated `all-in` reduces to `applyAllIn` followed by the epilogue. -/
theorem processAction_allIn_eq (gs : GameState) (ps : Players)
    (pid : String) (player : Player) (amt : Option Nat)
    (hlook : lookupA ps pid = some player)
    (hturn : gs.playerOrder[gs.currentPlayerIndex]? = some pid)
    (hvalid : ActionType.allIn ∈ getValidActions gs player) :
    processAction gs ps pid ActionType.allIn amt
      = finishAction
          (applyAllIn { gs with playersActed := saAdd gs.playersActed pid }
            player pid).1
          (setA ps pid
            (applyAllIn { gs with playersActed := saAdd gs.playersActed pid }
              player pid).2) := by
  rw [processAction, hlook]
  dsimp only
  rw [if_neg (fun h => h hturn), if_neg (fun h => h hvalid)]

/-- When the hand does not end and the betting round is not complete, the
epilogue only moves the turn. -/
theorem finishAction_noadvance (gs : GameState) (ps : Players)
    (h1 : (getActivePlayers gs ps).length ≠ 1)
    (h2 : isBettingRoundComplete gs ps = false) :
    (finishAction gs ps).2.1 = advanceToNextPlayer gs ps ∧
    (finishAction gs ps).2.2 = ps := by
  rw [finishAction, if_neg h1]
  rw [if_neg (by rw [h2]; exact Bool.false_ne_true)]
  exact ⟨rfl, rfl⟩

theorem applyBetRaise_fields (gs : GameState) (player : Player) (pid : String)
    (t : Nat) :
    (applyBetRaise gs player pid t).1.minRaise
      = getDA gs.roundBets pid 0
        + min (t - getDA gs.roundBets pid 0) player.chips ∧
    (applyBetRaise gs player pid t).1.currentBet
      = getDA gs.roundBets pid 0
        + min (t - getDA gs.roundBets pid 0) player.chips ∧
    (applyBetRaise gs player pid t).1.playersActed = [pid] := by
  rw [applyBetRaise]
  exact ⟨rfl, rfl, rfl⟩

theorem applyAllIn_fields (gs : GameState) (player : Player) (pid : String)
    (hover : gs.currentBet < getDA gs.roundBets pid 0 + player.chips) :
    (applyAllIn gs player pid).1.currentBet
      = getDA gs.roundBets pid 0 + player.chips ∧
    (applyAllIn gs player pid).1.minRaise = gs.minRaise ∧
    (applyAllIn gs player pid).1.playersActed = [pid] := by
  rw [applyAllIn]
  dsimp only
  rw [if_pos hover]
  exact ⟨rfl, rfl, rfl⟩

/-- A three-seat room with a short stack in seat B, used to reach a state
where `currentBet < minRaise`. -/
def roomC3 : Room :=
  ⟨"r3", "room",
    [("A", ⟨"A", "A", 1000, 0, [], PlayerStatus.waiting, false, false, false⟩),
     ("B", ⟨"B", "B", 35, 0, [], PlayerStatus.waiting, false, false, false⟩),
     ("C", ⟨"C", "C", 1000, 0, [], PlayerStatus.waiting, false, false, false⟩)],
    6, 10, 20, none⟩

def tC3a : Table :=
  match startNextHand roomC3 2 freshDeck with
  | some r => ⟨r.1, r.2⟩
  | none => ⟨emptyGameState, []⟩

def tC3b : Table := stepAct tC3a "A" ActionType.call none

def tC3c : Table := stepAct tC3b "B" ActionType.call none

def tC3d : Table := stepAct tC3c "C" ActionType.check none

def tC3e : Table := stepAct tC3d "B" ActionType.allIn none

/-- C3 counterexample: at a reachable state (blinds 10/20; pre-flop calls,
then seat B moves all-in for 15 on the flop) the engine has
`currentBet = 15` and `minRaise = 20`.  Seat C's raise to a total of 32 is
strictly below `currentBet + minRaise = 35` and commits far fewer than C's
remaining chips, yet `processAction` accepts it (the code's minimum is
`currentBet * 2 = 30`); and the applied raise sets `minRaise` to the new
target 32, not to `newTarget - previousCurrentBet = 17`. -/
theorem c3_raise_minimum_counterexample :
    Reach roomC3 2 freshDeck tC3e ∧
    0 < tC3e.gs.currentBet ∧
    tC3e.gs.currentBet = 15 ∧ tC3e.gs.minRaise = 20 ∧
    tC3e.gs.playerOrder[tC3e.gs.currentPlayerIndex]? = some "C" ∧
    32 < tC3e.gs.currentBet + tC3e.gs.minRaise ∧
    ((lookupA tC3e.players "C").map
      (fun p => decide (32 < p.chips + getDA tC3e.gs.roundBets "C" 0)))
      = some true ∧
    (processAction tC3e.gs tC3e.players "C" ActionType.raise (some 32)).1.success
      = true ∧
    (processAction tC3e.gs tC3e.players "C" ActionType.raise (some 32)).2.1.minRaise
      = 32 ∧
    (processAction tC3e.gs tC3e.players "C" ActionType.raise (some 32)).2.1.minRaise
      ≠ 32 - tC3e.gs.currentBet := by
  refine ⟨?_, by decide, by decide, by decide, by decide, by decide, by rfl,
    by rfl, by rfl, by decide⟩
  exact Reach.step _ _ (Reach.step _ _ (Reach.step _ _ (Reach.step _ _
    (Reach.start tC3a.gs tC3a.players rfl)
    (Step.act tC3a "A" ActionType.call none rfl))
    (Step.act tC3b "B" ActionType.call none rfl))
    (Step.act tC3c "C" ActionType.check none rfl))
    (Step.act tC3d "B" ActionType.allIn none rfl)

/-- C3 amended: for a raise intent with an explicit nonzero target `t` by
the seat at the current index: (1) if `t` is below DOUBLE the current bet
(the code's minimum, not `currentBet + minRaise`) and `t` does not commit
all the actor's remaining chips, the raise is rejected; (2) an applied
raise whose full target is reachable sets both `minRaise` and `currentBet`
to the full new target `t` itself (not to `t - previousCurrentBet`),
provided the hand and betting round continue. -/
theorem c3_raise_minimum_and_minRaise (gs : GameState) (ps : Players)
    (pid : String) (player : Player) (t : Nat)
    (hlook : lookupA ps pid = some player)
    (hturn : gs.playerOrder[gs.currentPlayerIndex]? = some pid)
    (ht0 : t ≠ 0) :
    (t < gs.currentBet * 2 → t < player.chips + getDA gs.roundBets pid 0 →
      (processAction gs ps pid ActionType.raise (some t)).1.success = false) ∧
    (ActionType.raise ∈ getValidActions gs player →
     gs.currentBet * 2 ≤ t →
     getDA gs.roundBets pid 0 ≤ t →
     t ≤ player.chips + getDA gs.roundBets pid 0 →
     (getActivePlayers
        (applyBetRaise { gs with playersActed := saAdd gs.playersActed pid }
          player pid t).1
        (setA ps pid
          (applyBetRaise { gs with playersActed := saAdd gs.playersActed pid }
            player pid t).2)).length ≠ 1 →
     isBettingRoundComplete
        (applyBetRaise { gs with playersActed := saAdd gs.playersActed pid }
          player pid t).1
        (setA ps pid
          (applyBetRaise { gs with playersActed := saAdd gs.playersActed pid }
            player pid t).2) = false →
     (processAction gs ps pid ActionType.raise (some t)).1.success = true ∧
     (processAction gs ps pid ActionType.raise (some t)).2.1.minRaise = t ∧
     (processAction gs ps pid ActionType.raise (some t)).2.1.currentBet = t) := by
  constructor
  · exact fun h1 h2 =>
      processAction_raise_rejected gs ps pid player t hlook hturn ht0 h1 h2
  · intro hvalid hmin hrb hcap hact hround
    have hnorej : ¬(t < gs.currentBet * 2 ∧
        t < player.chips + getDA gs.roundBets pid 0) :=
      fun h => absurd h.1 (Nat.not_lt.2 hmin)
    rw [processAction_raise_applied_eq gs ps pid player t hlook hturn hvalid
      ht0 hnorej]
    obtain ⟨e1, _⟩ := finishAction_noadvance _ _ hact hround
    obtain ⟨_, _, _, _, _, _, hcb, hmr, _, _⟩ := advanceToNextPlayer_fields
      (applyBetRaise { gs with playersActed := saAdd gs.playersActed pid }
        player pid t).1
      (setA ps pid
        (applyBetRaise { gs with playersActed := saAdd gs.playersActed pid }
          player pid t).2)
    obtain ⟨f1, f2, _⟩ := applyBetRaise_fields
      { gs with playersActed := saAdd gs.playersActed pid } player pid t
    refine ⟨finishAction_success _ _, ?_, ?_⟩
    · rw [e1, hmr, f1]
      dsimp only
      rw [Nat.min_eq_left (by omega)]
      omega
    · rw [e1, hcb, f2]
      dsimp only
      rw [Nat.min_eq_left (by omega)]
      omega

/-- Seat C's record at `tC3e`. -/
def pC3 : Player :=
  match lookupA tC3e.players "C" with
  | some p => p
  | none => ⟨"C", "C", 0, 0, [], PlayerStatus.waiting, false, false, false⟩

theorem c3_raise_minimum_and_minRaise_witness :
    (processAction tC3e.gs tC3e.players "C" ActionType.raise (some 32)).1.success
      = true ∧
    (processAction tC3e.gs tC3e.players "C" ActionType.raise (some 32)).2.1.minRaise
      = 32 ∧
    (processAction tC3e.gs tC3e.players "C" ActionType.raise (some 32)).2.1.currentBet
      = 32 :=
  (c3_raise_minimum_and_minRaise tC3e.gs tC3e.players "C" pC3 32 rfl (by decide)
      (by decide)).2
    (by decide) (by decide) (by decide) (by decide) (by decide) (by decide)

/-- A three-seat room where seat B can move all-in for an under-minimum
raise over a live bet. -/
def roomC4 : Room :=
  ⟨"r4", "room",
    [("A", ⟨"A", "A", 1000, 0, [], PlayerStatus.waiting, false, false, false⟩),
     ("B", ⟨"B", "B", 130, 0, [], PlayerStatus.waiting, false, false, false⟩),
     ("C", ⟨"C", "C", 1000, 0, [], PlayerStatus.waiting, false, false, false⟩)],
    6, 10, 20, none⟩

def tC4a : Table :=
  match startNextHand roomC4 2 freshDeck with
  | some r => ⟨r.1, r.2⟩
  | none => ⟨emptyGameState, []⟩

def tC4b : Table := stepAct tC4a "A" ActionType.raise (some 100)

/-- C4 counterexample: at a reachable state with `currentBet = 100`,
`minRaise = 100` and seat A recorded as having acted, seat B moves all-in
for a total of 130 (above the current bet, below the minimum raise of
200).  The engine updates `currentBet` to 130 and leaves `minRaise` alone
as the claim says — but it resets `playersActed` to `{B}`, removing the
previously-acted seat A, so action IS reopened for A. -/
theorem c4_allin_reopens_action_counterexample :
    Reach roomC4 2 freshDeck tC4b ∧
    "A" ∈ tC4b.gs.playersActed ∧
    tC4b.gs.currentBet = 100 ∧ tC4b.gs.minRaise = 100 ∧
    tC4b.gs.playerOrder[tC4b.gs.currentPlayerIndex]? = some "B" ∧
    ((lookupA tC4b.players "B").map
      (fun p => getDA tC4b.gs.roundBets "B" 0 + p.chips)) = some 130 ∧
    (processAction tC4b.gs tC4b.players "B" ActionType.allIn none).1.success
      = true ∧
    (processAction tC4b.gs tC4b.players "B" ActionType.allIn none).2.1.currentBet
      = 130 ∧
    (processAction tC4b.gs tC4b.players "B" ActionType.allIn none).2.1.minRaise
      = 100 ∧
    "A" ∉ (processAction tC4b.gs tC4b.players "B"
        ActionType.allIn none).2.1.playersActed := by
  refine ⟨?_, by decide, by decide, by decide, by decide, by rfl, by rfl,
    by rfl, by rfl, by decide⟩
  exact Reach.step _ _ (Reach.start tC4a.gs tC4a.players rfl)
    (Step.act tC4a "A" ActionType.raise (some 100) rfl)

/-- C4 amended: an all-in whose total exceeds the current bet updates
`currentBet` to the all-in total and leaves `minRaise` unchanged, but it
RESETS `playersActed` to the actor alone — previously-acted seats are
removed, so action is reopened even for an under-minimum all-in raise
(provided the hand and betting round continue). -/
theorem c4_allin_under_min_raise (gs : GameState) (ps : Players)
    (pid : String) (player : Player)
    (hlook : lookupA ps pid = some player)
    (hturn : gs.playerOrder[gs.currentPlayerIndex]? = some pid)
    (hvalid : ActionType.allIn ∈ getValidActions gs player)
    (hover : gs.currentBet < getDA gs.roundBets pid 0 + player.chips)
    (_hunder : getDA gs.roundBets pid 0 + player.chips
      < gs.currentBet + gs.minRaise)
    (hact : (getActivePlayers
        (applyAllIn { gs with playersActed := saAdd gs.playersActed pid }
          player pid).1
        (setA ps pid
          (applyAllIn { gs with playersActed := saAdd gs.playersActed pid }
            player pid).2)).length ≠ 1)
    (hround : isBettingRoundComplete
        (applyAllIn { gs with playersActed := saAdd gs.playersActed pid }
          player pid).1
        (setA ps pid
          (applyAllIn { gs with playersActed := saAdd gs.playersActed pid }
            player pid).2) = false) :
    (processAction gs ps pid ActionType.allIn none).1.success = true ∧
    (processAction gs ps pid ActionType.allIn none).2.1.currentBet
      = getDA gs.roundBets pid 0 + player.chips ∧
    (processAction gs ps pid ActionType.allIn none).2.1.minRaise
      = gs.minRaise ∧
    (processAction gs ps pid ActionType.allIn none).2.1.playersActed
      = [pid] := by
  rw [processAction_allIn_eq gs ps pid player none hlook hturn hvalid]
  obtain ⟨e1, _⟩ := finishAction_noadvance _ _ hact hround
  obtain ⟨_, _, _, _, _, _, hcb, hmr, hpa, _⟩ := advanceToNextPlayer_fields
    (applyAllIn { gs with playersActed := saAdd gs.playersActed pid }
      player pid).1
    (setA ps pid
      (applyAllIn { gs with playersActed := saAdd gs.playersActed pid }
        player pid).2)
  obtain ⟨g1, g2, g3⟩ := applyAllIn_fields
    { gs with playersActed := saAdd gs.playersActed pid } player pid hover
  refine ⟨finishAction_success _ _, ?_, ?_, ?_⟩
  · rw [e1, hcb, g1]
  · rw [e1, hmr, g2]
  · rw [e1, hpa, g3]

/-- Seat B's record at `tC4b`. -/
def pC4 : Player :=
  match lookupA tC4b.players "B" with
  | some p => p
  | none => ⟨"B", "B", 0, 0, [], PlayerStatus.waiting, false, false, false⟩

theorem c4_allin_under_min_raise_witness :
    (processAction tC4b.gs tC4b.players "B" ActionType.allIn none).1.success
      = true ∧
    (processAction tC4b.gs tC4b.players "B" ActionType.allIn none).2.1.currentBet
      = getDA tC4b.gs.roundBets "B" 0 + pC4.chips ∧
    (processAction tC4b.gs tC4b.players "B" ActionType.allIn none).2.1.minRaise
      = tC4b.gs.minRaise ∧
    (processAction tC4b.gs tC4b.players "B" ActionType.allIn none).2.1.playersActed
      = ["B"] :=
  c4_allin_under_min_raise tC4b.gs tC4b.players "B" pC4 rfl (by decide)
    (by decide) (by decide) (by decide) (by decide) (by decide)


theorem dealLoop_lookup_flags (order : List String) :
    ∀ (ps : Players) (deck : List Card) (i d s b j : Nat) (pid : String)
      (p : Player),
      order.Nodup →
      order[j]? = some pid →
      lookupA ps pid = some p →
      lookupA (dealLoop ps order deck i d s b).1 pid
        = some { p with
            hand := (deck.drop (2 * j)).take 2,
            status := PlayerStatus.active, bet := 0,
            isDealer := (i + j) == d, isSmallBlind := (i + j) == s,
            isBigBlind := (i + j) == b } := by
  induction order with
  | nil =>
      intro ps deck i d s b j pid p _ hj _
      simp at hj
  | cons q rest ih =>
      intro ps deck i d s b j pid p hnd hj hp
      rw [dealLoop]
      cases j with
      | zero =>
          have hq : q = pid := by simpa using hj
          subst hq
          rw [hp]
          dsimp only
          rw [dealLoop_lookup_not_mem rest _ _ _ _ _ _ q
            (List.nodup_cons.mp hnd).1, lookupA_setA_self]
          norm_num
      | succ j' =>
          have hj' : rest[j']? = some pid := by simpa using hj
          have hpidrest : pid ∈ rest := mem_of_getElem?_eq hj'
          have hqpid : q ≠ pid := fun he => (List.nodup_cons.mp hnd).1 (he ▸ hpidrest)
          have e1 : i + 1 + j' = i + (j' + 1) := by omega
          have e2 : (deck.drop 2).drop (2 * j') = deck.drop (2 * (j' + 1)) := by
            rw [List.drop_drop]
            congr 1
            omega
          cases hq : lookupA ps q with
          | none =>
              have hrec := ih ps (deck.drop 2) (i + 1) d s b j' pid p
                (List.nodup_cons.mp hnd).2 hj' hp
              rw [e1, e2] at hrec
              exact hrec
          | some pq =>
              dsimp only
              have hp' : lookupA (setA ps q { pq with
                  hand := deck.take 2, status := PlayerStatus.active, bet := 0,
                  isDealer := i == d, isSmallBlind := i == s,
                  isBigBlind := i == b }) pid = some p := by
                rw [lookupA_setA_ne _ _ _ _ hqpid]
                exact hp
              have hrec := ih _ (deck.drop 2) (i + 1) d s b j' pid p
                (List.nodup_cons.mp hnd).2 hj' hp'
              rw [e1, e2] at hrec
              exact hrec

theorem postBlind_indexes (gs : GameState) (ps : Players) (bid : String)
    (cap : Nat) :
    (postBlind gs ps bid cap).1.currentPlayerIndex = gs.currentPlayerIndex ∧
    (postBlind gs ps bid cap).1.dealerIndex = gs.dealerIndex ∧
    (postBlind gs ps bid cap).1.playerOrder = gs.playerOrder := by
  rw [postBlind]
  cases lookupA ps bid <;> exact ⟨rfl, rfl, rfl⟩

/-- The table after seat B folds at `wTable`. -/
def tC5 : Table := stepAct wTable "B" ActionType.fold none

/-- C5 amended: in every hand started with exactly two eligible seats, the
DEALER is the big blind and the NON-dealer is the small blind and acts
first pre-flop (the reverse of the claimed positions); consequently, in
the heads-up scenario with stacks A = 1000 (dealer) and B = 1000 and
blinds 10/20, it is B who can fold pre-flop, and doing so gives a pot of
30 which A wins: final chips are A = 1010 and B = 990. -/
theorem c5_heads_up_dealer_is_big_blind (room : Room) (pd : Nat)
    (deck0 : List Card) (gs : GameState) (ps : Players)
    (hkeys : (room.players.map (·.1)).Nodup)
    (h : startNextHand room pd deck0 = some (gs, ps))
    (hn : gs.playerOrder.length = 2) :
    (∃ dealerId sbId pD pS,
      gs.dealerIndex < 2 ∧
      gs.currentPlayerIndex = (gs.dealerIndex + 1) % 2 ∧
      gs.playerOrder[gs.dealerIndex]? = some dealerId ∧
      gs.playerOrder[(gs.dealerIndex + 1) % 2]? = some sbId ∧
      dealerId ≠ sbId ∧
      lookupA ps dealerId = some pD ∧
      pD.isDealer = true ∧ pD.isSmallBlind = false ∧ pD.isBigBlind = true ∧
      lookupA ps sbId = some pS ∧
      pS.isDealer = false ∧ pS.isSmallBlind = true ∧ pS.isBigBlind = false) ∧
    (processAction wTable.gs wTable.players "B" ActionType.fold none).1.success
      = true ∧
    tC5.gs.pot = 30 ∧ tC5.gs.phase = GamePhase.complete ∧
    (resolveHandComplete tC5.gs tC5.players).1
      = [⟨"A", 30, ⟨"A", HandRank.highCard, [], 0⟩⟩] ∧
    ((lookupA (resolveHandComplete tC5.gs tC5.players).2 "A").map (·.chips))
      = some 1010 ∧
    ((lookupA (resolveHandComplete tC5.gs tC5.players).2 "B").map (·.chips))
      = some 990 := by
  refine ⟨?_, by rfl, by rfl, by rfl, by rfl, by rfl, by rfl⟩
  have hkeys2 : ((markBroke (clearSeats room.players)).map (·.1)).Nodup := by
    rw [keys_markBroke, keys_clearSeats]; exact hkeys
  rw [startNextHand] at h
  dsimp only at h
  split at h
  · exact absurd h (by simp)
  rename_i helig
  have hordnd : (eligibleOrder (markBroke (clearSeats room.players))).Nodup :=
    eligibleOrder_nodup _ hkeys2
  split at h
  case _ sbId bbId hsb hbb =>
    set ps2 := markBroke (clearSeats room.players) with hps2def
    set order := eligibleOrder ps2 with horderdef
    set n := order.length with hndef
    set dIdx := (pd + 1) % n with hdIdxdef
    set sbIdx := (dIdx + 1) % n with hsbIdxdef
    set bbIdx := (dIdx + 2) % n with hbbIdxdef
    replace h := Option.some.inj h
    have hgs := congrArg Prod.fst h
    have hps := congrArg Prod.snd h
    dsimp only at hgs hps
    subst hgs
    subst hps
    set D := dealLoop ps2 order deck0 0 dIdx sbIdx bbIdx with hDdef
    set G0 : GameState := {
      roomId := room.id, phase := GamePhase.preflop, deck := D.2,
      communityCards := [], pot := 0, currentBet := room.bigBlind,
      minRaise := room.bigBlind, bigBlind := room.bigBlind,
      currentPlayerIndex := if n = 2 then sbIdx else (dIdx + 3) % n,
      dealerIndex := dIdx, playerOrder := order, roundBets := [],
      playerContributions := [], playersActed := [],
      lastRaiser := order[bbIdx]?,
      handNumber := ((room.gameState.map (·.handNumber)).getD 0) + 1 } with hG0def
    set R1 := postBlind G0 D.1 sbId room.smallBlind with hR1def
    set R2 := postBlind R1.1 R1.2 bbId room.bigBlind with hR2def
    obtain ⟨i1, i2, i3⟩ := postBlind_indexes G0 D.1 sbId room.smallBlind
    obtain ⟨k1, k2, k3⟩ := postBlind_indexes R1.1 R1.2 bbId room.bigBlind
    rw [← hR1def] at i1 i2 i3
    rw [← hR2def] at k1 k2 k3
    have hsbm : sbId ∈ order := mem_of_getElem?_eq hsb
    have hbbm : bbId ∈ order := mem_of_getElem?_eq hbb
    obtain ⟨psb0, hpsb0⟩ := lookupA_isSome_of_mem_keys _ sbId
      (eligibleOrder_mem_keys _ _ hsbm)
    obtain ⟨pbb0, hpbb0⟩ := lookupA_isSome_of_mem_keys _ bbId
      (eligibleOrder_mem_keys _ _ hbbm)
    have hpsbD := dealLoop_lookup_flags order ps2 deck0 0 dIdx sbIdx bbIdx
      sbIdx sbId psb0 hordnd hsb hpsb0
    have hpbbD := dealLoop_lookup_flags order ps2 deck0 0 dIdx sbIdx bbIdx
      bbIdx bbId pbb0 hordnd hbb hpbb0
    rw [← hDdef] at hpsbD hpbbD
    have hn2 : n = 2 := by
      rw [k3, i3] at hn
      have hord2 : order.length = 2 := hn
      omega
    have hd2 : dIdx < 2 := by rw [hdIdxdef, hn2]; omega
    have hsbne : sbIdx ≠ dIdx := by rw [hsbIdxdef, hn2]; omega
    have hbbeq : bbIdx = dIdx := by rw [hbbIdxdef, hn2]; omega
    have hsbbb : sbIdx ≠ bbIdx := by rw [hsbIdxdef, hbbIdxdef, hn2]; omega
    have hsbval : sbIdx = (dIdx + 1) % 2 := by rw [hsbIdxdef, hn2]
    have hne : sbId ≠ bbId :=
      nodup_getElem?_ne order hordnd sbIdx bbIdx hsbbb sbId bbId hsb hbb
    obtain ⟨q1, q2, q3, q4, q5, q6, q7, q8, q9⟩ :=
      postBlind_spec G0 D.1 sbId room.smallBlind _ hpsbD
    rw [← hR1def] at q3
    have hpbb1 : lookupA R1.2 bbId = some { pbb0 with
        hand := (deck0.drop (2 * bbIdx)).take 2,
        status := PlayerStatus.active, bet := 0,
        isDealer := (0 + bbIdx) == dIdx, isSmallBlind := (0 + bbIdx) == sbIdx,
        isBigBlind := (0 + bbIdx) == bbIdx } := by
      rw [q3, lookupA_setA_ne _ _ _ _ hne]
      exact hpbbD
    obtain ⟨w1, w2, w3, w4, w5, w6, w7, w8, w9⟩ :=
      postBlind_spec R1.1 R1.2 bbId room.bigBlind _ hpbb1
    rw [← hR2def] at w3
    have hlookBB := w3 ▸ lookupA_setA_self R1.2 bbId _
    have hlookSB : lookupA R2.2 sbId = some { { psb0 with
        hand := (deck0.drop (2 * sbIdx)).take 2,
        status := PlayerStatus.active, bet := 0,
        isDealer := (0 + sbIdx) == dIdx, isSmallBlind := (0 + sbIdx) == sbIdx,
        isBigBlind := (0 + sbIdx) == bbIdx } with
        chips := psb0.chips - min psb0.chips room.smallBlind,
        bet := min psb0.chips room.smallBlind } := by
      rw [w3, lookupA_setA_ne _ _ _ _ (Ne.symm hne), q3, lookupA_setA_self]
    have fBBD : ((0 + bbIdx : Nat) == dIdx) = true := by
      rw [Nat.zero_add, hbbeq]; exact beq_self_eq_true dIdx
    have fBBSB : ((0 + bbIdx : Nat) == sbIdx) = false := by
      rw [Nat.zero_add]
      exact beq_eq_false_iff_ne.mpr (fun he => hsbbb he.symm)
    have fBBBB : ((0 + bbIdx : Nat) == bbIdx) = true := by
      rw [Nat.zero_add]; exact beq_self_eq_true bbIdx
    have fSBD : ((0 + sbIdx : Nat) == dIdx) = false := by
      rw [Nat.zero_add]; exact beq_eq_false_iff_ne.mpr hsbne
    have fSBSB : ((0 + sbIdx : Nat) == sbIdx) = true := by
      rw [Nat.zero_add]; exact beq_self_eq_true sbIdx
    have fSBBB : ((0 + sbIdx : Nat) == bbIdx) = false := by
      rw [Nat.zero_add]; exact beq_eq_false_iff_ne.mpr hsbbb
    refine ⟨bbId, sbId, _, _, ?_, ?_, ?_, ?_, Ne.symm hne, hlookBB,
      ?_, ?_, ?_, hlookSB, ?_, ?_, ?_⟩
    · rw [k2, i2]
      exact hd2
    · rw [k1, i1, k2, i2]
      show (if n = 2 then sbIdx else (dIdx + 3) % n) = (dIdx + 1) % 2
      rw [if_pos hn2]
      omega
    · rw [k3, i3, k2, i2]
      show order[dIdx]? = some bbId
      rw [← hbbeq]
      exact hbb
    · rw [k3, i3, k2, i2]
      show order[(dIdx + 1) % 2]? = some sbId
      rw [← hsbval]
      exact hsb
    · exact fBBD
    · exact fBBSB
    · exact fBBBB
    · exact fSBD
    · exact fSBSB
    · exact fSBBB
  case _ => exact absurd h (by simp)

/-- C5 counterexample: at the hand started on a heads-up room (seats A and
B, 1000 chips each, blinds 10/20, previous dealer index 1), the dealer is
seat A — and A is the BIG blind, not the small blind; the first to act is
seat B, the non-dealer; and A's attempt to fold first is rejected as out
of turn. -/
theorem c5_heads_up_positions_counterexample :
    Reach wRoom 1 freshDeck wTable ∧
    wTable.gs.playerOrder = ["A", "B"] ∧
    wTable.gs.dealerIndex = 0 ∧
    ((lookupA wTable.players "A").map
      (fun p => (p.isDealer, p.isSmallBlind, p.isBigBlind)))
      = some (true, false, true) ∧
    ((lookupA wTable.players "B").map
      (fun p => (p.isDealer, p.isSmallBlind, p.isBigBlind)))
      = some (false, true, false) ∧
    wTable.gs.playerOrder[wTable.gs.currentPlayerIndex]? = some "B" ∧
    (processAction wTable.gs wTable.players "A" ActionType.fold none).1.success
      = false :=
  ⟨Reach.start wTable.gs wTable.players rfl, by decide, by decide, by decide,
    by decide, by decide, by rfl⟩

theorem c5_heads_up_dealer_is_big_blind_witness :
    (∃ dealerId sbId pD pS,
      wTable.gs.dealerIndex < 2 ∧
      wTable.gs.currentPlayerIndex = (wTable.gs.dealerIndex + 1) % 2 ∧
      wTable.gs.playerOrder[wTable.gs.dealerIndex]? = some dealerId ∧
      wTable.gs.playerOrder[(wTable.gs.dealerIndex + 1) % 2]? = some sbId ∧
      dealerId ≠ sbId ∧
      lookupA wTable.players dealerId = some pD ∧
      pD.isDealer = true ∧ pD.isSmallBlind = false ∧ pD.isBigBlind = true ∧
      lookupA wTable.players sbId = some pS ∧
      pS.isDealer = false ∧ pS.isSmallBlind = true ∧ pS.isBigBlind = false) ∧
    (processAction wTable.gs wTable.players "B" ActionType.fold none).1.success
      = true ∧
    tC5.gs.pot = 30 ∧ tC5.gs.phase = GamePhase.complete ∧
    (resolveHandComplete tC5.gs tC5.players).1
      = [⟨"A", 30, ⟨"A", HandRank.highCard, [], 0⟩⟩] ∧
    ((lookupA (resolveHandComplete tC5.gs tC5.players).2 "A").map (·.chips))
      = some 1010 ∧
    ((lookupA (resolveHandComplete tC5.gs tC5.players).2 "B").map (·.chips))
      = some 990 :=
  c5_heads_up_dealer_is_big_blind wRoom 1 freshDeck wTable.gs wTable.players
    (by decide) rfl (by rfl)


def sumAmounts (pots : List SidePotDTO) : Nat := (pots.map (·.amount)).sum

theorem mergeStep_sum (merged : List SidePotDTO) (pot : SidePotDTO) :
    sumAmounts (mergeStep merged pot) = sumAmounts merged + pot.amount := by
  cases hl : merged.getLast? with
  | none => rw [mergeStep, hl]; simp [sumAmounts]
  | some last =>
      rw [mergeStep, hl]
      dsimp only
      have hne : merged ≠ [] := by
        intro he
        rw [he] at hl
        simp at hl
      have hsplit : merged.dropLast ++ [merged.getLast hne] = merged :=
        List.dropLast_append_getLast hne
      have hlast : merged.getLast hne = last := by
        have := List.getLast?_eq_getLast merged hne
        rw [hl] at this
        exact (Option.some.inj this).symm
      have hmsum : sumAmounts merged
          = sumAmounts merged.dropLast + last.amount := by
        conv_lhs => rw [← hsplit]
        rw [hlast]
        simp [sumAmounts]
      split
      · simp only [sumAmounts, List.map_append, List.sum_append] at hmsum ⊢
        simp at hmsum ⊢
        omega
      · simp [sumAmounts]

theorem foldl_mergeStep_sum (pots : List SidePotDTO) :
    ∀ acc : List SidePotDTO,
      sumAmounts (pots.foldl mergeStep acc) = sumAmounts acc + sumAmounts pots := by
  induction pots with
  | nil => intro acc; simp [sumAmounts]
  | cons p ps ih =>
      intro acc
      rw [List.foldl_cons, ih, mergeStep_sum]
      simp [sumAmounts]
      omega

/-- The per-entry layer split: an entry's excess over `prev` decomposes
into the slice between `prev` and `l` plus the excess over `l`, provided
entries above `prev` reach `l`. -/
theorem layer_split_sum (C : List ContribEntry) (l prev : Nat)
    (hpl : prev < l)
    (hreach : ∀ c ∈ C, prev < c.amount → l ≤ c.amount) :
    ((C.map (fun c => if prev < c.amount then c.amount - prev else 0)).sum : Nat)
      = (l - prev) * (C.filter (fun c => decide (l ≤ c.amount))).length
        + (C.map (fun c => if l < c.amount then c.amount - l else 0)).sum := by
  induction C with
  | nil => simp
  | cons c cs ih =>
      have hc := hreach c (List.mem_cons_self c cs)
      have ihr := ih (fun x hx hgt => hreach x (List.mem_cons_of_mem c hx) hgt)
      rw [List.map_cons, List.map_cons, List.sum_cons, List.sum_cons,
        List.filter_cons]
      by_cases hla : l ≤ c.amount
      · have hprevc : prev < c.amount := by omega
        rw [if_pos hprevc,
          if_pos (show decide (l ≤ c.amount) = true by simpa using hla),
          List.length_cons]
        by_cases hlt : l < c.amount
        · rw [if_pos hlt]
          rw [ihr]
          have hle2 : prev ≤ l := by omega
          ring_nf
          omega
        · rw [if_neg hlt]
          rw [ihr]
          ring_nf
          omega
      · have hle : c.amount ≤ prev := by
          by_contra hgt
          exact hla (hc (by omega))
        rw [if_neg (show ¬(prev < c.amount) by omega),
          if_neg (show ¬(decide (l ≤ c.amount) = true) by simpa using hla),
          if_neg (show ¬(l < c.amount) by omega)]
        rw [ihr]
        omega

theorem potsLoop_sum (L : List Nat) :
    ∀ (C : List ContribEntry) (acc : List SidePotDTO × Nat),
      L.Sorted (· < ·) →
      (∀ l ∈ L, acc.2 < l) →
      (∀ c ∈ C, acc.2 < c.amount → c.amount ∈ L) →
      sumAmounts (potsLoop C acc L).1
        = sumAmounts acc.1
          + (C.map (fun c =>
              if acc.2 < c.amount then c.amount - acc.2 else 0)).sum := by
  induction L with
  | nil =>
      intro C acc _ _ hmem
      rw [potsLoop]
      have : ∀ c ∈ C, (if acc.2 < c.amount then c.amount - acc.2 else 0) = 0 := by
        intro c hc
        by_cases h : acc.2 < c.amount
        · exact absurd (hmem c hc h) (by simp)
        · rw [if_neg h]
      have hz : (C.map (fun c =>
          if acc.2 < c.amount then c.amount - acc.2 else 0)).sum = 0 := by
        rw [List.sum_eq_zero]
        intro x hx
        obtain ⟨c, hc, hcx⟩ := List.mem_map.mp hx
        rw [← hcx]
        exact this c hc
      omega
  | cons l rest ih =>
      intro C acc hsort hgt hmem
      have hl : acc.2 < l := hgt l (List.mem_cons_self l rest)
      have hrest_gt : ∀ x ∈ rest, l < x :=
        fun x hx => (List.sorted_cons.mp hsort).1 x hx
      rw [potsLoop]
      dsimp only
      rw [if_neg (by omega)]
      have hreach : ∀ c ∈ C, acc.2 < c.amount → l ≤ c.amount := by
        intro c hc hgtc
        have := hmem c hc hgtc
        rcases List.mem_cons.mp this with he | hm
        · omega
        · have := hrest_gt _ hm
          omega
      have hmem' : ∀ c ∈ C, l < c.amount → c.amount ∈ rest := by
        intro c hc hgtc
        have := hmem c hc (by omega)
        rcases List.mem_cons.mp this with he | hm
        · omega
        · exact hm
      have hrec := ih C (acc.1 ++ [⟨(l - acc.2) *
          (C.filter (fun c => decide (l ≤ c.amount))).length,
          ((C.filter (fun c => decide (l ≤ c.amount))).filter
            (fun c => !c.folded)).map (·.playerId)⟩], l)
        (List.sorted_cons.mp hsort).2 hrest_gt hmem'
      dsimp only at hrec
      rw [hrec]
      have hsplit := layer_split_sum C l acc.2 hl hreach
      simp only [sumAmounts, List.map_append, List.sum_append]
      simp only [List.map_cons, List.map_nil, List.sum_cons, List.sum_nil]
      omega

theorem dedup_aux_mem (xs : List Nat) :
    ∀ (acc : List Nat) (x : Nat),
      x ∈ xs.foldl (fun acc x => if acc.contains x then acc else acc ++ [x]) acc
        ↔ x ∈ acc ∨ x ∈ xs := by
  induction xs with
  | nil => intro acc x; simp
  | cons y ys ih =>
      intro acc x
      rw [List.foldl_cons]
      by_cases hy : acc.contains y
      · rw [if_pos hy]
        rw [ih]
        have hym : y ∈ acc := by simpa using hy
        constructor
        · rintro (h | h)
          · exact Or.inl h
          · exact Or.inr (List.mem_cons_of_mem y h)
        · rintro (h | h)
          · exact Or.inl h
          · rcases List.mem_cons.mp h with he | hm
            · exact Or.inl (he ▸ hym)
            · exact Or.inr hm
      · rw [if_neg hy]
        rw [ih]
        simp only [List.mem_append, List.mem_singleton, List.mem_cons]
        tauto

theorem mem_dedupKeepFirst (xs : List Nat) (x : Nat) :
    x ∈ dedupKeepFirst xs ↔ x ∈ xs := by
  rw [dedupKeepFirst, dedup_aux_mem]
  simp

theorem dedup_aux_nodup (xs : List Nat) :
    ∀ acc : List Nat, acc.Nodup →
      (xs.foldl (fun acc x => if acc.contains x then acc else acc ++ [x]) acc).Nodup := by
  induction xs with
  | nil => intro acc h; exact h
  | cons y ys ih =>
      intro acc h
      rw [List.foldl_cons]
      by_cases hy : acc.contains y
      · rw [if_pos hy]
        exact ih acc h
      · rw [if_neg hy]
        refine ih _ ?_
        rw [List.nodup_append]
        refine ⟨h, List.nodup_singleton y, ?_⟩
        intro a ha hb
        simp at hb
        subst hb
        exact hy (by simpa using ha)

theorem dedupKeepFirst_nodup (xs : List Nat) : (dedupKeepFirst xs).Nodup := by
  rw [dedupKeepFirst]
  exact dedup_aux_nodup xs [] List.nodup_nil

theorem mergeSort_sorted_le (xs : List Nat) :
    (xs.mergeSort (fun a b => decide (a ≤ b))).Sorted (· ≤ ·) := by
  have hs := @List.sorted_mergeSort Nat (fun a b => decide (a ≤ b))
    (fun a b c hab hbc => by simp at hab hbc ⊢; omega)
    (fun a b => by simp [Bool.or_eq_true]; omega) xs
  refine hs.imp ?_
  intro a b hab
  simpa using hab

theorem levels_sorted_lt (xs : List Nat) :
    ((dedupKeepFirst xs).mergeSort (fun a b => decide (a ≤ b))).Sorted (· < ·) := by
  have hperm : ((dedupKeepFirst xs).mergeSort (fun a b => decide (a ≤ b))).Perm
      (dedupKeepFirst xs) := List.mergeSort_perm _ _
  have hnd : ((dedupKeepFirst xs).mergeSort (fun a b => decide (a ≤ b))).Nodup :=
    hperm.nodup_iff.mpr (dedupKeepFirst_nodup xs)
  exact (mergeSort_sorted_le (dedupKeepFirst xs)).lt_of_le hnd

theorem levels_mem (xs : List Nat) (x : Nat) :
    x ∈ xs → x ∈ (dedupKeepFirst xs).mergeSort (fun a b => decide (a ≤ b)) := by
  intro hx
  have hperm : ((dedupKeepFirst xs).mergeSort (fun a b => decide (a ≤ b))).Perm
      (dedupKeepFirst xs) := List.mergeSort_perm _ _
  exact hperm.mem_iff.mpr ((mem_dedupKeepFirst xs x).mpr hx)

theorem contribEntries_sum (m : AList Nat) (players : Players) :
    ((contribEntries m players).map (·.amount)).sum = sumA m := by
  rw [contribEntries]
  induction m with
  | nil => rfl
  | cons e rest ih =>
      rw [List.filterMap_cons]
      by_cases hz : e.2 = 0
      · rw [if_pos hz, ih]
        simp [sumA, hz]
      · rw [if_neg hz]
        dsimp only
        rw [List.map_cons, List.sum_cons, ih]
        simp [sumA]

theorem contribEntries_empty_sum (m : AList Nat) (players : Players)
    (h : (contribEntries m players).isEmpty = true) :
    sumA m = 0 := by
  rw [← contribEntries_sum m players]
  rw [List.isEmpty_iff] at h
  rw [h]
  rfl

theorem contribEntries_pos (m : AList Nat) (players : Players) :
    ∀ c ∈ contribEntries m players, 0 < c.amount := by
  rw [contribEntries]
  intro c hc
  obtain ⟨e, _, hfe⟩ := List.mem_filterMap.mp hc
  by_cases hz : e.2 = 0
  · rw [if_pos hz] at hfe
    exact absurd hfe (by simp)
  · rw [if_neg hz] at hfe
    dsimp only at hfe
    have h2 : c.amount = e.2 := by
      rw [← Option.some.inj hfe]
    omega

theorem contribEntries_not_folded (m : AList Nat) (players : Players) :
    ∀ c ∈ contribEntries m players, c.folded = false →
      ∃ p, lookupA players c.playerId = some p ∧
        p.status ≠ PlayerStatus.folded := by
  rw [contribEntries]
  intro c hc hnf
  obtain ⟨e, _, hfe⟩ := List.mem_filterMap.mp hc
  by_cases hz : e.2 = 0
  · rw [if_pos hz] at hfe
    exact absurd hfe (by simp)
  · rw [if_neg hz] at hfe
    dsimp only at hfe
    have hce := (Option.some.inj hfe).symm
    subst hce
    dsimp only at hnf ⊢
    cases hlp : lookupA players e.1 with
    | none => rw [hlp] at hnf; simp at hnf
    | some p =>
        rw [hlp] at hnf
        dsimp only at hnf
        refine ⟨p, rfl, ?_⟩
        intro hst
        rw [hst] at hnf
        simp at hnf

theorem potsLoop_eligible (L : List Nat) :
    ∀ (C : List ContribEntry) (acc : List SidePotDTO × Nat)
      (Q : String → Prop),
      (∀ pot ∈ acc.1, ∀ id ∈ pot.eligiblePlayerIds, Q id) →
      (∀ c ∈ C, c.folded = false → Q c.playerId) →
      ∀ pot ∈ (potsLoop C acc L).1, ∀ id ∈ pot.eligiblePlayerIds, Q id := by
  induction L with
  | nil =>
      intro C acc Q hacc _
      rw [potsLoop]
      exact hacc
  | cons l rest ih =>
      intro C acc Q hacc hC
      rw [potsLoop]
      dsimp only
      by_cases h0 : l - acc.2 = 0
      · rw [if_pos h0]
        exact ih C acc Q hacc hC
      · rw [if_neg h0]
        refine ih C _ Q ?_ hC
        intro pot hpot id hid
        rcases List.mem_append.mp hpot with hm | hm
        · exact hacc pot hm id hid
        · simp only [List.mem_singleton] at hm
          subst hm
          dsimp only at hid
          obtain ⟨c, hcmem, hcid⟩ := List.mem_map.mp hid
          have hc2 := List.mem_filter.mp hcmem
          have hcC := (List.mem_filter.mp hc2.1).1
          have hnf : c.folded = false := by simpa using hc2.2
          exact hcid ▸ hC c hcC hnf

theorem mergeStep_eligible (merged : List SidePotDTO) (pot : SidePotDTO)
    (Q : String → Prop)
    (hm : ∀ p ∈ merged, ∀ id ∈ p.eligiblePlayerIds, Q id)
    (hp : ∀ id ∈ pot.eligiblePlayerIds, Q id) :
    ∀ p ∈ mergeStep merged pot, ∀ id ∈ p.eligiblePlayerIds, Q id := by
  cases hl : merged.getLast? with
  | none =>
      rw [mergeStep, hl]
      intro p hmem
      rcases List.mem_append.mp hmem with h | h
      · exact hm p h
      · simp only [List.mem_singleton] at h
        subst h
        exact hp
  | some last =>
      rw [mergeStep, hl]
      dsimp only
      have hne : merged ≠ [] := by
        intro he
        rw [he] at hl
        simp at hl
      have hlastmem : last ∈ merged := by
        have := List.getLast?_eq_getLast merged hne
        rw [hl] at this
        rw [Option.some.inj this]
        exact List.getLast_mem hne
      split
      · intro p hmem
        rcases List.mem_append.mp hmem with h | h
        · exact hm p (List.dropLast_subset merged h)
        · simp only [List.mem_singleton] at h
          subst h
          exact hm last hlastmem
      · intro p hmem
        rcases List.mem_append.mp hmem with h | h
        · exact hm p h
        · simp only [List.mem_singleton] at h
          subst h
          exact hp

theorem foldl_mergeStep_eligible (pots : List SidePotDTO) :
    ∀ (acc : List SidePotDTO) (Q : String → Prop),
      (∀ p ∈ acc, ∀ id ∈ p.eligiblePlayerIds, Q id) →
      (∀ p ∈ pots, ∀ id ∈ p.eligiblePlayerIds, Q id) →
      ∀ p ∈ pots.foldl mergeStep acc, ∀ id ∈ p.eligiblePlayerIds, Q id := by
  induction pots with
  | nil => intro acc Q hacc _; exact hacc
  | cons q qs ih =>
      intro acc Q hacc hpots
      rw [List.foldl_cons]
      refine ih _ Q ?_ (fun p hp => hpots p (List.mem_cons_of_mem q hp))
      exact mergeStep_eligible acc q Q hacc
        (hpots q (List.mem_cons_self q qs))

/-- Three seats, all still active, for the concrete side-pot example. -/
def psC6 : Players :=
  [("A", ⟨"A", "A", 0, 0, [], PlayerStatus.active, false, false, false⟩),
   ("B", ⟨"B", "B", 0, 0, [], PlayerStatus.active, false, false, false⟩),
   ("C", ⟨"C", "C", 0, 0, [], PlayerStatus.active, false, false, false⟩)]

/-- Chip conservation of the side-pot calculator alone: the emitted pot
amounts always sum to the total of the contribution map. -/
theorem calculateSidePots_sum (m : AList Nat) (players : Players) :
    sumAmounts (calculateSidePots m players) = sumA m := by
  rw [calculateSidePots]
  dsimp only
  by_cases hemp : (contribEntries m players).isEmpty
  · rw [if_pos hemp, contribEntries_empty_sum m players hemp]
    rfl
  · rw [if_neg hemp]
    rw [foldl_mergeStep_sum]
    have hsum := potsLoop_sum
        ((dedupKeepFirst ((contribEntries m players).map (·.amount))).mergeSort
          (fun a b => decide (a ≤ b)))
        (contribEntries m players) (([] : List SidePotDTO), 0)
        (levels_sorted_lt _)
        (by
          intro l hli
          have hperm : (((dedupKeepFirst ((contribEntries m players).map
              (·.amount))).mergeSort (fun a b => decide (a ≤ b)))).Perm
              (dedupKeepFirst ((contribEntries m players).map (·.amount))) :=
            List.mergeSort_perm _ _
          have hml := (mem_dedupKeepFirst _ _).mp (hperm.mem_iff.mp hli)
          obtain ⟨c, hc, hca⟩ := List.mem_map.mp hml
          have := contribEntries_pos m players c hc
          dsimp only
          omega)
        (by
          intro c hc _
          exact levels_mem _ _ (List.mem_map_of_mem _ hc))
    dsimp only at hsum
    rw [hsum]
    have hmapeq : ((contribEntries m players).map (fun c =>
        if 0 < c.amount then c.amount - 0 else 0))
        = (contribEntries m players).map (·.amount) := by
      refine List.map_congr_left ?_
      intro c hc
      rw [if_pos (contribEntries_pos m players c hc)]
      omega
    rw [hmapeq, contribEntries_sum]
    simp [sumAmounts]

/-- C6: the side-pot calculator conserves chips — the pot amounts sum to
the total of all (positive) contributions; a folded (or missing) seat is
never in any pot's eligible set; and on contributions A = 200,
B = C = 500 with nobody folded it returns a 600 main pot for {A, B, C}
and a 600 side pot for {B, C}. -/
theorem c6_side_pots_conservation (m : AList Nat) (players : Players) :
    sumAmounts (calculateSidePots m players) = sumA m ∧
    (∀ pot ∈ calculateSidePots m players, ∀ id ∈ pot.eligiblePlayerIds,
      ∃ p, lookupA players id = some p ∧ p.status ≠ PlayerStatus.folded) ∧
    calculateSidePots [("A", 200), ("B", 500), ("C", 500)] psC6
      = [⟨600, ["A", "B", "C"]⟩, ⟨600, ["B", "C"]⟩] := by
  have hms2 : (dedupKeepFirst ((contribEntries
      [("A", 200), ("B", 500), ("C", 500)] psC6).map (·.amount))).mergeSort
      (fun a b => decide (a ≤ b)) = [200, 500] := by
    have h1 : dedupKeepFirst ((contribEntries
        [("A", 200), ("B", 500), ("C", 500)] psC6).map (·.amount))
        = [200, 500] := by rfl
    rw [h1]
    exact List.eq_of_perm_of_sorted (List.mergeSort_perm [200, 500] _)
      (mergeSort_sorted_le [200, 500])
      (List.sorted_cons.mpr ⟨by intro b hb; simp at hb; omega,
        List.sorted_singleton 500⟩)
  refine ⟨calculateSidePots_sum m players, ?_, ?_⟩
  · rw [calculateSidePots]
    dsimp only
    by_cases hemp : (contribEntries m players).isEmpty
    · rw [if_pos hemp]
      intro pot hpot
      simp at hpot
    · rw [if_neg hemp]
      refine foldl_mergeStep_eligible _ [] _ (by intro p hp; simp at hp) ?_
      exact potsLoop_eligible _ (contribEntries m players) _ _
        (by intro p hp; simp at hp)
        (contribEntries_not_folded m players)
  · rw [calculateSidePots]
    dsimp only
    rw [hms2]
    rfl


theorem lookupA_mem {ν : Type} (m : AList ν) (k : String) (v : ν)
    (h : lookupA m k = some v) : (k, v) ∈ m := by
  induction m with
  | nil => exact absurd h (by simp [lookupA])
  | cons e rest ih =>
      rw [lookupA_cons] at h
      by_cases hb : (e.1 == k) = true
      · rw [if_pos hb] at h
        have h1 : e.1 = k := by simpa using hb
        have h2 : e.2 = v := Option.some.inj h
        have he : e = (k, v) := Prod.ext h1 h2
        rw [← he]
        exact List.mem_cons_self e rest
      · rw [if_neg hb] at h
        exact List.mem_cons_of_mem e (ih h)

theorem foldl_max_mem (l : List Nat) :
    ∀ init : Nat, l.foldl max init = init ∨ l.foldl max init ∈ l := by
  induction l with
  | nil => intro init; exact Or.inl rfl
  | cons a t ih =>
      intro init
      rw [List.foldl_cons]
      rcases ih (max init a) with h | h
      · rw [h]
        rcases Nat.le_total init a with hle | hle
        · rw [Nat.max_eq_right hle]
          exact Or.inr (List.mem_cons_self a t)
        · rw [Nat.max_eq_left hle]
          exact Or.inl rfl
      · exact Or.inr (List.mem_cons_of_mem a h)

theorem foldl_max_init_le (l : List Nat) :
    ∀ init : Nat, init ≤ l.foldl max init := by
  induction l with
  | nil => intro init; exact Nat.le_refl init
  | cons a t ih =>
      intro init
      rw [List.foldl_cons]
      exact Nat.le_trans (Nat.le_max_left init a) (ih (max init a))

theorem foldl_max_ge (l : List Nat) :
    ∀ (init x : Nat), x ∈ l → x ≤ l.foldl max init := by
  induction l with
  | nil => intro init x hx; simp at hx
  | cons a t ih =>
      intro init x hx
      rw [List.foldl_cons]
      rcases List.mem_cons.mp hx with he | hm
      · subst he
        exact Nat.le_trans (Nat.le_max_right init x) (foldl_max_init_le t _)
      · exact ih (max init a) x hm

theorem max_attained (scores : List Nat) (hne : scores ≠ []) :
    scores.foldl max 0 ∈ scores := by
  rcases foldl_max_mem scores 0 with h | h
  · obtain ⟨a, t, rfl⟩ := List.exists_cons_of_ne_nil hne
    rw [h]
    have ha : a ≤ (a :: t).foldl max 0 :=
      foldl_max_ge (a :: t) 0 a (List.mem_cons_self a t)
    rw [h] at ha
    have ha0 : a = 0 := by omega
    rw [← ha0]
    exact List.mem_cons_self a t
  · exact h

theorem awardSplit_sum (hc : AList HandResult) (s r : Nat) :
    ∀ (l : List (Nat × String)) (acc : AList Nat × AList HandResult),
      sumA (awardSplit hc s r l acc).1
        = sumA acc.1 + (l.map (fun iw => s + if iw.1 = 0 then r else 0)).sum := by
  intro l
  induction l with
  | nil => intro acc; simp [awardSplit]
  | cons iw rest ih =>
      intro acc
      rw [awardSplit, ih]
      dsimp only
      rw [sumA_setA_add]
      rw [List.map_cons, List.sum_cons]
      omega

theorem enumFrom_tail_sum (s r : Nat) (ws : List String) :
    ∀ k : Nat, k ≠ 0 →
      ((ws.enumFrom k).map (fun iw => s + if iw.1 = 0 then r else 0)).sum
        = s * ws.length := by
  induction ws with
  | nil => intro k _; simp
  | cons w rest ih =>
      intro k hk
      rw [List.enumFrom_cons]
      rw [List.map_cons, List.sum_cons, ih (k + 1) (by omega)]
      rw [if_neg hk]
      simp [Nat.mul_succ]
      omega

theorem enum_award_sum (s r : Nat) (w : String) (ws : List String) :
    (((w :: ws).enum).map (fun iw => s + if iw.1 = 0 then r else 0)).sum
      = s * (ws.length + 1) + r := by
  rw [List.enum_cons, List.map_cons, List.sum_cons,
    enumFrom_tail_sum s r ws 1 (by omega)]
  rw [if_pos rfl]
  ring_nf

theorem split_total (hc : AList HandResult) (acc : AList Nat × AList HandResult)
    (amount : Nat) (pw : List String) (hne : pw ≠ []) :
    sumA (awardSplit hc (amount / pw.length)
        (amount - amount / pw.length * pw.length) pw.enum acc).1
      = sumA acc.1 + amount := by
  obtain ⟨h, t, rfl⟩ := List.exists_cons_of_ne_nil hne
  rw [awardSplit_sum, enum_award_sum]
  have hdiv : amount / (t.length + 1) * (t.length + 1) ≤ amount :=
    Nat.div_mul_le_self _ _
  simp only [List.length_cons] at hdiv ⊢
  omega

theorem awardPot_sum (hc : AList HandResult)
    (acc : AList Nat × AList HandResult) (pot : SidePotDTO)
    (hne : pot.eligiblePlayerIds.filter
      (fun id => (lookupA hc id).isSome) ≠ []) :
    sumA (awardPot hc acc pot).1 = sumA acc.1 + pot.amount := by
  rw [awardPot]
  dsimp only
  cases helig : pot.eligiblePlayerIds.filter
      (fun id => (lookupA hc id).isSome) with
  | nil => exact absurd helig hne
  | cons w rest =>
      cases rest with
      | nil =>
          dsimp only
          rw [sumA_setA_add]
      | cons w2 rest2 =>
          dsimp only
          have hscne : ((w :: w2 :: rest2).map (fun id =>
              ((lookupA hc id).getD defaultHandResult).score)) ≠ [] := by
            simp
          have hbmem := max_attained _ hscne
          obtain ⟨id, hidmem, hidscore⟩ := List.mem_map.mp hbmem
          have hpwmem : id ∈ (w :: w2 :: rest2).filter (fun id =>
              ((lookupA hc id).getD defaultHandResult).score
                == ((w :: w2 :: rest2).map (fun id =>
                  ((lookupA hc id).getD defaultHandResult).score)).foldl max 0) := by
            refine List.mem_filter.mpr ⟨hidmem, ?_⟩
            exact beq_iff_eq.mpr hidscore
          have hpwne := List.ne_nil_of_mem hpwmem
          exact split_total hc acc pot.amount _ hpwne
theorem foldl_awardPot_sum (hc : AList HandResult) (pots : List SidePotDTO) :
    ∀ acc : AList Nat × AList HandResult,
      (∀ pot ∈ pots, pot.eligiblePlayerIds.filter
        (fun id => (lookupA hc id).isSome) ≠ []) →
      sumA ((pots.foldl (awardPot hc) acc).1) = sumA acc.1 + sumAmounts pots := by
  induction pots with
  | nil => intro acc _; simp [sumAmounts]
  | cons q qs ih =>
      intro acc hne
      rw [List.foldl_cons, ih _ (fun pot hp => hne pot (List.mem_cons_of_mem q hp)),
        awardPot_sum hc acc q (hne q (List.mem_cons_self q qs))]
      simp only [sumAmounts, List.map_cons, List.sum_cons]
      omega

theorem potsLoop_mem_eligible (L : List Nat) :
    ∀ (C : List ContribEntry) (acc : List SidePotDTO × Nat) (p : String),
      (∀ l ∈ L, ∃ c ∈ C, c.playerId = p ∧ c.folded = false ∧ l ≤ c.amount) →
      (∀ pot ∈ acc.1, p ∈ pot.eligiblePlayerIds) →
      ∀ pot ∈ (potsLoop C acc L).1, p ∈ pot.eligiblePlayerIds := by
  induction L with
  | nil =>
      intro C acc p _ hacc
      rw [potsLoop]
      exact hacc
  | cons l rest ih =>
      intro C acc p hwit hacc
      rw [potsLoop]
      dsimp only
      by_cases h0 : l - acc.2 = 0
      · rw [if_pos h0]
        exact ih C acc p (fun x hx => hwit x (List.mem_cons_of_mem l hx)) hacc
      · rw [if_neg h0]
        refine ih C _ p (fun x hx => hwit x (List.mem_cons_of_mem l hx)) ?_
        intro pot hpot
        rcases List.mem_append.mp hpot with hm | hm
        · exact hacc pot hm
        · simp only [List.mem_singleton] at hm
          subst hm
          dsimp only
          obtain ⟨c, hcC, hcp, hcf, hcl⟩ := hwit l (List.mem_cons_self l rest)
          refine List.mem_map.mpr ⟨c, ?_, hcp⟩
          refine List.mem_filter.mpr ⟨?_, by rw [hcf]; rfl⟩
          exact List.mem_filter.mpr ⟨hcC, by simpa using hcl⟩

theorem mergeStep_mem_eligible (merged : List SidePotDTO) (pot : SidePotDTO)
    (p : String)
    (hm : ∀ q ∈ merged, p ∈ q.eligiblePlayerIds)
    (hp : p ∈ pot.eligiblePlayerIds) :
    ∀ q ∈ mergeStep merged pot, p ∈ q.eligiblePlayerIds := by
  cases hl : merged.getLast? with
  | none =>
      rw [mergeStep, hl]
      intro q hmem
      rcases List.mem_append.mp hmem with h | h
      · exact hm q h
      · simp only [List.mem_singleton] at h
        subst h
        exact hp
  | some last =>
      rw [mergeStep, hl]
      dsimp only
      have hne : merged ≠ [] := by
        intro he
        rw [he] at hl
        simp at hl
      have hlastmem : last ∈ merged := by
        have := List.getLast?_eq_getLast merged hne
        rw [hl] at this
        rw [Option.some.inj this]
        exact List.getLast_mem hne
      split
      · intro q hmem
        rcases List.mem_append.mp hmem with h | h
        · exact hm q (List.dropLast_subset merged h)
        · simp only [List.mem_singleton] at h
          subst h
          exact hm last hlastmem
      · intro q hmem
        rcases List.mem_append.mp hmem with h | h
        · exact hm q h
        · simp only [List.mem_singleton] at h
          subst h
          exact hp

theorem foldl_mergeStep_mem_eligible (pots : List SidePotDTO) :
    ∀ (acc : List SidePotDTO) (p : String),
      (∀ q ∈ acc, p ∈ q.eligiblePlayerIds) →
      (∀ q ∈ pots, p ∈ q.eligiblePlayerIds) →
      ∀ q ∈ pots.foldl mergeStep acc, p ∈ q.eligiblePlayerIds := by
  induction pots with
  | nil => intro acc p hacc _; exact hacc
  | cons q qs ih =>
      intro acc p hacc hpots
      rw [List.foldl_cons]
      refine ih _ p ?_ (fun x hx => hpots x (List.mem_cons_of_mem q hx))
      exact mergeStep_mem_eligible acc q p hacc
        (hpots q (List.mem_cons_self q qs))

theorem contribEntries_amount (m : AList Nat) (players : Players) :
    ∀ c ∈ contribEntries m players, ∃ e ∈ m, c.amount = e.2 := by
  rw [contribEntries]
  intro c hc
  obtain ⟨e, hem, hfe⟩ := List.mem_filterMap.mp hc
  by_cases hz : e.2 = 0
  · rw [if_pos hz] at hfe
    exact absurd hfe (by simp)
  · rw [if_neg hz] at hfe
    dsimp only at hfe
    refine ⟨e, hem, ?_⟩
    rw [← Option.some.inj hfe]

theorem calculateSidePots_mem_eligible (m : AList Nat) (players : Players)
    (p : String) (pl : Player)
    (hlookp : lookupA players p = some pl)
    (hnotf : pl.status ≠ PlayerStatus.folded)
    (hpos : 0 < getDA m p 0)
    (hmax : ∀ e ∈ m, e.2 ≤ getDA m p 0) :
    ∀ pot ∈ calculateSidePots m players, p ∈ pot.eligiblePlayerIds := by
  have hlookm : lookupA m p = some (getDA m p 0) := by
    cases hl : lookupA m p with
    | none => rw [getDA, hl] at hpos; simp at hpos
    | some v => rw [getDA, hl]; rfl
  have hmemm : (p, getDA m p 0) ∈ m := lookupA_mem m p _ hlookm
  have hcw : (⟨p, getDA m p 0, false⟩ : ContribEntry)
      ∈ contribEntries m players := by
    rw [contribEntries]
    refine List.mem_filterMap.mpr ⟨(p, getDA m p 0), hmemm, ?_⟩
    rw [if_neg (by dsimp only; omega)]
    dsimp only
    rw [hlookp]
    dsimp only
    have hb : (pl.status == PlayerStatus.folded) = false :=
      beq_eq_false_iff_ne.mpr hnotf
    rw [hb]
  rw [calculateSidePots]
  dsimp only
  by_cases hemp : (contribEntries m players).isEmpty
  · rw [if_pos hemp]
    intro pot hpot
    simp at hpot
  · rw [if_neg hemp]
    refine foldl_mergeStep_mem_eligible _ [] p (by intro q hq; simp at hq) ?_
    refine potsLoop_mem_eligible _ (contribEntries m players) _ p ?_
      (by intro q hq; simp at hq)
    intro l hl
    refine ⟨⟨p, getDA m p 0, false⟩, hcw, rfl, rfl, ?_⟩
    have hlm := (mem_dedupKeepFirst _ _).mp
      ((List.mergeSort_perm _ _).mem_iff.mp hl)
    obtain ⟨c, hcC, hceq⟩ := List.mem_map.mp hlm
    obtain ⟨e, hem, heq⟩ := contribEntries_amount m players c hcC
    have := hmax e hem
    show l ≤ getDA m p 0
    omega

/-- Guarded conservation of the distribution: at a showdown where the
highest total contribution is attained by a seat that is still in
contention (active or all-in, seated in playerOrder with a consistent id)
and the pot equals the contribution total, the winner amounts returned by
`determineWinners` sum exactly to the pot, including on split pots with
remainders and single-seat top layers.  The guard is essential: when every
top-layer contributor has folded, the layer is dropped (see the reachable
trace below). -/
theorem c7_distribution_conserves_pot (gs : GameState) (players : Players)
    (p : String) (pl : Player)
    (hpot : gs.pot = sumA gs.playerContributions)
    (hmemorder : p ∈ gs.playerOrder)
    (hlookp : lookupA players p = some pl)
    (hid : pl.id = p)
    (hstatus : pl.status = PlayerStatus.active ∨ pl.status = PlayerStatus.allIn)
    (hpos : 0 < getDA gs.playerContributions p 0)
    (hmax : ∀ e ∈ gs.playerContributions,
      e.2 ≤ getDA gs.playerContributions p 0) :
    ((determineWinners gs players).map (·.amount)).sum = gs.pot := by
  have hplact : pl ∈ getActivePlayers gs players := by
    rw [getActivePlayers]
    refine List.mem_filter.mpr ⟨?_, ?_⟩
    · exact List.mem_filterMap.mpr ⟨p, hmemorder, hlookp⟩
    · rcases hstatus with h | h <;> rw [h] <;> rfl
  have hnotf : pl.status ≠ PlayerStatus.folded := by
    intro hc
    rcases hstatus with h | h <;> rw [h] at hc <;> exact absurd hc (by decide)
  have hkey : p ∈ ((getActivePlayers gs players).map
      (fun q => (q.id, evaluateHand (q.hand ++ gs.communityCards) q.id))).map
        (·.1) := by
    rw [List.map_map]
    exact List.mem_map.mpr ⟨pl, hplact, hid⟩
  obtain ⟨hr, hhr⟩ := lookupA_isSome_of_mem_keys _ p hkey
  have hhc : (lookupA ((getActivePlayers gs players).map
      (fun q => (q.id, evaluateHand (q.hand ++ gs.communityCards) q.id)))
        p).isSome = true := by
    rw [hhr]
    rfl
  have hcond : ∀ pot ∈ calculateSidePots gs.playerContributions players,
      pot.eligiblePlayerIds.filter (fun id =>
        (lookupA ((getActivePlayers gs players).map
          (fun q => (q.id, evaluateHand (q.hand ++ gs.communityCards) q.id)))
          id).isSome) ≠ [] := by
    intro pot hpotmem
    have hpelig := calculateSidePots_mem_eligible gs.playerContributions
      players p pl hlookp hnotf hpos hmax pot hpotmem
    exact List.ne_nil_of_mem
      (List.mem_filter.mpr ⟨hpelig, by rw [hhc]⟩)
  rw [determineWinners]
  set HC := (getActivePlayers gs players).map
    (fun q => (q.id, evaluateHand (q.hand ++ gs.communityCards) q.id)) with hHC
  set ACC := List.foldl (awardPot HC) (([] : AList Nat), ([] : AList HandResult))
    (calculateSidePots gs.playerContributions players) with hACC
  set W := ACC.1.map (fun e =>
    (⟨e.1, e.2, (lookupA ACC.2 e.1).getD defaultHandResult⟩ : Winner)) with hW
  have hps : ((W.mergeSort (fun a b => decide (b.amount ≤ a.amount))).map
        (fun x => x.amount)).sum
      = (W.map (fun x => x.amount)).sum :=
    ((List.mergeSort_perm W _).map _).sum_eq
  rw [hps, hW, List.map_map]
  show sumA ACC.1 = gs.pot
  rw [hACC, foldl_awardPot_sum _ _ _ hcond, calculateSidePots_sum, hpot]
  simp [sumA]

/-- A concrete two-seat showdown: equal contributions of 600, pot 1200. -/
def psC7 : Players :=
  [("A", ⟨"A", "A", 0, 0,
      [⟨Suit.hearts, Rank.rA⟩, ⟨Suit.diamonds, Rank.rA⟩],
      PlayerStatus.active, false, false, false⟩),
   ("B", ⟨"B", "B", 0, 0,
      [⟨Suit.clubs, Rank.rK⟩, ⟨Suit.spades, Rank.rQ⟩],
      PlayerStatus.allIn, false, false, false⟩)]

def gsC7 : GameState :=
  ⟨"r", GamePhase.showdown,
   [],
   [⟨Suit.hearts, Rank.r2⟩, ⟨Suit.diamonds, Rank.r7⟩, ⟨Suit.clubs, Rank.r9⟩,
    ⟨Suit.spades, Rank.r3⟩, ⟨Suit.hearts, Rank.rJ⟩],
   1200, 0, 0, 20, 0, 0, ["A", "B"],
   [], [("A", 600), ("B", 600)], [], none, 1⟩

theorem c7_distribution_conserves_pot_witness :
    ((determineWinners gsC7 psC7).map (·.amount)).sum = gsC7.pot :=
  c7_distribution_conserves_pot gsC7 psC7 "A"
    ⟨"A", "A", 0, 0, [⟨Suit.hearts, Rank.rA⟩, ⟨Suit.diamonds, Rank.rA⟩],
      PlayerStatus.active, false, false, false⟩
    (by decide) (by decide) (by rfl) (by rfl) (Or.inl rfl) (by decide)
    (by decide)

/-- A heads-up room whose small-blind seat holds exactly the small blind. -/
def roomC8 : Room :=
  ⟨"r8", "room",
    [("A", ⟨"A", "A", 1000, 0, [], PlayerStatus.waiting, false, false, false⟩),
     ("B", ⟨"B", "B", 10, 0, [], PlayerStatus.waiting, false, false, false⟩)],
    6, 10, 20, none⟩

def tC8 : Table :=
  match startNextHand roomC8 1 freshDeck with
  | some r => ⟨r.1, r.2⟩
  | none => ⟨emptyGameState, []⟩

/-- C8: blind posting does NOT set the all-in status.  At the reachable
state right after starting a hand on a heads-up room whose small-blind
seat B holds exactly the small blind (10, blinds 10/20), seat B has 0
chips and two hole cards in play, yet its status is `active`, not
`all-in` — contradicting both the spec's blind-posting rule ("short-stack
posts all-in") and its invariant that a seat is `allIn` exactly when its
chips reach 0 while holding cards.  The action paths of `processAction`
(call / bet / raise / all-in) all set `allIn` when chips hit 0; the blind
posting in `startNextHand` is the one path that forgets to. -/
theorem c8_blind_posting_skips_allin_status :
    Reach roomC8 1 freshDeck tC8 ∧
    "B" ∈ tC8.gs.playerOrder ∧
    ((lookupA tC8.players "B").map (fun p => (p.chips, p.hand.length, p.status)))
      = some (0, 2, PlayerStatus.active) ∧
    ((lookupA tC8.players "B").map (·.status)) ≠ some PlayerStatus.allIn :=
  ⟨Reach.start tC8.gs tC8.players rfl, by decide, by decide, by decide⟩


theorem cardValue_le (r : Rank) : cardValue r ≤ 14 := by
  cases r <;> decide

theorem mergeSort_sorted_ge (xs : List Nat) :
    (xs.mergeSort (fun a b => decide (b ≤ a))).Sorted (· ≥ ·) := by
  have hs := @List.sorted_mergeSort Nat (fun a b => decide (b ≤ a))
    (fun a b c hab hbc => by simp at hab hbc ⊢; omega)
    (fun a b => by simp [Bool.or_eq_true]; omega) xs
  refine hs.imp ?_
  intro a b hab
  simpa using hab

theorem mergeSort_desc_eq (xs target : List Nat)
    (hp : xs.Perm target) (hs : target.Sorted (· ≥ ·)) :
    xs.mergeSort (fun a b => decide (b ≤ a)) = target :=
  List.eq_of_perm_of_sorted ((List.mergeSort_perm xs _).trans hp)
    (mergeSort_sorted_ge xs) hs

theorem mergeSort_asc_eq (xs target : List Nat)
    (hp : xs.Perm target) (hs : target.Sorted (· ≤ ·)) :
    xs.mergeSort (fun a b => decide (a ≤ b)) = target :=
  List.eq_of_perm_of_sorted ((List.mergeSort_perm xs _).trans hp)
    (mergeSort_sorted_le xs) hs

/-- The tie-break order `scoreHand` sorts rank counts by: higher count
first, then higher value first. -/
def countOrd : Nat × Nat → Nat × Nat → Prop :=
  fun x y => (if x.2 = y.2 then y.1 ≤ x.1 else y.2 ≤ x.2)

instance : DecidableRel countOrd := fun a b => by
  unfold countOrd
  infer_instance

instance : IsAntisymm (Nat × Nat) countOrd := ⟨by
  intro a b hab hba
  unfold countOrd at hab hba
  by_cases h : a.2 = b.2
  · rw [if_pos h] at hab
    rw [if_pos h.symm] at hba
    exact Prod.ext (Nat.le_antisymm hba hab) h
  · rw [if_neg h] at hab
    rw [if_neg (fun he => h he.symm)] at hba
    exact absurd (Nat.le_antisymm hab hba) (fun he => h he.symm)⟩

theorem mergeSort_sorted_countOrd (xs : List (Nat × Nat)) :
    (xs.mergeSort (fun x y =>
      decide (if x.2 = y.2 then y.1 ≤ x.1 else y.2 ≤ x.2))).Sorted countOrd := by
  have hs := @List.sorted_mergeSort (Nat × Nat)
    (fun x y => decide (if x.2 = y.2 then y.1 ≤ x.1 else y.2 ≤ x.2))
    (fun a b c hab hbc => by
      simp only [decide_eq_true_eq] at hab hbc ⊢
      split at hab <;> split at hbc <;> split <;> omega)
    (fun a b => by
      simp only [Bool.or_eq_true, decide_eq_true_eq]
      split <;> split <;> omega) xs
  refine hs.imp ?_
  intro a b hab
  unfold countOrd
  simpa using hab

theorem mergeSort_countOrd_eq (xs target : List (Nat × Nat))
    (hp : xs.Perm target) (hs : target.Sorted countOrd) :
    xs.mergeSort (fun x y =>
      decide (if x.2 = y.2 then y.1 ≤ x.1 else y.2 ≤ x.2)) = target :=
  List.eq_of_perm_of_sorted ((List.mergeSort_perm xs _).trans hp)
    (mergeSort_sorted_countOrd xs) hs

theorem lookupN_not_mem (acc : List (Nat × Nat)) (v : Nat)
    (h : v ∉ acc.map (·.1)) : lookupN acc v = none := by
  induction acc with
  | nil => rfl
  | cons e rest ih =>
      rw [lookupN, List.find?_cons]
      have hne : (e.1 == v) = false := by
        refine beq_eq_false_iff_ne.mpr ?_
        intro he
        exact h (by rw [← he]; exact List.mem_map_of_mem _ (List.mem_cons_self e rest))
      rw [hne]
      have hrest : v ∉ rest.map (·.1) :=
        fun hm => h (List.mem_cons_of_mem _ hm)
      have := ih hrest
      rw [lookupN] at this
      exact this

theorem setN_not_mem (acc : List (Nat × Nat)) (v x : Nat)
    (h : v ∉ acc.map (·.1)) : setN acc v x = acc ++ [(v, x)] := by
  induction acc with
  | nil => rfl
  | cons e rest ih =>
      rw [setN]
      have hne : (e.1 == v) = false := by
        refine beq_eq_false_iff_ne.mpr ?_
        intro he
        exact h (by rw [← he]; exact List.mem_map_of_mem _ (List.mem_cons_self e rest))
      rw [if_neg (by simp [hne])]
      rw [ih (fun hm => h (List.mem_cons_of_mem _ hm))]
      rfl

theorem getRankCounts_distinct_aux (cards : List Card) :
    ∀ acc : List (Nat × Nat),
      (cards.map (fun c => cardValue c.rank)).Nodup →
      (∀ v ∈ cards.map (fun c => cardValue c.rank), v ∉ acc.map (·.1)) →
      cards.foldl (fun counts c =>
          setN counts (cardValue c.rank)
            ((lookupN counts (cardValue c.rank)).getD 0 + 1)) acc
        = acc ++ (cards.map (fun c => cardValue c.rank)).map (fun v => (v, 1)) := by
  induction cards with
  | nil => intro acc _ _; simp
  | cons c rest ih =>
      intro acc hnd hdisj
      rw [List.foldl_cons]
      have hv : cardValue c.rank ∉ acc.map (·.1) :=
        hdisj _ (List.mem_map_of_mem _ (List.mem_cons_self c rest))
      rw [lookupN_not_mem acc _ hv]
      simp only [Option.getD_none, Nat.zero_add]
      rw [setN_not_mem acc _ _ hv]
      rw [List.map_cons] at hnd
      have hnd2 := (List.nodup_cons.mp hnd).2
      have hhead := (List.nodup_cons.mp hnd).1
      rw [ih (acc ++ [(cardValue c.rank, 1)]) hnd2 ?_]
      · simp
      · intro v hvm
        rw [List.map_append]
        intro hmem
        rcases List.mem_append.mp hmem with hm | hm
        · exact hdisj v (List.mem_cons_of_mem _ hvm) hm
        · simp at hm
          exact hhead (hm ▸ hvm)

theorem getRankCounts_distinct (cards : List Card)
    (hnd : (cards.map (fun c => cardValue c.rank)).Nodup) :
    getRankCounts cards
      = (cards.map (fun c => cardValue c.rank)).map (fun v => (v, 1)) := by
  rw [getRankCounts]
  rw [getRankCounts_distinct_aux cards [] hnd (by intro v _ hm; simp at hm)]
  rfl
theorem mergeSort_values_le (cards : List Card) (i : Nat) :
    (((cards.map (fun c => cardValue c.rank)).mergeSort
      (fun a b => decide (b ≤ a)))[i]?.getD 0) ≤ 14 := by
  cases h : ((cards.map (fun c => cardValue c.rank)).mergeSort
      (fun a b => decide (b ≤ a)))[i]? with
  | none => simp
  | some v =>
      simp only [Option.getD_some]
      have hm := mem_of_getElem?_eq h
      have hm2 := (List.mergeSort_perm _ _).mem_iff.mp hm
      obtain ⟨c, _, hcv⟩ := List.mem_map.mp hm2
      rw [← hcv]
      exact cardValue_le c.rank

theorem setN_mem (acc : List (Nat × Nat)) (k v : Nat) :
    ∀ e ∈ setN acc k v, e ∈ acc ∨ e = (k, v) := by
  induction acc with
  | nil =>
      intro e he
      simp [setN] at he
      exact Or.inr he
  | cons a rest ih =>
      intro e he
      rw [setN] at he
      by_cases hk : (a.1 == k) = true
      · rw [if_pos hk] at he
        rcases List.mem_cons.mp he with he1 | he1
        · exact Or.inr he1
        · exact Or.inl (List.mem_cons_of_mem a he1)
      · rw [if_neg hk] at he
        rcases List.mem_cons.mp he with he1 | he1
        · exact Or.inl (he1 ▸ List.mem_cons_self a rest)
        · rcases ih e he1 with h2 | h2
          · exact Or.inl (List.mem_cons_of_mem a h2)
          · exact Or.inr h2

theorem getRankCounts_keys_le_aux (cards : List Card) :
    ∀ acc : List (Nat × Nat), (∀ e ∈ acc, e.1 ≤ 14) →
      ∀ e ∈ cards.foldl (fun counts c =>
          setN counts (cardValue c.rank)
            ((lookupN counts (cardValue c.rank)).getD 0 + 1)) acc,
        e.1 ≤ 14 := by
  induction cards with
  | nil => intro acc hacc; exact hacc
  | cons c rest ih =>
      intro acc hacc
      rw [List.foldl_cons]
      refine ih _ ?_
      intro e he
      rcases setN_mem acc (cardValue c.rank) _ e he with h | h
      · exact hacc e h
      · rw [h]
        exact cardValue_le c.rank

theorem getRankCounts_keys_le (cards : List Card) :
    ∀ e ∈ getRankCounts cards, e.1 ≤ 14 := by
  rw [getRankCounts]
  exact getRankCounts_keys_le_aux cards [] (by intro e he; simp at he)

theorem countValues_keys_le (cards : List Card) :
    ∀ e ∈ (getRankCounts cards).mergeSort (fun x y =>
      decide (if x.2 = y.2 then y.1 ≤ x.1 else y.2 ≤ x.2)), e.1 ≤ 14 := by
  intro e he
  exact getRankCounts_keys_le cards e ((List.mergeSort_perm _ _).mem_iff.mp he)

theorem cv_key_le (cards : List Card) (i : Nat) :
    ((((getRankCounts cards).mergeSort (fun x y =>
      decide (if x.2 = y.2 then y.1 ≤ x.1 else y.2 ≤ x.2)))[i]?.getD (0, 0)).1
      : Nat) ≤ 14 := by
  cases h : (((getRankCounts cards).mergeSort (fun x y =>
      decide (if x.2 = y.2 then y.1 ≤ x.1 else y.2 ≤ x.2))))[i]? with
  | none => simp
  | some e =>
      simp only [Option.getD_some]
      exact countValues_keys_le cards e (mem_of_getElem?_eq h)

theorem kickers_le (cards : List Card) (i : Nat) :
    (((((getRankCounts cards).mergeSort (fun x y =>
        decide (if x.2 = y.2 then y.1 ≤ x.1 else y.2 ≤ x.2))).drop 1).map
          (·.1)).mergeSort (fun a b => decide (b ≤ a)))[i]?.getD 0 ≤ 14 := by
  cases h : (((((getRankCounts cards).mergeSort (fun x y =>
      decide (if x.2 = y.2 then y.1 ≤ x.1 else y.2 ≤ x.2))).drop 1).map
        (·.1)).mergeSort (fun a b => decide (b ≤ a)))[i]? with
  | none => simp
  | some v =>
      simp only [Option.getD_some]
      have hm := (List.mergeSort_perm _ _).mem_iff.mp (mem_of_getElem?_eq h)
      obtain ⟨e, he, hev⟩ := List.mem_map.mp hm
      rw [← hev]
      exact countValues_keys_le cards e (List.drop_subset _ _ he)

theorem scoreHand_wheel (cards : List Card)
    (hw : (cards.map (fun c => cardValue c.rank)).Perm [14, 5, 4, 3, 2]) :
    scoreHand cards
      = if isFlush cards then ⟨HandRank.straightFlush, 8 * 10 ^ 10 + 5⟩
        else ⟨HandRank.straight, 4 * 10 ^ 10 + 5⟩ := by
  have hdesc : (cards.map (fun c => cardValue c.rank)).mergeSort
      (fun a b => decide (b ≤ a)) = [14, 5, 4, 3, 2] :=
    mergeSort_desc_eq _ _ hw (by decide)
  have hasc : (cards.map (fun c => cardValue c.rank)).mergeSort
      (fun a b => decide (a ≤ b)) = [2, 3, 4, 5, 14] :=
    mergeSort_asc_eq _ _ (hw.trans (by decide)) (by decide)
  have hstraight : isStraight cards = true := by
    rw [isStraight]
    rw [hasc]
    decide
  have hnd : (cards.map (fun c => cardValue c.rank)).Nodup :=
    hw.nodup_iff.mpr (by decide)
  have hcounts := getRankCounts_distinct cards hnd
  have hcv : (getRankCounts cards).mergeSort (fun x y =>
      decide (if x.2 = y.2 then y.1 ≤ x.1 else y.2 ≤ x.2))
      = [(14, 1), (5, 1), (4, 1), (3, 1), (2, 1)] := by
    refine mergeSort_countOrd_eq _ _ ?_ ?_
    · rw [hcounts]
      exact hw.map (fun v => (v, 1))
    · decide
  rw [scoreHand]
  dsimp only
  rw [hdesc, hstraight, hcv]
  by_cases hf : isFlush cards
  · rw [hf]
    rfl
  · have hf2 : isFlush cards = false := by
      rwa [Bool.not_eq_true] at hf
    rw [hf2]
    rfl

theorem scoreHand_six_high (cards : List Card)
    (hw : (cards.map (fun c => cardValue c.rank)).Perm [6, 5, 4, 3, 2]) :
    scoreHand cards
      = if isFlush cards then ⟨HandRank.straightFlush, 8 * 10 ^ 10 + 6⟩
        else ⟨HandRank.straight, 4 * 10 ^ 10 + 6⟩ := by
  have hdesc : (cards.map (fun c => cardValue c.rank)).mergeSort
      (fun a b => decide (b ≤ a)) = [6, 5, 4, 3, 2] :=
    mergeSort_desc_eq _ _ hw (by decide)
  have hasc : (cards.map (fun c => cardValue c.rank)).mergeSort
      (fun a b => decide (a ≤ b)) = [2, 3, 4, 5, 6] :=
    mergeSort_asc_eq _ _ (hw.trans (by decide)) (by decide)
  have hstraight : isStraight cards = true := by
    rw [isStraight]
    rw [hasc]
    rfl
  have hnd : (cards.map (fun c => cardValue c.rank)).Nodup :=
    hw.nodup_iff.mpr (by decide)
  have hcounts := getRankCounts_distinct cards hnd
  have hcv : (getRankCounts cards).mergeSort (fun x y =>
      decide (if x.2 = y.2 then y.1 ≤ x.1 else y.2 ≤ x.2))
      = [(6, 1), (5, 1), (4, 1), (3, 1), (2, 1)] := by
    refine mergeSort_countOrd_eq _ _ ?_ ?_
    · rw [hcounts]
      exact hw.map (fun v => (v, 1))
    · decide
  rw [scoreHand]
  dsimp only
  rw [hdesc, hstraight, hcv]
  by_cases hf : isFlush cards
  · rw [hf]
    rfl
  · have hf2 : isFlush cards = false := by
      rwa [Bool.not_eq_true] at hf
    rw [hf2]
    rfl

set_option maxHeartbeats 1000000 in
theorem scoreHand_below_straight (cards : List Card)
    (h : (scoreHand cards).rank = HandRank.highCard ∨
      (scoreHand cards).rank = HandRank.pair ∨
      (scoreHand cards).rank = HandRank.twoPair ∨
      (scoreHand cards).rank = HandRank.threeOfAKind) :
    (scoreHand cards).score < 4 * 10 ^ 10 := by
  have hv0 := mergeSort_values_le cards 0
  have hv1 := mergeSort_values_le cards 1
  have hv2 := mergeSort_values_le cards 2
  have hv3 := mergeSort_values_le cards 3
  have hv4 := mergeSort_values_le cards 4
  have hc0 := cv_key_le cards 0
  have hc1 := cv_key_le cards 1
  have hc2 := cv_key_le cards 2
  have hk0 := kickers_le cards 0
  have hk1 := kickers_le cards 1
  have hk2 := kickers_le cards 2
  have p2 : (10 : Nat) ^ 2 = 100 := by norm_num
  have p4 : (10 : Nat) ^ 4 = 10000 := by norm_num
  have p6 : (10 : Nat) ^ 6 = 1000000 := by norm_num
  have p8 : (10 : Nat) ^ 8 = 100000000 := by norm_num
  have p10 : (10 : Nat) ^ 10 = 10000000000 := by norm_num
  revert h
  rw [scoreHand]
  dsimp only
  generalize hK : ((((getRankCounts cards).mergeSort (fun x y =>
      decide (if x.2 = y.2 then y.1 ≤ x.1 else y.2 ≤ x.2))).drop 1).map
        (·.1)).mergeSort (fun a b => decide (b ≤ a)) = K at hk0 hk1 hk2 ⊢
  generalize hCV : (getRankCounts cards).mergeSort (fun x y =>
      decide (if x.2 = y.2 then y.1 ≤ x.1 else y.2 ≤ x.2)) = CV
    at hc0 hc1 hc2 ⊢
  generalize hVD : (cards.map (fun c => cardValue c.rank)).mergeSort
      (fun a b => decide (b ≤ a)) = VD at hv0 hv1 hv2 hv3 hv4 ⊢
  generalize hF : isFlush cards = F
  generalize hS : isStraight cards = S
  split
  · intro h
    rcases h with h | h | h | h <;> exact HandRank.noConfusion h
  split
  · intro h
    rcases h with h | h | h | h <;> exact HandRank.noConfusion h
  split
  · intro h
    rcases h with h | h | h | h <;> exact HandRank.noConfusion h
  split
  · intro h
    rcases h with h | h | h | h <;> exact HandRank.noConfusion h
  split
  · intro h
    rcases h with h | h | h | h <;> exact HandRank.noConfusion h
  split
  · intro h
    rcases h with h | h | h | h <;> exact HandRank.noConfusion h
  split
  · intro _
    dsimp only
    rw [p4, p6, p8, p10] at *
    omega
  split
  · intro _
    dsimp only
    rw [p6, p8, p10] at *
    omega
  split
  · intro _
    dsimp only
    rw [p2, p4, p6, p8, p10] at *
    omega
  · intro _
    dsimp only
    rw [kickerSum]
    rw [p2, p4, p6, p8, p10] at *
    omega

/-- C9: a wheel hand (values A-2-3-4-5) scores as a straight, or straight
flush when suited, whose high card is 5 — not ace; any 6-high straight of
the same flush-ness scores strictly higher; and the wheel scores strictly
higher than every hand the evaluator classifies in a lower category
(three of a kind, two pair, pair or high card). -/
theorem c9_wheel_straight_five_high (cards : List Card)
    (hw : (cards.map (fun c => cardValue c.rank)).Perm [14, 5, 4, 3, 2]) :
    (scoreHand cards
      = if isFlush cards then ⟨HandRank.straightFlush, 8 * 10 ^ 10 + 5⟩
        else ⟨HandRank.straight, 4 * 10 ^ 10 + 5⟩) ∧
    (∀ cards6 : List Card,
      (cards6.map (fun c => cardValue c.rank)).Perm [6, 5, 4, 3, 2] →
      isFlush cards6 = isFlush cards →
      (scoreHand cards).score < (scoreHand cards6).score) ∧
    (∀ other : List Card,
      ((scoreHand other).rank = HandRank.highCard ∨
       (scoreHand other).rank = HandRank.pair ∨
       (scoreHand other).rank = HandRank.twoPair ∨
       (scoreHand other).rank = HandRank.threeOfAKind) →
      (scoreHand other).score < (scoreHand cards).score) := by
  have h1 := scoreHand_wheel cards hw
  have p10 : (10 : Nat) ^ 10 = 10000000000 := by norm_num
  refine ⟨h1, ?_, ?_⟩
  · intro cards6 hw6 hfe
    have h6 := scoreHand_six_high cards6 hw6
    rw [h1, h6, hfe]
    by_cases hf : isFlush cards
    · rw [hf, if_pos rfl, if_pos rfl]
      dsimp only
      omega
    · rw [Bool.not_eq_true] at hf
      rw [hf, if_neg (by decide), if_neg (by decide)]
      dsimp only
      omega
  · intro other hother
    have hb := scoreHand_below_straight other hother
    rw [h1]
    rw [p10] at hb
    by_cases hf : isFlush cards
    · rw [hf, if_pos rfl]
      dsimp only
      rw [p10]
      omega
    · rw [Bool.not_eq_true] at hf
      rw [hf, if_neg (by decide)]
      dsimp only
      rw [p10]
      omega

/-- A concrete unsuited wheel. -/
def cardsW9 : List Card :=
  [⟨Suit.hearts, Rank.r5⟩, ⟨Suit.diamonds, Rank.r4⟩, ⟨Suit.clubs, Rank.r3⟩,
   ⟨Suit.spades, Rank.r2⟩, ⟨Suit.hearts, Rank.rA⟩]

theorem c9_wheel_straight_five_high_witness :
    (scoreHand cardsW9
      = if isFlush cardsW9 then ⟨HandRank.straightFlush, 8 * 10 ^ 10 + 5⟩
        else ⟨HandRank.straight, 4 * 10 ^ 10 + 5⟩) ∧
    (∀ cards6 : List Card,
      (cards6.map (fun c => cardValue c.rank)).Perm [6, 5, 4, 3, 2] →
      isFlush cards6 = isFlush cardsW9 →
      (scoreHand cardsW9).score < (scoreHand cards6).score) ∧
    (∀ other : List Card,
      ((scoreHand other).rank = HandRank.highCard ∨
       (scoreHand other).rank = HandRank.pair ∨
       (scoreHand other).rank = HandRank.twoPair ∨
       (scoreHand other).rank = HandRank.threeOfAKind) →
      (scoreHand other).score < (scoreHand cardsW9).score) :=
  c9_wheel_straight_five_high cardsW9 (by decide)


/-- A pot whose eligible seats all lack a cached hand is silently skipped
by the distribution loop. -/
theorem awardPot_empty (hc : AList HandResult)
    (acc : AList Nat × AList HandResult) (pot : SidePotDTO)
    (h : pot.eligiblePlayerIds.filter
      (fun id => (lookupA hc id).isSome) = []) :
    awardPot hc acc pot = acc := by
  rw [awardPot]
  dsimp only
  rw [h]

theorem split_total_le (hc : AList HandResult)
    (acc : AList Nat × AList HandResult) (amount : Nat) (pw : List String) :
    sumA (awardSplit hc (amount / pw.length)
        (amount - amount / pw.length * pw.length) pw.enum acc).1
      ≤ sumA acc.1 + amount := by
  cases pw with
  | nil => exact Nat.le_add_right _ _
  | cons h t => exact Nat.le_of_eq (split_total hc acc amount (h :: t) (by simp))

/-- One distribution step never pays out more than the pot it handles. -/
theorem awardPot_sum_le (hc : AList HandResult)
    (acc : AList Nat × AList HandResult) (pot : SidePotDTO) :
    sumA (awardPot hc acc pot).1 ≤ sumA acc.1 + pot.amount := by
  rw [awardPot]
  dsimp only
  cases helig : pot.eligiblePlayerIds.filter
      (fun id => (lookupA hc id).isSome) with
  | nil => exact Nat.le_add_right _ _
  | cons w rest =>
      cases rest with
      | nil =>
          dsimp only
          rw [sumA_setA_add]
      | cons w2 rest2 =>
          dsimp only
          exact split_total_le hc acc pot.amount _

/-- A four-seat room whose two big stacks can fold away the top layer. -/
def roomC7cx : Room :=
  ⟨"r7x", "room",
    [("A", ⟨"A", "A", 1000, 0, [], PlayerStatus.waiting, false, false, false⟩),
     ("B", ⟨"B", "B", 300, 0, [], PlayerStatus.waiting, false, false, false⟩),
     ("C", ⟨"C", "C", 200, 0, [], PlayerStatus.waiting, false, false, false⟩),
     ("D", ⟨"D", "D", 1000, 0, [], PlayerStatus.waiting, false, false, false⟩)],
    6, 10, 20, none⟩

def t7a : Table :=
  match startNextHand roomC7cx 3 freshDeck with
  | some r => ⟨r.1, r.2⟩
  | none => ⟨emptyGameState, []⟩

def t7b : Table := stepAct t7a "D" ActionType.raise (some 700)

def t7c : Table := stepAct t7b "A" ActionType.call none

def t7d : Table := stepAct t7c "B" ActionType.allIn none

def t7e : Table := stepAct t7d "C" ActionType.allIn none

def t7f : Table := stepAct t7e "D" ActionType.fold none

def t7g : Table := stepAct t7f "A" ActionType.fold none

def t7h : Table := stepRunout t7g

def t7i : Table := stepRunout t7h

/-- C7: pot distribution does NOT always sum to the pot — chips can be
destroyed.  At a reachable showdown (D raises to 700, A calls, B and C
move all-in for 300 and 200, then D and A fold the flop in turn and the
board runs out), seats B and C are still in — at least two non-folded
seats remain — and the pot is 1900 = the contribution total, but the top
800-chip layer (the folded excess of A and D above 300) gets an empty
eligible set and `determineWinners` silently skips it: the winner amounts
sum to at most 1100, strictly less than the pot.  This contradicts the
spec's conservation rule for every showdown resolution. -/
theorem c7_pot_distribution_drops_chips :
    Reach roomC7cx 3 freshDeck t7i ∧
    t7i.gs.phase = GamePhase.showdown ∧
    ((lookupA t7i.players "B").map (·.status)) = some PlayerStatus.allIn ∧
    ((lookupA t7i.players "C").map (·.status)) = some PlayerStatus.allIn ∧
    t7i.gs.pot = 1900 ∧
    t7i.gs.pot = sumA t7i.gs.playerContributions ∧
    calculateSidePots t7i.gs.playerContributions t7i.players
      = [⟨800, ["B", "C"]⟩, ⟨300, ["B"]⟩, ⟨800, []⟩] ∧
    ((determineWinners t7i.gs t7i.players).map (·.amount)).sum ≤ 1100 ∧
    ((determineWinners t7i.gs t7i.players).map (·.amount)).sum
      ≠ t7i.gs.pot := by
  have hpots : calculateSidePots t7i.gs.playerContributions t7i.players
      = [⟨800, ["B", "C"]⟩, ⟨300, ["B"]⟩, ⟨800, []⟩] := by
    have hlv : (dedupKeepFirst ((contribEntries t7i.gs.playerContributions
        t7i.players).map (·.amount))).mergeSort (fun a b => decide (a ≤ b))
        = [200, 300, 700] := by
      have h1 : dedupKeepFirst ((contribEntries t7i.gs.playerContributions
          t7i.players).map (·.amount)) = [300, 200, 700] := by decide
      rw [h1]
      exact mergeSort_asc_eq _ _ (by decide) (by decide)
    rw [calculateSidePots]
    dsimp only
    rw [hlv]
    decide
  have hsum : ((determineWinners t7i.gs t7i.players).map (·.amount)).sum
      ≤ 1100 := by
    rw [determineWinners]
    set HC := (getActivePlayers t7i.gs t7i.players).map
      (fun q => (q.id, evaluateHand (q.hand ++ t7i.gs.communityCards) q.id))
      with hHC
    set ACC := List.foldl (awardPot HC)
      (([] : AList Nat), ([] : AList HandResult))
      (calculateSidePots t7i.gs.playerContributions t7i.players) with hACC
    set W := ACC.1.map (fun e =>
      (⟨e.1, e.2, (lookupA ACC.2 e.1).getD defaultHandResult⟩ : Winner))
      with hW
    have hps : ((W.mergeSort (fun a b => decide (b.amount ≤ a.amount))).map
          (fun x => x.amount)).sum
        = (W.map (fun x => x.amount)).sum :=
      ((List.mergeSort_perm W _).map _).sum_eq
    rw [hps, hW, List.map_map]
    show sumA ACC.1 ≤ 1100
    rw [hACC, hpots]
    rw [List.foldl_cons, List.foldl_cons, List.foldl_cons, List.foldl_nil]
    rw [awardPot_empty HC _ ⟨800, []⟩ (by rfl)]
    have h1 := awardPot_sum_le HC (([] : AList Nat), ([] : AList HandResult))
      ⟨800, ["B", "C"]⟩
    have h2 := awardPot_sum_le HC
      (awardPot HC (([] : AList Nat), ([] : AList HandResult))
        ⟨800, ["B", "C"]⟩) ⟨300, ["B"]⟩
    have h0 : sumA ([] : AList Nat) = 0 := rfl
    dsimp only at h1 h2 ⊢
    omega
  refine ⟨?_, by decide, by decide, by decide, by decide, by decide, hpots,
    hsum, ?_⟩
  · have r0 : Reach roomC7cx 3 freshDeck t7a :=
      Reach.start t7a.gs t7a.players rfl
    have r1 : Reach roomC7cx 3 freshDeck t7b :=
      Reach.step _ _ r0 (Step.act t7a "D" ActionType.raise (some 700) rfl)
    have r2 : Reach roomC7cx 3 freshDeck t7c :=
      Reach.step _ _ r1 (Step.act t7b "A" ActionType.call none rfl)
    have r3 : Reach roomC7cx 3 freshDeck t7d :=
      Reach.step _ _ r2 (Step.act t7c "B" ActionType.allIn none rfl)
    have r4 : Reach roomC7cx 3 freshDeck t7e :=
      Reach.step _ _ r3 (Step.act t7d "C" ActionType.allIn none rfl)
    have r5 : Reach roomC7cx 3 freshDeck t7f :=
      Reach.step _ _ r4 (Step.act t7e "D" ActionType.fold none rfl)
    have r6 : Reach roomC7cx 3 freshDeck t7g :=
      Reach.step _ _ r5 (Step.act t7f "A" ActionType.fold none rfl)
    have r7 : Reach roomC7cx 3 freshDeck t7h :=
      Reach.step _ _ r6 (Step.runout t7g)
    exact Reach.step _ _ r7 (Step.runout t7h)
  · have hpot : t7i.gs.pot = 1900 := by decide
    omega

end Poker
